import Mathlib

/-!
# Shallow embedding of `src/qparser.cpp`

A `std::string` is modelled as a `List Char`, one list element per `char`.
The cursor `unsigned int index` is a `Nat`.  Increments of the cursor are
exact for statements whose length plus one fits an `unsigned int` (the cursor
is only incremented while it is at most the statement length); the one
subtraction, in `pushback_token_to_stream`, is modelled modulo `2^32`.

Loops of the source are structural recursions on a fuel argument.  For the
loops of the lexer and of the valid-token reader the fuel passed by the callers
is the number of characters left, which is enough because each iteration
advances the cursor: `get_next_token_loop_fuel`, `skip_invalid_tokens_fuel_eq`,
`skip_to_closing_fuel_eq` and `get_next_valid_token_rec_depth` show that more
fuel changes nothing.  The driver loop of `ProcessQuery` has no such bound in
the source, so its fuel is a parameter and running out of fuel is the result
`none`.
-/

namespace QParser

/-! ## Data model -/

/-- The enum `token_state_t`. -/
inductive token_state_t where
  | NONE
  | SELECT
  | FROM
  | WHERE
  deriving DecidableEq, Repr

/-- The struct `lookup_table_for_name_alias_t`. -/
structure lookup_table_for_name_alias_t where
  table_name : List Char
  alias_name : List Char
  deriving DecidableEq, Repr

/-- The struct `query_state_t`, a frame of `query_state_stack`. -/
structure query_state_t where
  table_name_list : List (List Char)
  current_state : token_state_t
  previous_state : token_state_t
  select_triggered_query_state_change : Bool
  deriving DecidableEq, Repr

/-- The struct `TblColList`, the result of `ProcessQuery`. -/
structure TblColList where
  mTblNameList : List (List Char)
  mTblColNameList : List (List Char)
  deriving DecidableEq, Repr

/-- The expression `s[i]` on a `std::string`: the character at `i`, and the
terminating `'\0'` at `i = s.length()`. -/
def charAt (s : List Char) (i : Nat) : Char :=
  s.getD i (Char.ofNat 0)

/-! ## Classifier -/

/-- The function `convert_to_uppercase`: `::toupper` on every character. -/
def convert_to_uppercase (token : List Char) : List Char :=
  token.map Char.toUpper

/-- The array `keywords` of `is_token_reserved`. -/
def keywords : List (List Char) :=
  ["SELECT".toList, "FROM".toList, "WHERE".toList, "GROUP".toList, "BY".toList,
   "HAVING".toList, "AND".toList, "OR".toList, "NOT".toList, "INNER".toList,
   "OUTER".toList, "ON".toList, "JOIN".toList, "ORDER".toList, "LIMIT".toList,
   "ASC".toList, "DESC".toList, "ALL".toList, "LEFT".toList, "RIGHT".toList,
   "UNION".toList, "LIKE".toList, "MAX".toList, "IN".toList, "IS".toList,
   "NULL".toList, "NOW".toList]

/-- The function `is_token_reserved`. -/
def is_token_reserved (token : List Char) : Bool :=
  decide (convert_to_uppercase token ∈ keywords)

/-- The array `operators` of `is_token_operator`. -/
def operators : List Char :=
  ['+', '-', '\\', '*', '=', '.', '<', '>', ':', '!']

/-- The function `is_token_operator`: `token[0]` is one of `operators`. -/
def is_token_operator (token : List Char) : Bool :=
  decide (charAt token 0 ∈ operators)

/-- The function `is_valid_tblcol_name`. -/
def is_valid_tblcol_name (token : List Char) : Bool :=
  if token = [] then false
  else if is_token_operator token || is_token_reserved token then false
  else if (charAt token 0).isDigit then false
  else if token = [','] ∨ token = [';'] then false
  else true

/-- The function `is_number`. -/
def is_number (s : List Char) : Bool :=
  !s.isEmpty && s.all Char.isDigit

/-- The function `is_valid_token`. -/
def is_valid_token (token : List Char) : Bool :=
  if charAt token 0 = '\'' ∨ charAt token 0 = '"' ∨ token = [] then false
  else if is_number token then false
  else true

/-- The function `sanitize_token`: for a token that starts with a double quote
or a backtick, the characters strictly between the first and the last one; the
empty string for any other token.  The source's iterator loop reads past the
end for a token shorter than two characters, which the lexer never produces
with such a first character. -/
def sanitize_token (token : List Char) : List Char :=
  if charAt token 0 = '"' ∨ charAt token 0 = '`' then (token.drop 1).dropLast
  else []

/-! ## Lexer -/

/-- The array `token_separators` of `get_next_token`. -/
def token_separators : List Char :=
  [',', '+', '.', '-', '*', '\\', '=', '(', ')', '<', '>', ';', ':', '!']

/-- The loop `while (input[index] != q and index < input.length())` of the
three quoted cases of `get_next_token`, which appends every character it
passes to the token. -/
def scan_quoted (input : List Char) (q : Char) :
    Nat → Nat → List Char → List Char × Nat
  | 0, index, token => (token, index)
  | fuel + 1, index, token =>
    if charAt input index ≠ q ∧ index < input.length then
      scan_quoted input q fuel (index + 1) (token ++ [charAt input index])
    else (token, index)

/-- One of the three quoted cases of `get_next_token`, entered at the opening
delimiter `q`. -/
def read_quoted (input : List Char) (q : Char) (index : Nat) (token : List Char) :
    List Char × Nat :=
  let token := token ++ [charAt input index]
  let index := index + 1
  let r := scan_quoted input q (input.length - index) index token
  (r.1 ++ [charAt input r.2], r.2 + 1)

/-- The loop `while (input[index] == ' ' and index < input.length())` of the
space-eating case of `get_next_token`. -/
def skip_spaces (input : List Char) : Nat → Nat → Nat
  | 0, index => index
  | fuel + 1, index =>
    if charAt input index = ' ' ∧ index < input.length then
      skip_spaces input fuel (index + 1)
    else index

/-- The `for` loop of `get_next_token`.  In the space-eating case the cursor is
at least one when `(*index)--` runs, and `continue` then runs the `(*index)++`
of the `for` statement: `index - 1 + 1`. -/
def get_next_token_loop (input : List Char) :
    Nat → Nat → List Char → List Char × Nat
  | 0, index, token => (token, index)
  | fuel + 1, index, token =>
    if ¬ index < input.length then (token, index)
    else if charAt input index = '\'' then read_quoted input '\'' index token
    else if charAt input index = '"' then read_quoted input '"' index token
    else if charAt input index = '`' then read_quoted input '`' index token
    else if charAt input index ∈ token_separators then
      if token.length ≠ 0 then (token, index)
      else (token ++ [charAt input index], index + 1)
    else
      let token :=
        if charAt input index ≠ ' ' then token ++ [charAt input index] else token
      if charAt input (index + 1) = ' ' ∧ token ≠ [] then (token, index + 1)
      else if charAt input index = ' ' then
        let index := skip_spaces input (input.length - (index + 1)) (index + 1)
        if token ≠ [] then (token, index)
        else get_next_token_loop input fuel (index - 1 + 1) token
      else get_next_token_loop input fuel (index + 1) token

/-- The function `get_next_token`: the token read at `index` and the updated
`index`. -/
def get_next_token (input : List Char) (index : Nat) : List Char × Nat :=
  get_next_token_loop input (input.length - index) index []

/-! ## Valid-token reader -/

/-- The loop `while (!is_valid_token(current_token) and index < length)` of
`get_next_valid_token`. -/
def skip_invalid_tokens (query : List Char) :
    Nat → List Char × Nat → List Char × Nat
  | 0, r => r
  | fuel + 1, r =>
    if ¬ is_valid_token r.1 ∧ r.2 < query.length then
      skip_invalid_tokens query fuel (get_next_token query r.2)
    else r

/-- The loop `while (current_token != ")" and index < length)` of the CONCAT
case of `get_next_valid_token`. -/
def skip_to_closing (query : List Char) :
    Nat → List Char × Nat → List Char × Nat
  | 0, r => r
  | fuel + 1, r =>
    if r.1 ≠ [')'] ∧ r.2 < query.length then
      skip_to_closing query fuel (get_next_token query r.2)
    else r

/-- The function `get_next_valid_token`, with a bound on the depth of its
recursive call.  The call is made only with the cursor at or past the end of
the query, where the callee returns the empty token without recursing, so a
depth of one is never exceeded and the result at depth zero is that empty
token. -/
def get_next_valid_token_rec (query : List Char) :
    Nat → Nat → List Char × Nat
  | 0, index => ([], index)
  | depth + 1, index =>
    let r := get_next_token query index
    let r := skip_invalid_tokens query (query.length - r.2) r
    if query.length ≤ r.2 ∧ ¬ is_valid_token r.1 then ([], r.2)
    else
      let current_token := if charAt r.1 0 = '`' then sanitize_token r.1 else r.1
      let index := r.2
      if convert_to_uppercase current_token = "CONCAT".toList then
        let r := get_next_token query index
        let r := skip_to_closing query (query.length - r.2) r
        if r.2 < query.length then ([], r.2)
        else get_next_valid_token_rec query depth r.2
      else if convert_to_uppercase current_token = "MAX".toList then
        let tmp := get_next_token query index
        if tmp.1 ≠ ['('] then ([], tmp.2)
        else
          let col := get_next_token query tmp.2
          let tmp := get_next_token query col.2
          if tmp.1 ≠ [')'] then ([], tmp.2)
          else (col.1, tmp.2)
      else (current_token, index)

/-- The function `get_next_valid_token`. -/
def get_next_valid_token (query : List Char) (index : Nat) : List Char × Nat :=
  get_next_valid_token_rec query 2 index

/-- The function `pushback_token_to_stream`: an `unsigned int` subtraction. -/
def pushback_token_to_stream (token : List Char) (stream_index : Nat) : Nat :=
  (stream_index + 4294967296 - token.length % 4294967296) % 4294967296

/-! ## Alias table and result accumulator -/

/-- The function `find_table_name_of_alias_tblname`. -/
def find_table_name_of_alias_tblname
    (mylist : List lookup_table_for_name_alias_t) (alias_name : List Char) :
    List Char :=
  if alias_name = [] ∧ mylist ≠ [] then
    match mylist.getLast? with
    | some e => e.table_name
    | none => alias_name
  else
    match mylist.find? (fun e => decide (e.alias_name = alias_name)) with
    | some e => e.table_name
    | none => alias_name

/-- The function `store_table_name_uniquely`. -/
def store_table_name_uniquely (mTblNameList : List (List Char))
    (table_name : List Char) : List (List Char) :=
  if table_name ∈ mTblNameList then mTblNameList
  else mTblNameList ++ [table_name]

/-- The function `store_table_col_name_uniquely`. -/
def store_table_col_name_uniquely (mTblColNameList : List (List Char))
    (tblcol_name : List Char) : List (List Char) :=
  if tblcol_name ∈ mTblColNameList then mTblColNameList
  else mTblColNameList ++ [tblcol_name]

/-! ## Extraction state machine -/

/-- What `set_state` leaves behind: its return value, the two states it
updates through its pointer arguments, and the global `state_reset_needed`. -/
structure SetStateResult where
  changed : Bool
  current_state : token_state_t
  previous_state : token_state_t
  state_reset_needed : Bool
  deriving DecidableEq, Repr

/-- The function `set_state`. -/
def set_state (token : List Char) (current_state previous_state : token_state_t)
    (state_reset_needed : Bool) : SetStateResult :=
  let token_in_cap := convert_to_uppercase token
  if token_in_cap = "SELECT".toList ∨ token_in_cap = "UNION".toList then
    { changed := true, current_state := .SELECT, previous_state := .SELECT,
      state_reset_needed := true }
  else if token_in_cap = "FROM".toList ∨ token_in_cap = "JOIN".toList then
    { changed := decide (token_state_t.FROM ≠ current_state),
      current_state := .FROM, previous_state := current_state,
      state_reset_needed := state_reset_needed }
  else if token_in_cap = "WHERE".toList ∨ token_in_cap = "ON".toList
      ∨ token_in_cap = "BY".toList then
    { changed := decide (token_state_t.WHERE ≠ current_state),
      current_state := .WHERE, previous_state := current_state,
      state_reset_needed := state_reset_needed }
  else
    { changed := false, current_state := current_state,
      previous_state := previous_state, state_reset_needed := state_reset_needed }

/-- The variables of `ProcessQuery` that live across iterations of its
`while` loop, together with the global flag `state_reset_needed`.  The top of
`query_state_stack` is the head of the list. -/
structure DriverState where
  index : Nat
  table_name_list : List (List Char)
  current_state : token_state_t
  previous_state : token_state_t
  lookup_table_list : List lookup_table_for_name_alias_t
  query_state_stack : List query_state_t
  pRes : TblColList
  state_reset_needed : Bool
  deriving DecidableEq, Repr

/-- How one iteration of the `while` loop of `ProcessQuery` ends: `next` for
`continue` or falling off the end of the body, `done` for `return pRes`. -/
inductive Outcome where
  | next (st : DriverState)
  | done (st : DriverState)
  deriving DecidableEq, Repr

/-- The block `if (current_token == "(")` of `ProcessQuery`. -/
def process_open (queryStr : List Char) (st : DriverState) : Outcome :=
  let n := get_next_valid_token queryStr st.index
  let next_token := n.1
  let st := { st with index := n.2 }
  let query_state : query_state_t :=
    { table_name_list := st.table_name_list, current_state := st.current_state,
      previous_state := st.previous_state,
      select_triggered_query_state_change := false }
  let st :=
    if convert_to_uppercase next_token = "SELECT".toList then
      { st with
        query_state_stack :=
          { query_state with select_triggered_query_state_change := true }
            :: st.query_state_stack,
        table_name_list := [], current_state := .NONE, previous_state := .NONE }
    else st
  .next { st with index := pushback_token_to_stream next_token st.index }

/-- The block `if (current_token == ")")` of `ProcessQuery`. -/
def process_close (st : DriverState) : Outcome :=
  match st.query_state_stack with
  | [] => .next st
  | top :: rest =>
    if top.select_triggered_query_state_change = true then
      .next { st with
        table_name_list := top.table_name_list,
        current_state := top.current_state,
        previous_state := top.previous_state,
        query_state_stack := rest }
    else .next st

/-- The block `if (current_state == FROM)` of `ProcessQuery`. -/
def process_from (queryStr : List Char) (current_token : List Char)
    (st : DriverState) : Outcome :=
  if ¬ is_valid_tblcol_name current_token then
    .next { st with index := pushback_token_to_stream current_token st.index }
  else
    let n := get_next_valid_token queryStr st.index
    let next_token := n.1
    let st := { st with index := n.2 }
    if is_valid_tblcol_name next_token = false then
      .next { st with
        table_name_list := st.table_name_list ++ [current_token],
        lookup_table_list := st.lookup_table_list ++
          [{ table_name := current_token, alias_name := [] }],
        index := pushback_token_to_stream next_token st.index }
    else if next_token = "AS".toList ∨ next_token = "as".toList then
      let st := { st with table_name_list := st.table_name_list ++ [current_token] }
      let n := get_next_valid_token queryStr st.index
      let next_token := n.1
      let st := { st with index := n.2 }
      if ¬ is_valid_tblcol_name next_token then .done st
      else
        .next { st with
          lookup_table_list := st.lookup_table_list ++
            [{ table_name := current_token, alias_name := next_token }] }
    else
      .next { st with
        table_name_list := st.table_name_list ++ [current_token],
        lookup_table_list := st.lookup_table_list ++
          [{ table_name := current_token, alias_name := next_token }] }

/-- The block `else if (current_state == WHERE)` of `ProcessQuery`. -/
def process_where (queryStr : List Char) (current_token : List Char)
    (st : DriverState) : Outcome :=
  if ¬ is_valid_tblcol_name current_token then
    .next { st with index := pushback_token_to_stream current_token st.index }
  else
    let n := get_next_valid_token queryStr st.index
    let next_token := n.1
    let st := { st with index := n.2 }
    if next_token = ['.'] then
      let n := get_next_valid_token queryStr st.index
      let next_token := n.1
      let st := { st with index := n.2 }
      if ¬ is_valid_tblcol_name next_token then .done st
      else
        let table_name :=
          find_table_name_of_alias_tblname st.lookup_table_list current_token
        if ¬ is_valid_tblcol_name table_name then .next st
        else
          .next { st with
            pRes :=
              { mTblNameList :=
                  store_table_name_uniquely st.pRes.mTblNameList table_name,
                mTblColNameList :=
                  store_table_col_name_uniquely st.pRes.mTblColNameList
                    (table_name ++ ['.'] ++ next_token) } }
    else if st.table_name_list.length = 1 then
      let table_name := st.table_name_list.headD []
      .next { st with
        pRes :=
          { mTblNameList :=
              store_table_name_uniquely st.pRes.mTblNameList table_name,
            mTblColNameList :=
              store_table_col_name_uniquely st.pRes.mTblColNameList
                (table_name ++ ['.'] ++ current_token) } }
    else
      .next { st with
        pRes :=
          { mTblNameList :=
              st.table_name_list.foldl store_table_name_uniquely
                st.pRes.mTblNameList,
            mTblColNameList :=
              store_table_col_name_uniquely st.pRes.mTblColNameList
                current_token } }

/-- The block `if (state_reset_needed)` of `ProcessQuery`: clear
`table_name_list` and toggle the flag. -/
def apply_state_reset (st : DriverState) : DriverState :=
  if st.state_reset_needed then
    { st with table_name_list := [],
              state_reset_needed := !st.state_reset_needed }
  else st

/-- The rest of the loop body of `ProcessQuery`, below the state-reset block:
the skip of reserved words, operators, commas and semicolons, and the blocks
of the three states. -/
def process_token (queryStr : List Char) (current_token : List Char)
    (st : DriverState) : Outcome :=
  if is_token_reserved current_token || is_token_operator current_token then
    .next st
  else if current_token = [','] ∨ current_token = [';'] then .next st
  else if st.current_state = .FROM then process_from queryStr current_token st
  else if st.current_state = .WHERE then process_where queryStr current_token st
  else .next st

/-- The body of the `while` loop of `ProcessQuery`. -/
def loop_body (queryStr : List Char) (st : DriverState) : Outcome :=
  let r := get_next_valid_token queryStr st.index
  let current_token := r.1
  let st := { st with index := r.2 }
  if current_token = [] then .done st
  else if current_token = ['('] then process_open queryStr st
  else if current_token = [')'] then process_close st
  else
    let s := set_state current_token st.current_state st.previous_state
      st.state_reset_needed
    let st := { st with
      current_state := s.current_state, previous_state := s.previous_state,
      state_reset_needed := s.state_reset_needed }
    if s.changed = true then .next st
    else process_token queryStr current_token (apply_state_reset st)

/-- The `while (index < queryStr.length())` loop of `ProcessQuery`, run for at
most `fuel` iterations; `none` when the loop has not ended by then. -/
def ProcessQuery_loop (queryStr : List Char) : Nat → DriverState → Option DriverState
  | 0, st => if st.index < queryStr.length then none else some st
  | fuel + 1, st =>
    if st.index < queryStr.length then
      match loop_body queryStr st with
      | .done st => some st
      | .next st => ProcessQuery_loop queryStr fuel st
    else some st

/-- The driver state at the entry of `ProcessQuery`, the global flag having the
value it was left with. -/
def initial_state (state_reset_needed : Bool) : DriverState :=
  { index := 0, table_name_list := [], current_state := .NONE,
    previous_state := .NONE, lookup_table_list := [], query_state_stack := [],
    pRes := { mTblNameList := [], mTblColNameList := [] },
    state_reset_needed := state_reset_needed }

/-- The function `ProcessQuery`, called with the global flag
`state_reset_needed` at the given value: the `TblColList` it returns and the
value it leaves the flag with, or `none` when its loop has not ended within
`fuel` iterations. -/
def ProcessQuery (fuel : Nat) (queryStr : List Char) (state_reset_needed : Bool) :
    Option (TblColList × Bool) :=
  (ProcessQuery_loop queryStr fuel (initial_state state_reset_needed)).map
    (fun st => (st.pRes, st.state_reset_needed))


/-! ## Predicates used by the properties -/

/-! ### The reset flag at entry -/

/-- Nothing has been recorded in `table_name_list`, in the driver state or in
a saved frame. -/
def NoTablesYet (st : DriverState) : Prop :=
  st.table_name_list = [] ∧ ∀ f ∈ st.query_state_stack, f.table_name_list = []

/-- Two driver states that agree, or that differ in the reset flag only while
no table has been recorded yet. -/
def FlagRel (st1 st2 : DriverState) : Prop :=
  st1 = st2 ∨ (NoTablesYet st1 ∧ ∃ b, st2 = { st1 with state_reset_needed := b })

/-- The relation `FlagRel` lifted to the outcomes of one iteration. -/
def OutcomeRel : Outcome → Outcome → Prop
  | .next a, .next b => FlagRel a b
  | .done a, .done b => FlagRel a b
  | _, _ => False

/-! ### Steps of the result accumulator -/

/-- The driver state an iteration ends with. -/
def Outcome.state : Outcome → DriverState
  | .next st => st
  | .done st => st

/-- How one iteration may change the result: not at all, by one qualified
entry `t.c`, or by the tables of `tables` and one bare entry `c`. -/
def ResStep (r r' : TblColList) : Prop :=
  r' = r
  ∨ (∃ (t c : List Char),
        r' = { mTblNameList := store_table_name_uniquely r.mTblNameList t,
               mTblColNameList :=
                 store_table_col_name_uniquely r.mTblColNameList (t ++ ['.'] ++ c) })
  ∨ (∃ (tables : List (List Char)) (c : List Char), is_valid_tblcol_name c = true ∧
        r' = { mTblNameList := tables.foldl store_table_name_uniquely r.mTblNameList,
               mTblColNameList := store_table_col_name_uniquely r.mTblColNameList c })

/-! ### Qualifiers of the table-column list -/

/-- The qualifier of an entry of the table-column list, as the specification
reads it: the text before the first `.` of an entry that has one. -/
def qualifier_of (entry : List Char) : Option (List Char) :=
  if '.' ∈ entry then some (entry.takeWhile (fun c => decide (c ≠ '.'))) else none

/-! ### A check for a driver loop that does not end -/

/-- The driver runs into a state that one more iteration leaves unchanged, with
input left to read: after exactly `k` iterations that all end in `continue`. -/
def diverges_after (q : List Char) : Nat → DriverState → Bool
  | 0, st => decide (st.index < q.length) && decide (loop_body q st = .next st)
  | k + 1, st =>
    decide (st.index < q.length) &&
      match loop_body q st with
      | .next st' => diverges_after q k st'
      | .done _ => false

/-! ### Words and what ends them -/

/-- A character that `get_next_token` appends to the token it accumulates:
not a quote, not a separator, not a space. -/
def WordChar (c : Char) : Prop :=
  c ≠ '\'' ∧ c ≠ '"' ∧ c ≠ '`' ∧ c ∉ token_separators ∧ c ≠ ' '

instance (c : Char) : Decidable (WordChar c) := by
  unfold WordChar
  exact inferInstance

/-- The text after a word ends the word: it is empty or starts with a space or
a separator. -/
def DelimStart (rest : List Char) : Prop :=
  rest = [] ∨ ∃ d r, rest = d :: r ∧ (d = ' ' ∨ d ∈ token_separators)

/-- A word that `get_next_valid_token` returns as it stands: made of word
characters, a valid token, and neither CONCAT nor MAX. -/
def SimpleWord (w : List Char) : Prop :=
  w ≠ [] ∧ (∀ d ∈ w, WordChar d) ∧ is_valid_token w = true
    ∧ convert_to_uppercase w ≠ "CONCAT".toList ∧ convert_to_uppercase w ≠ "MAX".toList

instance (w : List Char) : Decidable (SimpleWord w) := by
  unfold SimpleWord
  exact inferInstance

/-! ### Statements as sequences of words, separators and spaces -/

/-- A piece of a statement as the lexer cuts it: a word, a separator
character, one space, or a run of digits. -/
inductive Seg where
  | word (w : List Char)
  | sep (c : Char)
  | space
  | num (w : List Char)
  deriving DecidableEq, Repr

/-- The text of a piece. -/
def Seg.text : Seg → List Char
  | .word w => w
  | .sep c => [c]
  | .space => [' ']
  | .num w => w

/-- The statement a sequence of pieces spells. -/
def render : List Seg → List Char
  | [] => []
  | s :: r => s.text ++ render r

/-- What may follow a word: the end, a space or a separator. -/
def ends_word : List Seg → Prop
  | [] => True
  | .space :: _ => True
  | .sep _ :: _ => True
  | _ => False

/-- What may follow a space: anything but another space. -/
def no_space_first : List Seg → Prop
  | .space :: _ => False
  | _ => True

/-- A sequence of pieces that the lexer cuts back into those pieces: words are
simple words and end at a space, a separator or the end; separators are
separator characters; spaces are single; a run of digits ends at a space, a
separator or the end. -/
def SegsOK : List Seg → Prop
  | [] => True
  | .word w :: r => SimpleWord w ∧ ends_word r ∧ SegsOK r
  | .sep c :: r => c ∈ token_separators ∧ SegsOK r
  | .space :: r => no_space_first r ∧ SegsOK r
  | .num w :: r => (w ≠ [] ∧ ∀ d ∈ w, d.isDigit = true) ∧ ends_word r ∧ SegsOK r

/-- The next valid token of a sequence of pieces, read with `k` pieces already
consumed: the token and the number of pieces consumed after it. -/
def seg_next_at : List Seg → Nat → List Char × Nat
  | [], k => ([], k)
  | .word w :: _, k => (w, k + 1)
  | .sep c :: _, k => ([c], k + 1)
  | .space :: r, k => seg_next_at r (k + 1)
  | .num _ :: r, k => seg_next_at r (k + 1)

/-- Reading the next valid token on the level of pieces. -/
def seg_next (segs : List Seg) (k : Nat) : List Char × Nat :=
  seg_next_at (segs.drop k) k

/-- Pushing a token back on the level of pieces: one piece back, and nothing
for the empty token. -/
def seg_back (token : List Char) (k : Nat) : Nat :=
  if token = [] then k else k - 1

/-- The cursor of the lexer when `k` pieces have been consumed. -/
def seg_pos (segs : List Seg) (k : Nat) : Nat :=
  (render (segs.take k)).length

/-! ### The driver over an abstract token stream

The blocks of `ProcessQuery` once more, reading tokens with `next` and pushing
them back with `back` instead of `get_next_valid_token queryStr` and
`pushback_token_to_stream`. -/

/-- The block `process_open` over a token stream. -/
def process_open_on (next : Nat → List Char × Nat) (back : List Char → Nat → Nat)
    (st : DriverState) : Outcome :=
  let n := next st.index
  let next_token := n.1
  let st := { st with index := n.2 }
  let query_state : query_state_t :=
    { table_name_list := st.table_name_list, current_state := st.current_state,
      previous_state := st.previous_state,
      select_triggered_query_state_change := false }
  let st :=
    if convert_to_uppercase next_token = "SELECT".toList then
      { st with
        query_state_stack :=
          { query_state with select_triggered_query_state_change := true }
            :: st.query_state_stack,
        table_name_list := [], current_state := .NONE, previous_state := .NONE }
    else st
  .next { st with index := back next_token st.index }

/-- The block `process_from` over a token stream. -/
def process_from_on (next : Nat → List Char × Nat) (back : List Char → Nat → Nat)
    (current_token : List Char) (st : DriverState) : Outcome :=
  if ¬ is_valid_tblcol_name current_token then
    .next { st with index := back current_token st.index }
  else
    let n := next st.index
    let next_token := n.1
    let st := { st with index := n.2 }
    if is_valid_tblcol_name next_token = false then
      .next { st with
        table_name_list := st.table_name_list ++ [current_token],
        lookup_table_list := st.lookup_table_list ++
          [{ table_name := current_token, alias_name := [] }],
        index := back next_token st.index }
    else if next_token = "AS".toList ∨ next_token = "as".toList then
      let st := { st with table_name_list := st.table_name_list ++ [current_token] }
      let n := next st.index
      let next_token := n.1
      let st := { st with index := n.2 }
      if ¬ is_valid_tblcol_name next_token then .done st
      else
        .next { st with
          lookup_table_list := st.lookup_table_list ++
            [{ table_name := current_token, alias_name := next_token }] }
    else
      .next { st with
        table_name_list := st.table_name_list ++ [current_token],
        lookup_table_list := st.lookup_table_list ++
          [{ table_name := current_token, alias_name := next_token }] }

/-- The block `process_where` over a token stream. -/
def process_where_on (next : Nat → List Char × Nat) (back : List Char → Nat → Nat)
    (current_token : List Char) (st : DriverState) : Outcome :=
  if ¬ is_valid_tblcol_name current_token then
    .next { st with index := back current_token st.index }
  else
    let n := next st.index
    let next_token := n.1
    let st := { st with index := n.2 }
    if next_token = ['.'] then
      let n := next st.index
      let next_token := n.1
      let st := { st with index := n.2 }
      if ¬ is_valid_tblcol_name next_token then .done st
      else
        let table_name :=
          find_table_name_of_alias_tblname st.lookup_table_list current_token
        if ¬ is_valid_tblcol_name table_name then .next st
        else
          .next { st with
            pRes :=
              { mTblNameList :=
                  store_table_name_uniquely st.pRes.mTblNameList table_name,
                mTblColNameList :=
                  store_table_col_name_uniquely st.pRes.mTblColNameList
                    (table_name ++ ['.'] ++ next_token) } }
    else if st.table_name_list.length = 1 then
      let table_name := st.table_name_list.headD []
      .next { st with
        pRes :=
          { mTblNameList :=
              store_table_name_uniquely st.pRes.mTblNameList table_name,
            mTblColNameList :=
              store_table_col_name_uniquely st.pRes.mTblColNameList
                (table_name ++ ['.'] ++ current_token) } }
    else
      .next { st with
        pRes :=
          { mTblNameList :=
              st.table_name_list.foldl store_table_name_uniquely
                st.pRes.mTblNameList,
            mTblColNameList :=
              store_table_col_name_uniquely st.pRes.mTblColNameList
                current_token } }

/-- The block `process_token` over a token stream. -/
def process_token_on (next : Nat → List Char × Nat) (back : List Char → Nat → Nat)
    (current_token : List Char) (st : DriverState) : Outcome :=
  if is_token_reserved current_token || is_token_operator current_token then
    .next st
  else if current_token = [','] ∨ current_token = [';'] then .next st
  else if st.current_state = .FROM then process_from_on next back current_token st
  else if st.current_state = .WHERE then process_where_on next back current_token st
  else .next st

/-- The loop body `loop_body` over a token stream. -/
def loop_body_on (next : Nat → List Char × Nat) (back : List Char → Nat → Nat)
    (st : DriverState) : Outcome :=
  let r := next st.index
  let current_token := r.1
  let st := { st with index := r.2 }
  if current_token = [] then .done st
  else if current_token = ['('] then process_open_on next back st
  else if current_token = [')'] then process_close st
  else
    let s := set_state current_token st.current_state st.previous_state
      st.state_reset_needed
    let st := { st with
      current_state := s.current_state, previous_state := s.previous_state,
      state_reset_needed := s.state_reset_needed }
    if s.changed = true then .next st
    else process_token_on next back current_token (apply_state_reset st)

/-- The loop `ProcessQuery_loop` over the pieces of a statement. -/
def ProcessSegs_loop (segs : List Seg) : Nat → DriverState → Option DriverState
  | 0, st => if st.index < segs.length then none else some st
  | fuel + 1, st =>
    if st.index < segs.length then
      match loop_body_on (seg_next segs) seg_back st with
      | .done st => some st
      | .next st => ProcessSegs_loop segs fuel st
    else some st

/-- The function `ProcessQuery` over the pieces of a statement. -/
def ProcessSegs (fuel : Nat) (segs : List Seg) (state_reset_needed : Bool) :
    Option (TblColList × Bool) :=
  (ProcessSegs_loop segs fuel (initial_state state_reset_needed)).map
    (fun st => (st.pRes, st.state_reset_needed))

/-! ### Two token streams that read the same tokens -/

/-- Two driver states that agree except for their cursors, which are related
by `R`. -/
def StRel (R : Nat → Nat → Prop) (a b : DriverState) : Prop :=
  R a.index b.index ∧ { a with index := 0 } = { b with index := 0 }

/-- The relation `StRel` lifted to the outcomes of one iteration. -/
def OutRel (R : Nat → Nat → Prop) : Outcome → Outcome → Prop
  | .next a, .next b => StRel R a b
  | .done a, .done b => StRel R a b
  | _, _ => False

/-- The lexer cursor is the one reached after `k` pieces of `segs`. -/
def SegCursor (segs : List Seg) (i k : Nat) : Prop :=
  k ≤ segs.length ∧ i = seg_pos segs k

/-- Two token streams read the same tokens from related cursors, and leave
related cursors behind, also after pushing the token just read back. -/
def StreamRel (R : Nat → Nat → Prop)
    (nextC : Nat → List Char × Nat) (backC : List Char → Nat → Nat)
    (nextA : Nat → List Char × Nat) (backA : List Char → Nat → Nat) : Prop :=
  ∀ i k, R i k →
    (nextC i).1 = (nextA k).1 ∧ R (nextC i).2 (nextA k).2
      ∧ R (backC (nextC i).1 (nextC i).2) (backA (nextA k).1 (nextA k).2)

/-! ### Plain identifiers -/

/-- The ASCII letters. -/
def ident_letters : List Char :=
  "abcdefghijklmnopqrstuvwxyzABCDEFGHIJKLMNOPQRSTUVWXYZ".toList

/-- The ASCII letters, the digits and the underscore. -/
def ident_chars : List Char :=
  ident_letters ++ "0123456789_".toList

/-- A plain identifier, in the words of the specification's scenarios: a
non-empty string of ASCII letters, digits and `_` that starts with a letter and
is not, in any letter case, a reserved keyword, AS or CONCAT. -/
def plain_identifier (w : List Char) : Bool :=
  match w with
  | [] => false
  | c :: cs =>
    decide (c ∈ ident_letters) && cs.all (fun d => decide (d ∈ ident_chars))
      && !is_token_reserved w
      && decide (convert_to_uppercase w ≠ "AS".toList)
      && decide (convert_to_uppercase w ≠ "CONCAT".toList)

/-- What the driver and the lexer use of a plain identifier. -/
structure PlainFacts (w : List Char) : Prop where
  ne_nil : w ≠ []
  head_letter : charAt w 0 ∈ ident_letters
  wordChars : ∀ d ∈ w, WordChar d
  not_reserved : is_token_reserved w = false
  not_as : convert_to_uppercase w ≠ "AS".toList
  not_concat : convert_to_uppercase w ≠ "CONCAT".toList

/-! ### Statements without quote characters -/

/-- A statement without quote characters: no single quote, no double quote and
no backtick. -/
def QuoteFree (s : List Char) : Prop :=
  ∀ c ∈ s, c ≠ '\'' ∧ c ≠ '"' ∧ c ≠ '`'

/-- A token as the lexer returns it on a statement without quote characters:
without a backtick, and without a `.` unless it is the separator `.` itself. -/
def PlainToken (t : List Char) : Prop :=
  (∀ c ∈ t, c ≠ '`') ∧ ('.' ∈ t → t = ['.'])

/-- The referential invariant of a result: the qualifier of every entry of the
table-column list is in the table list. -/
def Referential (r : TblColList) : Prop :=
  ∀ e ∈ r.mTblColNameList, ∀ t, qualifier_of e = some t → t ∈ r.mTblNameList

/-- No table name the driver has recorded contains a `.`, and its result is
referential. -/
def DotFreeState (st : DriverState) : Prop :=
  (∀ t ∈ st.table_name_list, '.' ∉ t)
  ∧ (∀ f ∈ st.query_state_stack, ∀ t ∈ f.table_name_list, '.' ∉ t)
  ∧ (∀ e ∈ st.lookup_table_list, '.' ∉ e.table_name)
  ∧ Referential st.pRes

/-! ### The tokens of a run and the Where state -/

/-- A token that `set_state` answers with the state `WHERE`: WHERE, ON or BY
in any letter case. -/
def is_where_keyword (token : List Char) : Prop :=
  convert_to_uppercase token = "WHERE".toList ∨ convert_to_uppercase token = "ON".toList
    ∨ convert_to_uppercase token = "BY".toList

instance (token : List Char) : Decidable (is_where_keyword token) := by
  unfold is_where_keyword
  exact inferInstance

/-- The tokens that `get_next_valid_token` returns as the `current_token` of
the iterations of the driver loop, in a run of at most `fuel` iterations from
the state `st`. -/
def current_tokens (queryStr : List Char) : Nat → DriverState → List (List Char)
  | 0, _ => []
  | fuel + 1, st =>
    if st.index < queryStr.length then
      (get_next_valid_token queryStr st.index).1 ::
        (match loop_body queryStr st with
         | .done _ => []
         | .next st' => current_tokens queryStr fuel st')
    else []

/-- The driver is not in the Where state, no saved frame holds the Where state,
and nothing has been recorded in the result. -/
def NeverInWhere (st : DriverState) : Prop :=
  st.current_state ≠ .WHERE ∧ (∀ f ∈ st.query_state_stack, f.current_state ≠ .WHERE)
    ∧ st.pRes = { mTblNameList := [], mTblColNameList := [] }

/-! ### The token the reader sees before its rewrites -/

/-- How one iteration whose current token is `tok` may change the result: not
at all, by one entry `t.c` written with the qualifier `t`, which is stored
into the table list in the same step, or by the tables of `tables` and the
token `tok` itself, written bare. -/
def ResStepAt (tok : List Char) (r r' : TblColList) : Prop :=
  r' = r
  ∨ (∃ (t c : List Char),
        r' = { mTblNameList := store_table_name_uniquely r.mTblNameList t,
               mTblColNameList :=
                 store_table_col_name_uniquely r.mTblColNameList (t ++ ['.'] ++ c) })
  ∨ (∃ (tables : List (List Char)), is_valid_tblcol_name tok = true ∧
        r' = { mTblNameList := tables.foldl store_table_name_uniquely r.mTblNameList,
               mTblColNameList := store_table_col_name_uniquely r.mTblColNameList tok })

/-- Every entry of the table-column list is either written as `t.c` with a
qualifier `t` that is in the table list, or is a token of the statement `s`,
written bare as the valid-token reader returns it. -/
def QualifiersRecorded (s : List Char) (r : TblColList) : Prop :=
  ∀ e ∈ r.mTblColNameList,
    (∃ t c, e = t ++ ['.'] ++ c ∧ t ∈ r.mTblNameList)
    ∨ (∃ i, (get_next_valid_token s i).1 = e ∧ is_valid_tblcol_name e = true)

/-! ## Properties -/

/-! ### The fuel of the lexer and of the valid-token reader is enough -/

theorem scan_quoted_fuel (input : List Char) (q : Char) :
    ∀ (fuel index : Nat) (token : List Char), input.length - index ≤ fuel →
      scan_quoted input q fuel index token
        = scan_quoted input q (input.length - index) index token := by
  intro fuel
  induction fuel with
  | zero =>
    intro index token h
    rw [Nat.le_zero.mp h]
  | succ f ih =>
    intro index token h
    by_cases hc : charAt input index ≠ q ∧ index < input.length
    · obtain ⟨m, hm⟩ : ∃ m, input.length - index = m + 1 :=
        ⟨input.length - index - 1, by omega⟩
      have hm' : input.length - (index + 1) = m := by omega
      rw [hm]
      simp only [scan_quoted, hc, and_self, if_true]
      rw [ih (index + 1) _ (by omega), hm']
    · cases hm : input.length - index with
      | zero => simp [scan_quoted, hc]
      | succ m => simp [scan_quoted, hc]

theorem skip_spaces_fuel (input : List Char) :
    ∀ (fuel index : Nat), input.length - index ≤ fuel →
      skip_spaces input fuel index = skip_spaces input (input.length - index) index := by
  intro fuel
  induction fuel with
  | zero =>
    intro index h
    rw [Nat.le_zero.mp h]
  | succ f ih =>
    intro index h
    by_cases hc : charAt input index = ' ' ∧ index < input.length
    · obtain ⟨m, hm⟩ : ∃ m, input.length - index = m + 1 :=
        ⟨input.length - index - 1, by omega⟩
      have hm' : input.length - (index + 1) = m := by omega
      rw [hm]
      simp only [skip_spaces, hc, and_self, if_true]
      rw [ih (index + 1) (by omega), hm']
    · cases hm : input.length - index with
      | zero => simp [skip_spaces, hc]
      | succ m => simp [skip_spaces, hc]

theorem scan_quoted_le (input : List Char) (q : Char) :
    ∀ (fuel index : Nat) (token : List Char),
      index ≤ (scan_quoted input q fuel index token).2 := by
  intro fuel
  induction fuel with
  | zero => intro index token; exact Nat.le_refl _
  | succ f ih =>
    intro index token
    simp only [scan_quoted]
    split
    · exact Nat.le_trans (Nat.le_succ _) (ih (index + 1) _)
    · exact Nat.le_refl _

theorem skip_spaces_le (input : List Char) :
    ∀ (fuel index : Nat), index ≤ skip_spaces input fuel index := by
  intro fuel
  induction fuel with
  | zero => intro index; exact Nat.le_refl _
  | succ f ih =>
    intro index
    simp only [skip_spaces]
    split
    · exact Nat.le_trans (Nat.le_succ _) (ih (index + 1))
    · exact Nat.le_refl _

/-- One iteration of the `for` loop of the lexer, entered with input left:
either it returns, whatever fuel is left, with the cursor not moved back and
moved forward when no token had been accumulated, or it goes on from a later
cursor. -/
theorem get_next_token_loop_step (input : List Char) (index : Nat)
    (token : List Char) (hlt : index < input.length) :
    (∃ r : List Char × Nat, (∀ g, get_next_token_loop input (g + 1) index token = r)
        ∧ index ≤ r.2 ∧ (token = [] → index < r.2))
    ∨ (∃ j tok, index < j
          ∧ ∀ g, get_next_token_loop input (g + 1) index token
              = get_next_token_loop input g j tok) := by
  have hs := skip_spaces_le input (input.length - (index + 1)) (index + 1)
  have hq : ∀ q, index < (read_quoted input q index token).2 := by
    intro q
    have := scan_quoted_le input q (input.length - (index + 1)) (index + 1)
      (token ++ [charAt input index])
    simp only [read_quoted]
    omega
  have h0 : ¬ ¬ index < input.length := not_not.mpr hlt
  by_cases h1 : charAt input index = '\''
  · refine Or.inl ⟨read_quoted input '\'' index token, ?_, Nat.le_of_lt (hq _),
      fun _ => hq _⟩
    intro g; rw [get_next_token_loop, if_neg h0, if_pos h1]
  by_cases h2 : charAt input index = '"'
  · refine Or.inl ⟨read_quoted input '"' index token, ?_, Nat.le_of_lt (hq _),
      fun _ => hq _⟩
    intro g; rw [get_next_token_loop, if_neg h0, if_neg h1, if_pos h2]
  by_cases h3 : charAt input index = '`'
  · refine Or.inl ⟨read_quoted input '`' index token, ?_, Nat.le_of_lt (hq _),
      fun _ => hq _⟩
    intro g; rw [get_next_token_loop, if_neg h0, if_neg h1, if_neg h2, if_pos h3]
  by_cases h4 : charAt input index ∈ token_separators
  · by_cases h5 : token.length ≠ 0
    · refine Or.inl ⟨(token, index), ?_, Nat.le_refl _,
        fun h => absurd (by rw [h]; rfl) h5⟩
      intro g
      rw [get_next_token_loop, if_neg h0, if_neg h1, if_neg h2, if_neg h3, if_pos h4,
        if_pos h5]
    · refine Or.inl ⟨(token ++ [charAt input index], index + 1), ?_,
        Nat.le_succ _, fun _ => Nat.lt_succ_self _⟩
      intro g
      rw [get_next_token_loop, if_neg h0, if_neg h1, if_neg h2, if_neg h3, if_pos h4,
        if_neg h5]
  by_cases h6 : charAt input (index + 1) = ' '
      ∧ (if charAt input index ≠ ' ' then token ++ [charAt input index] else token) ≠ []
  · refine Or.inl
      ⟨(if charAt input index ≠ ' ' then token ++ [charAt input index] else token,
        index + 1), ?_, Nat.le_succ _, fun _ => Nat.lt_succ_self _⟩
    intro g
    rw [get_next_token_loop, if_neg h0, if_neg h1, if_neg h2, if_neg h3, if_neg h4]
    simp only
    rw [if_pos h6]
  by_cases h7 : charAt input index = ' '
  · by_cases h8 :
      (if charAt input index ≠ ' ' then token ++ [charAt input index] else token) ≠ []
    · refine Or.inl
        ⟨(if charAt input index ≠ ' ' then token ++ [charAt input index] else token,
          skip_spaces input (input.length - (index + 1)) (index + 1)), ?_,
          by simp only; omega, fun _ => by simp only; omega⟩
      intro g
      rw [get_next_token_loop, if_neg h0, if_neg h1, if_neg h2, if_neg h3, if_neg h4]
      simp only
      rw [if_neg h6, if_pos h7, if_pos h8]
    · refine Or.inr
        ⟨skip_spaces input (input.length - (index + 1)) (index + 1) - 1 + 1,
          if charAt input index ≠ ' ' then token ++ [charAt input index] else token,
          by omega, ?_⟩
      intro g
      rw [get_next_token_loop, if_neg h0, if_neg h1, if_neg h2, if_neg h3, if_neg h4]
      simp only
      rw [if_neg h6, if_pos h7, if_neg h8]
  · refine Or.inr
      ⟨index + 1,
        if charAt input index ≠ ' ' then token ++ [charAt input index] else token,
        Nat.lt_succ_self _, ?_⟩
    intro g
    rw [get_next_token_loop, if_neg h0, if_neg h1, if_neg h2, if_neg h3, if_neg h4]
    simp only
    rw [if_neg h6, if_neg h7]

theorem get_next_token_loop_at_end (input : List Char) (fuel index : Nat)
    (token : List Char) (h : ¬ index < input.length) :
    get_next_token_loop input fuel index token = (token, index) := by
  cases fuel with
  | zero => rfl
  | succ g => rw [get_next_token_loop, if_pos h]

/-- The lexer never moves the cursor backwards. -/
theorem get_next_token_loop_le (input : List Char) :
    ∀ (fuel index : Nat) (token : List Char),
      index ≤ (get_next_token_loop input fuel index token).2 := by
  intro fuel
  induction fuel with
  | zero => intro index token; exact Nat.le_refl _
  | succ f ih =>
    intro index token
    by_cases hlt : index < input.length
    · rcases get_next_token_loop_step input index token hlt with
        ⟨r, hr, hle, _⟩ | ⟨j, tok, hj, hr⟩
      · rw [hr f]; exact hle
      · rw [hr f]
        exact Nat.le_trans (Nat.le_of_lt hj) (ih j tok)
    · rw [get_next_token_loop_at_end input _ index token hlt]

/-- The lexer moves the cursor forward whenever input is left. -/
theorem get_next_token_advances (input : List Char) (index : Nat)
    (h : index < input.length) : index < (get_next_token input index).2 := by
  obtain ⟨m, hm⟩ : ∃ m, input.length - index = m + 1 :=
    ⟨input.length - index - 1, by omega⟩
  unfold get_next_token
  rw [hm]
  rcases get_next_token_loop_step input index [] h with
    ⟨r, hr, _, hadv⟩ | ⟨j, tok, hj, hr⟩
  · rw [hr m]; exact hadv rfl
  · rw [hr m]
    exact Nat.lt_of_lt_of_le hj (get_next_token_loop_le input m j tok)

theorem skip_invalid_tokens_of_not (query : List Char) (fuel : Nat)
    (r : List Char × Nat) (h : ¬ (¬ is_valid_token r.1 = true ∧ r.2 < query.length)) :
    skip_invalid_tokens query fuel r = r := by
  cases fuel with
  | zero => rfl
  | succ g => rw [skip_invalid_tokens, if_neg h]

theorem skip_to_closing_of_not (query : List Char) (fuel : Nat)
    (r : List Char × Nat) (h : ¬ (r.1 ≠ [')'] ∧ r.2 < query.length)) :
    skip_to_closing query fuel r = r := by
  cases fuel with
  | zero => rfl
  | succ g => rw [skip_to_closing, if_neg h]

theorem skip_invalid_tokens_fuel_eq (query : List Char) :
    ∀ (fuel1 fuel2 : Nat) (r : List Char × Nat),
      query.length - r.2 ≤ fuel1 → query.length - r.2 ≤ fuel2 →
      skip_invalid_tokens query fuel1 r = skip_invalid_tokens query fuel2 r := by
  intro fuel1
  induction fuel1 with
  | zero =>
    intro fuel2 r h1 _
    have hlt : ¬ r.2 < query.length := by omega
    cases fuel2 with
    | zero => rfl
    | succ g => simp [skip_invalid_tokens, hlt]
  | succ f ih =>
    intro fuel2 r h1 h2
    by_cases hc : ¬ is_valid_token r.1 = true ∧ r.2 < query.length
    · obtain ⟨g, rfl⟩ : ∃ g, fuel2 = g + 1 := ⟨fuel2 - 1, by omega⟩
      have hadv := get_next_token_advances query r.2 hc.2
      rw [skip_invalid_tokens, if_pos hc, skip_invalid_tokens, if_pos hc]
      exact ih g _ (by omega) (by omega)
    · rw [skip_invalid_tokens_of_not query _ r hc, skip_invalid_tokens_of_not query _ r hc]

theorem skip_to_closing_fuel_eq (query : List Char) :
    ∀ (fuel1 fuel2 : Nat) (r : List Char × Nat),
      query.length - r.2 ≤ fuel1 → query.length - r.2 ≤ fuel2 →
      skip_to_closing query fuel1 r = skip_to_closing query fuel2 r := by
  intro fuel1
  induction fuel1 with
  | zero =>
    intro fuel2 r h1 _
    have hlt : ¬ r.2 < query.length := by omega
    cases fuel2 with
    | zero => rfl
    | succ g => simp [skip_to_closing, hlt]
  | succ f ih =>
    intro fuel2 r h1 h2
    by_cases hc : r.1 ≠ [')'] ∧ r.2 < query.length
    · obtain ⟨g, rfl⟩ : ∃ g, fuel2 = g + 1 := ⟨fuel2 - 1, by omega⟩
      have hadv := get_next_token_advances query r.2 hc.2
      rw [skip_to_closing, if_pos hc, skip_to_closing, if_pos hc]
      exact ih g _ (by omega) (by omega)
    · rw [skip_to_closing_of_not query _ r hc, skip_to_closing_of_not query _ r hc]

theorem get_next_token_end {input : List Char} {i : Nat} (h : input.length ≤ i) :
    get_next_token input i = ([], i) := by
  simp [get_next_token, Nat.sub_eq_zero_of_le h, get_next_token_loop]

/-- At or past the end of the query the valid-token reader returns the empty
token and leaves the cursor, whatever its recursion bound. -/
theorem get_next_valid_token_rec_at_end (query : List Char) (depth index : Nat)
    (h : query.length ≤ index) :
    get_next_valid_token_rec query depth index = ([], index) := by
  cases depth with
  | zero => rfl
  | succ d =>
    have hv : is_valid_token [] = false := by decide
    simp [get_next_valid_token_rec, get_next_token_end h, Nat.sub_eq_zero_of_le h,
      skip_invalid_tokens, hv, h]

/-- The recursion bound of the valid-token reader is never reached: every
bound of at least one gives the same result. -/
theorem get_next_valid_token_rec_depth (query : List Char) (depth index : Nat) :
    get_next_valid_token_rec query (depth + 1) index
      = get_next_valid_token_rec query 1 index := by
  have key : ∀ (j : Nat) (a : List Char × Nat),
      (if j < query.length then a else get_next_valid_token_rec query depth j)
        = (if j < query.length then a else get_next_valid_token_rec query 0 j) := by
    intro j a
    by_cases hj : j < query.length
    · rw [if_pos hj, if_pos hj]
    · rw [if_neg hj, if_neg hj, get_next_valid_token_rec_at_end query depth j (by omega),
        get_next_valid_token_rec_at_end query 0 j (by omega)]
  rw [get_next_valid_token_rec, get_next_valid_token_rec]
  simp only [key]

/-! ### The reset flag at entry -/

theorem OutcomeRel_refl (o : Outcome) : OutcomeRel o o := by
  cases o <;> exact Or.inl rfl

theorem loop_body_flagRel (q : List Char) (st1 st2 : DriverState)
    (h : FlagRel st1 st2) : OutcomeRel (loop_body q st1) (loop_body q st2) := by
  rcases h with rfl | ⟨⟨hl, hs⟩, b, rfl⟩
  · exact OutcomeRel_refl _
  · obtain ⟨index, tnl, cs, ps, ltl, stack, res, flag⟩ := st1
    simp only at hl hs
    subst hl
    unfold loop_body
    simp only
    by_cases h1 : (get_next_valid_token q index).1 = []
    · simp only [h1, if_true]
      exact Or.inr ⟨⟨rfl, hs⟩, b, rfl⟩
    simp only [h1, if_false]
    by_cases h2 : (get_next_valid_token q index).1 = ['(']
    · simp only [h2, if_true, process_open]
      split
      · refine Or.inr ⟨⟨rfl, ?_⟩, b, rfl⟩
        intro f hf
        simp only [List.mem_cons] at hf
        rcases hf with rfl | hf
        · rfl
        · exact hs f hf
      · exact Or.inr ⟨⟨rfl, hs⟩, b, rfl⟩
    simp only [h2, if_false]
    by_cases h3 : (get_next_valid_token q index).1 = [')']
    · simp only [h3, if_true, process_close]
      cases stack with
      | nil => exact Or.inr ⟨⟨rfl, hs⟩, b, rfl⟩
      | cons top rest =>
        simp only
        split
        · refine Or.inr ⟨⟨hs top (by simp), fun f hf => hs f (by simp [hf])⟩, b, rfl⟩
        · exact Or.inr ⟨⟨rfl, hs⟩, b, rfl⟩
    simp only [h3, if_false]
    unfold set_state
    simp only
    split
    · exact Or.inl rfl
    · split
      · split
        · exact Or.inr ⟨⟨rfl, hs⟩, b, rfl⟩
        · cases flag <;> cases b <;>
            simp only [apply_state_reset, Bool.false_eq_true, if_false, if_true, Bool.not_true] <;>
            exact OutcomeRel_refl _
      · split
        · split
          · exact Or.inr ⟨⟨rfl, hs⟩, b, rfl⟩
          · cases flag <;> cases b <;>
            simp only [apply_state_reset, Bool.false_eq_true, if_false, if_true, Bool.not_true] <;>
            exact OutcomeRel_refl _
        · simp only [Bool.false_eq_true, if_false]
          cases flag <;> cases b <;>
            simp only [apply_state_reset, Bool.false_eq_true, if_false, if_true, Bool.not_true] <;>
            exact OutcomeRel_refl _


theorem FlagRel_pRes {st1 st2 : DriverState} (h : FlagRel st1 st2) :
    st1.pRes = st2.pRes := by
  rcases h with rfl | ⟨_, b, rfl⟩ <;> rfl

theorem FlagRel_index {st1 st2 : DriverState} (h : FlagRel st1 st2) :
    st1.index = st2.index := by
  rcases h with rfl | ⟨_, b, rfl⟩ <;> rfl

theorem ProcessQuery_loop_flagRel (q : List Char) :
    ∀ (fuel : Nat) (st1 st2 : DriverState), FlagRel st1 st2 →
      (ProcessQuery_loop q fuel st1).map (fun st => st.pRes)
        = (ProcessQuery_loop q fuel st2).map (fun st => st.pRes) := by
  intro fuel
  induction fuel with
  | zero =>
    intro st1 st2 h
    simp only [ProcessQuery_loop, FlagRel_index h]
    split
    · rfl
    · simp [FlagRel_pRes h]
  | succ n ih =>
    intro st1 st2 h
    simp only [ProcessQuery_loop, FlagRel_index h]
    split
    · have hb := loop_body_flagRel q st1 st2 h
      cases h1 : loop_body q st1 with
      | next a =>
        cases h2 : loop_body q st2 with
        | next b =>
          rw [h1, h2] at hb
          exact ih a b hb
        | done b => rw [h1, h2] at hb; exact hb.elim
      | done a =>
        cases h2 : loop_body q st2 with
        | next b => rw [h1, h2] at hb; exact hb.elim
        | done b =>
          rw [h1, h2] at hb
          simp [FlagRel_pRes hb]
    · simp [FlagRel_pRes h]

theorem initial_state_flagRel (f1 f2 : Bool) :
    FlagRel (initial_state f1) (initial_state f2) :=
  Or.inr ⟨⟨rfl, by simp [initial_state]⟩, f2, rfl⟩

theorem ProcessQuery_result_flag (fuel : Nat) (s : List Char) (f1 f2 : Bool) :
    (ProcessQuery fuel s f1).map Prod.fst = (ProcessQuery fuel s f2).map Prod.fst := by
  have h := ProcessQuery_loop_flagRel s fuel _ _ (initial_state_flagRel f1 f2)
  simpa [ProcessQuery, Option.map_map, Function.comp] using h

/-- C1. Idempotence of `ProcessQuery`: for every statement and every bound on
the number of loop iterations, the call started with the reset flag at one
value returns the same `TblColList` as the call started with the flag at the
other value (and neither returns if the other does not), and a second call on
the same statement, started with the flag as the first call left it, returns
the `TblColList` of the first call. -/
theorem process_query_idempotent (fuel : Nat) (s : List Char) (f1 f2 : Bool) :
    (ProcessQuery fuel s f1).map Prod.fst = (ProcessQuery fuel s f2).map Prod.fst
    ∧ (ProcessQuery fuel s f1).bind
          (fun first => (ProcessQuery fuel s first.2).map Prod.fst)
        = (ProcessQuery fuel s f1).map Prod.fst := by
  refine ⟨ProcessQuery_result_flag fuel s f1 f2, ?_⟩
  cases h : ProcessQuery fuel s f1 with
  | none => rfl
  | some first =>
    have h2 := ProcessQuery_result_flag fuel s first.2 f1
    rw [h] at h2
    simpa using h2

/-! ### The result accumulator -/

theorem ResStep.same {r r' : TblColList} (h : r' = r) : ResStep r r' := Or.inl h

theorem ResStep.qualified (r : TblColList) (t c : List Char) :
    ResStep r { mTblNameList := store_table_name_uniquely r.mTblNameList t,
                mTblColNameList :=
                  store_table_col_name_uniquely r.mTblColNameList (t ++ ['.'] ++ c) } :=
  Or.inr (Or.inl ⟨t, c, rfl⟩)

theorem ResStep.bare (r : TblColList) (tables : List (List Char)) (c : List Char)
    (h : is_valid_tblcol_name c = true) :
    ResStep r { mTblNameList := tables.foldl store_table_name_uniquely r.mTblNameList,
                mTblColNameList := store_table_col_name_uniquely r.mTblColNameList c } :=
  Or.inr (Or.inr ⟨tables, c, h, rfl⟩)

theorem process_open_pRes (q : List Char) (st : DriverState) :
    (process_open q st).state.pRes = st.pRes := by
  unfold process_open
  simp only
  split <;> rfl

theorem process_close_pRes (st : DriverState) :
    (process_close st).state.pRes = st.pRes := by
  unfold process_close
  split
  · rfl
  · split <;> rfl

theorem process_from_pRes (q tok : List Char) (st : DriverState) :
    (process_from q tok st).state.pRes = st.pRes := by
  unfold process_from
  simp only
  split
  · rfl
  · split
    · rfl
    · split
      · split <;> rfl
      · rfl

theorem process_where_pRes (q tok : List Char) (st : DriverState) :
    ResStep st.pRes (process_where q tok st).state.pRes := by
  unfold process_where
  simp only
  split
  · exact ResStep.same rfl
  · rename_i hv
    split
    · split
      · exact ResStep.same rfl
      · split
        · exact ResStep.same rfl
        · exact ResStep.qualified _ _ _
    · split
      · exact ResStep.qualified _ _ _
      · exact ResStep.bare _ _ tok (by simpa using hv)

theorem apply_state_reset_pRes (st : DriverState) :
    (apply_state_reset st).pRes = st.pRes := by
  unfold apply_state_reset
  split <;> rfl

theorem process_token_pRes (q tok : List Char) (st : DriverState) :
    ResStep st.pRes (process_token q tok st).state.pRes := by
  unfold process_token
  split
  · exact ResStep.same rfl
  · split
    · exact ResStep.same rfl
    · split
      · exact ResStep.same (process_from_pRes q tok st)
      · split
        · exact process_where_pRes q tok st
        · exact ResStep.same rfl

theorem loop_body_pRes (q : List Char) (st : DriverState) :
    ResStep st.pRes (loop_body q st).state.pRes := by
  unfold loop_body
  simp only
  split
  · exact ResStep.same rfl
  · split
    · exact ResStep.same (process_open_pRes q _)
    · split
      · exact ResStep.same (process_close_pRes _)
      · split
        · exact ResStep.same rfl
        · have h := process_token_pRes q (get_next_valid_token q st.index).1
            (apply_state_reset
              { st with
                index := (get_next_valid_token q st.index).2,
                current_state := (set_state (get_next_valid_token q st.index).1
                  st.current_state st.previous_state st.state_reset_needed).current_state,
                previous_state := (set_state (get_next_valid_token q st.index).1
                  st.current_state st.previous_state st.state_reset_needed).previous_state,
                state_reset_needed := (set_state (get_next_valid_token q st.index).1
                  st.current_state st.previous_state st.state_reset_needed).state_reset_needed })
          rw [apply_state_reset_pRes] at h
          exact h

/-- An invariant of the result that every `ResStep` preserves holds of the
state the driver loop returns. -/
theorem ProcessQuery_loop_invariant (P : TblColList → Prop)
    (hstep : ∀ r r', P r → ResStep r r' → P r') (q : List Char) :
    ∀ (fuel : Nat) (st st' : DriverState), P st.pRes →
      ProcessQuery_loop q fuel st = some st' → P st'.pRes := by
  intro fuel
  induction fuel with
  | zero =>
    intro st st' hP h
    simp only [ProcessQuery_loop] at h
    split at h
    · cases h
    · cases h; exact hP
  | succ n ih =>
    intro st st' hP h
    simp only [ProcessQuery_loop] at h
    split at h
    · have hb := hstep _ _ hP (loop_body_pRes q st)
      cases hl : loop_body q st with
      | next a =>
        rw [hl] at h hb
        exact ih a st' hb h
      | done a =>
        rw [hl] at h hb
        cases h
        exact hb
    · cases h; exact hP

theorem ProcessQuery_invariant (P : TblColList → Prop)
    (hinit : P { mTblNameList := [], mTblColNameList := [] })
    (hstep : ∀ r r', P r → ResStep r r' → P r')
    (fuel : Nat) (q : List Char) (flag : Bool) (p : TblColList × Bool)
    (h : ProcessQuery fuel q flag = some p) : P p.1 := by
  unfold ProcessQuery at h
  cases hl : ProcessQuery_loop q fuel (initial_state flag) with
  | none => rw [hl] at h; cases h
  | some st' =>
    rw [hl] at h
    cases h
    exact ProcessQuery_loop_invariant P hstep q fuel _ st' hinit hl

theorem store_table_name_uniquely_nodup (l : List (List Char)) (x : List Char)
    (h : l.Nodup) : (store_table_name_uniquely l x).Nodup := by
  unfold store_table_name_uniquely
  split
  · exact h
  · rename_i hx
    exact List.nodup_append.mpr ⟨h, List.nodup_singleton x, by
      intro a ha hb
      simp only [List.mem_singleton] at hb
      exact hx (hb ▸ ha)⟩

theorem store_table_col_name_uniquely_nodup (l : List (List Char)) (x : List Char)
    (h : l.Nodup) : (store_table_col_name_uniquely l x).Nodup :=
  store_table_name_uniquely_nodup l x h

theorem foldl_store_nodup (ts : List (List Char)) :
    ∀ l : List (List Char), l.Nodup → (ts.foldl store_table_name_uniquely l).Nodup := by
  induction ts with
  | nil => intro l h; exact h
  | cons t ts ih =>
    intro l h
    exact ih _ (store_table_name_uniquely_nodup l t h)

/-- C2. Dedup invariant: whenever `ProcessQuery` returns, on any statement and
from any value of the reset flag, the table list and the table-column list of
the returned `TblColList` contain no duplicate entries. -/
theorem process_query_result_nodup (fuel : Nat) (s : List Char) (flag : Bool)
    (p : TblColList × Bool) (h : ProcessQuery fuel s flag = some p) :
    p.1.mTblNameList.Nodup ∧ p.1.mTblColNameList.Nodup := by
  refine ProcessQuery_invariant
    (fun r => r.mTblNameList.Nodup ∧ r.mTblColNameList.Nodup)
    ⟨List.nodup_nil, List.nodup_nil⟩ ?_ fuel s flag p h
  rintro r r' ⟨h1, h2⟩ (rfl | ⟨t, c, rfl⟩ | ⟨ts, c, _, rfl⟩)
  · exact ⟨h1, h2⟩
  · exact ⟨store_table_name_uniquely_nodup _ _ h1,
      store_table_col_name_uniquely_nodup _ _ h2⟩
  · exact ⟨foldl_store_nodup ts _ h1, store_table_col_name_uniquely_nodup _ _ h2⟩

set_option maxRecDepth 100000 in
theorem process_query_result_nodup_witness :
    ProcessQuery 20 "select * from t1,t2 where t1.x>t2.y and t1.x>1".toList false
        = some ({ mTblNameList := ["t1".toList, "t2".toList],
                  mTblColNameList := ["t1.x".toList, "t2.y".toList] }, false)
    ∧ ["t1".toList, "t2".toList].Nodup ∧ ["t1.x".toList, "t2.y".toList].Nodup :=
  ⟨by decide,
   process_query_result_nodup 20 "select * from t1,t2 where t1.x>t2.y and t1.x>1".toList
     false
     ({ mTblNameList := ["t1".toList, "t2".toList],
        mTblColNameList := ["t1.x".toList, "t2.y".toList] }, false) (by decide)⟩

/-! ### Qualifiers of the table-column list -/

theorem mem_store_table_name_uniquely {l : List (List Char)} {x y : List Char} :
    x ∈ store_table_name_uniquely l y ↔ x ∈ l ∨ x = y := by
  unfold store_table_name_uniquely
  split
  · rename_i h
    constructor
    · exact Or.inl
    · rintro (h' | rfl)
      · exact h'
      · exact h
  · simp

theorem mem_store_table_col_name_uniquely {l : List (List Char)} {x y : List Char} :
    x ∈ store_table_col_name_uniquely l y ↔ x ∈ l ∨ x = y :=
  mem_store_table_name_uniquely

theorem mem_foldl_store (ts : List (List Char)) :
    ∀ (l : List (List Char)) (x : List Char),
      x ∈ ts.foldl store_table_name_uniquely l ↔ x ∈ l ∨ x ∈ ts := by
  induction ts with
  | nil => intro l x; simp
  | cons t ts ih =>
    intro l x
    simp only [List.foldl_cons, ih, mem_store_table_name_uniquely, List.mem_cons]
    tauto

/-- C3, for all statements, fails: on a statement with two tables and a
backtick-quoted bare column that contains a `.`, `ProcessQuery` returns the
entry `p.q`, whose text before the `.` is not in the table list. -/
theorem referential_invariant_counterexample :
    ∃ p : TblColList × Bool,
      ProcessQuery 20 "select * from a,b where `p.q` = 1".toList false = some p
      ∧ ∃ e ∈ p.1.mTblColNameList, ∃ t, qualifier_of e = some t ∧ t ∉ p.1.mTblNameList :=
  ⟨({ mTblNameList := ["a".toList, "b".toList], mTblColNameList := ["p.q".toList] }, false),
   by decide, "p.q".toList, by decide, "p".toList, by decide, by decide⟩

/-! ### Evaluations of the driver -/

/-- C4. Subquery scoping fails on
`select * from a, (select y from b) where z = 1`: the `)` after the subquery's
table `b` is taken as the alias of `b`, the frame saved at `(` is never
restored, and the outer column `z` is recorded as `b.z`. -/
theorem subquery_scoping_evaluation :
    ProcessQuery 30 "select * from a, (select y from b) where z = 1".toList false
      = some ({ mTblNameList := ["b".toList], mTblColNameList := ["b.z".toList] }, false) := by
  decide

theorem ProcessQuery_loop_none_of_next (q : List Char) (st st' : DriverState)
    (h1 : st.index < q.length) (h2 : loop_body q st = .next st')
    (h3 : ∀ fuel, ProcessQuery_loop q fuel st' = none) :
    ∀ fuel, ProcessQuery_loop q fuel st = none := by
  intro fuel
  cases fuel with
  | zero => simp [ProcessQuery_loop, h1]
  | succ n => simp [ProcessQuery_loop, h1, h2, h3 n]

theorem ProcessQuery_loop_none_of_fixed (q : List Char) (st : DriverState)
    (h1 : st.index < q.length) (h2 : loop_body q st = .next st) :
    ∀ fuel, ProcessQuery_loop q fuel st = none := by
  intro fuel
  induction fuel with
  | zero => simp [ProcessQuery_loop, h1]
  | succ n ih => simp [ProcessQuery_loop, h1, h2, ih]

theorem diverges_after_sound (q : List Char) :
    ∀ (k : Nat) (st : DriverState), diverges_after q k st = true →
      ∀ fuel, ProcessQuery_loop q fuel st = none := by
  intro k
  induction k with
  | zero =>
    intro st h
    simp only [diverges_after, Bool.and_eq_true, decide_eq_true_eq] at h
    exact ProcessQuery_loop_none_of_fixed q st h.1 h.2
  | succ n ih =>
    intro st h
    simp only [diverges_after, Bool.and_eq_true, decide_eq_true_eq] at h
    cases hb : loop_body q st with
    | next st' =>
      rw [hb] at h
      exact ProcessQuery_loop_none_of_next q st st' h.1 hb (ih st' h.2)
    | done st' =>
      rw [hb] at h
      exact absurd h.2 (by simp)

/-- C5. Termination fails on `select * from t where x > 1e5`: in the Where
state the token `1e5` fails `is_valid_tblcol_name` and is pushed back, the next
iteration reads it again from the same cursor, and the loop of `ProcessQuery`
does not end within any number of iterations, whatever the reset flag. -/
theorem process_query_diverges (fuel : Nat) (flag : Bool) :
    ProcessQuery fuel "select * from t where x > 1e5".toList flag = none := by
  have h : ∀ flag, diverges_after "select * from t where x > 1e5".toList 7
      (initial_state flag) = true := by decide
  unfold ProcessQuery
  rw [diverges_after_sound _ 7 _ (h flag) fuel]
  rfl

/-- C6, as stated, fails: a table that is only read in the From state is not
in the result.  On `select name from emp`, a statement without a WHERE clause,
`ProcessQuery` returns an empty table list and an empty table-column list. -/
theorem from_only_table_not_recorded :
    ProcessQuery 20 "select name from emp".toList false
      = some ({ mTblNameList := [], mTblColNameList := [] }, false) := by
  decide

/-! ### The lexer on words, separators and single spaces -/

theorem charAt_of_drop_cons {input : List Char} {i : Nat} {c : Char} {rest : List Char}
    (h : input.drop i = c :: rest) : charAt input i = c := by
  have hlt : i < input.length := by
    by_contra hge
    rw [List.drop_eq_nil_of_le (by omega)] at h
    cases h
  unfold charAt
  rw [List.getD_eq_getElem _ _ hlt]
  have := List.drop_eq_getElem_cons hlt
  rw [h] at this
  exact (List.cons.inj this).1.symm

theorem lt_length_of_drop_cons {input : List Char} {i : Nat} {c : Char} {rest : List Char}
    (h : input.drop i = c :: rest) : i < input.length := by
  by_contra hge
  rw [List.drop_eq_nil_of_le (by omega)] at h
  cases h

theorem drop_succ_of_drop_cons {input : List Char} {i : Nat} {c : Char} {rest : List Char}
    (h : input.drop i = c :: rest) : input.drop (i + 1) = rest := by
  have hlt := lt_length_of_drop_cons h
  have := List.drop_eq_getElem_cons hlt
  rw [h] at this
  exact (List.cons.inj this).2.symm

theorem length_le_of_drop_nil {input : List Char} {i : Nat}
    (h : input.drop i = []) : input.length ≤ i := by
  simpa using h

theorem charAt_of_drop_nil {input : List Char} {i : Nat}
    (h : input.drop i = []) : charAt input i = Char.ofNat 0 := by
  unfold charAt
  exact List.getD_eq_default _ _ (length_le_of_drop_nil h)

theorem length_sub_of_drop {input : List Char} {i : Nat} {l : List Char}
    (h : input.drop i = l) : input.length - i = l.length := by
  rw [← h, List.length_drop]

theorem charAt_succ_of_drop_cons {input : List Char} {i : Nat} {c : Char}
    {rest : List Char} (h : input.drop i = c :: rest) :
    charAt input (i + 1) = rest.headD (Char.ofNat 0) := by
  have h' := drop_succ_of_drop_cons h
  cases rest with
  | nil => exact charAt_of_drop_nil h'
  | cons d r => exact charAt_of_drop_cons h'

theorem not_wordChar_of_delim {d : Char} (h : d = ' ' ∨ d ∈ token_separators) :
    d = ' ' ∨ (d ∈ token_separators ∧ d ≠ '\'' ∧ d ≠ '"' ∧ d ≠ '`' ∧ d ≠ ' ') := by
  rcases h with h | h
  · exact Or.inl h
  · refine Or.inr ⟨h, ?_⟩
    simp only [token_separators, List.mem_cons, List.mem_singleton, List.not_mem_nil,
      or_false] at h
    rcases h with rfl | rfl | rfl | rfl | rfl | rfl | rfl | rfl | rfl | rfl | rfl | rfl
      | rfl | rfl <;> decide

/-- The loop of the lexer at the end of a word: with a non-empty token
accumulated, at the end of the input or at a separator, it returns the token
and leaves the cursor where it is. -/
theorem get_next_token_loop_word_end (input : List Char) (fuel i : Nat)
    (tok rest : List Char) (h : input.drop i = rest)
    (hr : rest = [] ∨ ∃ d r, rest = d :: r ∧ d ∈ token_separators)
    (htok : tok ≠ []) :
    get_next_token_loop input fuel i tok = (tok, i) := by
  cases fuel with
  | zero => rfl
  | succ f =>
    rcases hr with rfl | ⟨d, r, rfl, hd⟩
    · have hle := length_le_of_drop_nil h
      simp [get_next_token_loop, Nat.not_lt.mpr hle]
    · have hlt := lt_length_of_drop_cons h
      have hc := charAt_of_drop_cons h
      rcases not_wordChar_of_delim (Or.inr hd) with hsp | ⟨_, h1, h2, h3, _⟩
      · subst hsp
        exact absurd hd (by decide)
      · have hl : tok.length ≠ 0 := by
          intro h0
          exact htok (List.length_eq_zero.mp h0)
        simp [get_next_token_loop, hlt, hc, h1, h2, h3, hd, hl]

/-- The loop of the lexer inside a word: it appends the characters of the word
to the token and stops right after the word. -/
theorem get_next_token_loop_word (input : List Char) :
    ∀ (w : List Char) (c : Char) (rest tok : List Char) (fuel i : Nat),
      input.drop i = c :: w ++ rest → WordChar c → (∀ d ∈ w, WordChar d) →
      DelimStart rest → w.length + 1 ≤ fuel →
      get_next_token_loop input fuel i tok = (tok ++ c :: w, i + (w.length + 1)) := by
  intro w
  induction w with
  | nil =>
    intro c rest tok fuel i h hc _ hr hf
    obtain ⟨f, rfl⟩ : ∃ f, fuel = f + 1 := ⟨fuel - 1, by omega⟩
    have hlt := lt_length_of_drop_cons h
    have hci := charAt_of_drop_cons h
    have hnext := charAt_succ_of_drop_cons h
    have hdrop := drop_succ_of_drop_cons h
    obtain ⟨c1, c2, c3, c4, c5⟩ := hc
    simp only [List.nil_append] at h hnext hdrop
    rcases hr with rfl | ⟨d, r, rfl, hd⟩
    · have hn : charAt input (i + 1) ≠ ' ' := by
        rw [hnext]; decide
      have hend := get_next_token_loop_word_end input f (i + 1) (tok ++ [c]) [] hdrop
        (Or.inl rfl) (by simp)
      simp [get_next_token_loop, hlt, hci, c1, c2, c3, c4, c5, hn, hend]
    · rcases not_wordChar_of_delim hd with hsp | ⟨hsep, _, _, _, hns⟩
      · subst hsp
        have hn : charAt input (i + 1) = ' ' := by rw [hnext]; rfl
        simp [get_next_token_loop, hlt, hci, c1, c2, c3, c4, c5, hn]
      · have hn : charAt input (i + 1) ≠ ' ' := by rw [hnext]; exact hns
        have hend := get_next_token_loop_word_end input f (i + 1) (tok ++ [c]) (d :: r)
          hdrop (Or.inr ⟨d, r, rfl, hsep⟩) (by simp)
        simp [get_next_token_loop, hlt, hci, c1, c2, c3, c4, c5, hn, hend]
  | cons d w ih =>
    intro c rest tok fuel i h hc hw hr hf
    obtain ⟨f, rfl⟩ : ∃ f, fuel = f + 1 := ⟨fuel - 1, by omega⟩
    have hlt := lt_length_of_drop_cons h
    have hci := charAt_of_drop_cons h
    have hnext := charAt_succ_of_drop_cons h
    have hdrop := drop_succ_of_drop_cons h
    obtain ⟨c1, c2, c3, c4, c5⟩ := hc
    have hd := hw d (by simp)
    have hn : charAt input (i + 1) ≠ ' ' := by
      rw [hnext]; exact hd.2.2.2.2
    have hrec := ih d rest (tok ++ [c]) f (i + 1) hdrop hd
      (fun e he => hw e (by simp [he])) hr (by simpa using hf)
    simp [get_next_token_loop, hlt, hci, c1, c2, c3, c4, c5, hn, hrec]
    omega

theorem get_next_token_word {input : List Char} {i : Nat} {w rest : List Char}
    (h : input.drop i = w ++ rest) (hne : w ≠ []) (hw : ∀ d ∈ w, WordChar d)
    (hr : DelimStart rest) : get_next_token input i = (w, i + w.length) := by
  cases w with
  | nil => exact absurd rfl hne
  | cons c w =>
    have hlen := length_sub_of_drop h
    have := get_next_token_loop_word input w c rest [] (input.length - i) i h
      (hw c (by simp)) (fun d hd => hw d (by simp [hd])) hr
      (by rw [hlen]; simp)
    simpa [get_next_token] using this

theorem get_next_token_sep {input : List Char} {i : Nat} {c : Char} {rest : List Char}
    (h : input.drop i = c :: rest) (hc : c ∈ token_separators) :
    get_next_token input i = ([c], i + 1) := by
  have hlt := lt_length_of_drop_cons h
  have hci := charAt_of_drop_cons h
  obtain ⟨f, hf⟩ : ∃ f, input.length - i = f + 1 := ⟨input.length - i - 1, by omega⟩
  rcases not_wordChar_of_delim (Or.inr hc) with hsp | ⟨_, h1, h2, h3, _⟩
  · subst hsp
    exact absurd hc (by decide)
  · simp [get_next_token, hf, get_next_token_loop, hlt, hci, h1, h2, h3, hc]

theorem skip_spaces_of_ne (input : List Char) (fuel i : Nat)
    (h : charAt input i ≠ ' ') : skip_spaces input fuel i = i := by
  cases fuel with
  | zero => rfl
  | succ f => simp [skip_spaces, h]

theorem get_next_token_space {input : List Char} {i : Nat} {rest : List Char}
    (h : input.drop i = ' ' :: rest) (hr : rest.headD (Char.ofNat 0) ≠ ' ') :
    get_next_token input i = get_next_token input (i + 1) := by
  have hlt := lt_length_of_drop_cons h
  have hci := charAt_of_drop_cons h
  have hnext := charAt_succ_of_drop_cons h
  have hn : charAt input (i + 1) ≠ ' ' := by rw [hnext]; exact hr
  obtain ⟨f, hf⟩ : ∃ f, input.length - i = f + 1 := ⟨input.length - i - 1, by omega⟩
  have hf' : input.length - (i + 1) = f := by omega
  have hs : (' ' : Char) ∉ token_separators := by decide
  simp [get_next_token, hf, hf', get_next_token_loop, hlt, hci, hs,
    skip_spaces_of_ne input f (i + 1) hn]

theorem wordChar_of_isDigit {d : Char} (h : d.isDigit = true) : WordChar d := by
  refine ⟨?_, ?_, ?_, ?_, ?_⟩
  · rintro rfl; revert h; decide
  · rintro rfl; revert h; decide
  · rintro rfl; revert h; decide
  · intro hm
    simp only [token_separators, List.mem_cons, List.mem_singleton, List.not_mem_nil,
      or_false] at hm
    rcases hm with rfl | rfl | rfl | rfl | rfl | rfl | rfl | rfl | rfl | rfl | rfl | rfl
      | rfl | rfl <;> revert h <;> decide
  · rintro rfl; revert h; decide

/-! ### The valid-token reader on words, separators, spaces and numbers -/

theorem skip_invalid_tokens_of_valid (query : List Char) (fuel : Nat)
    (r : List Char × Nat) (h : is_valid_token r.1 = true) :
    skip_invalid_tokens query fuel r = r := by
  cases fuel with
  | zero => rfl
  | succ f => simp [skip_invalid_tokens, h]

theorem get_next_valid_token_of_simple {query : List Char} {i j : Nat} {w : List Char}
    (h : get_next_token query i = (w, j)) (hv : is_valid_token w = true)
    (hb : charAt w 0 ≠ '`') (hc : convert_to_uppercase w ≠ "CONCAT".toList)
    (hm : convert_to_uppercase w ≠ "MAX".toList) :
    get_next_valid_token query i = (w, j) := by
  unfold get_next_valid_token
  rw [get_next_valid_token_rec]
  simp only [h, skip_invalid_tokens_of_valid query _ (w, j) hv, hv, hb, hc, hm,
    not_true_eq_false, and_false, if_false]

theorem get_next_valid_token_word {query : List Char} {i : Nat} {w rest : List Char}
    (h : query.drop i = w ++ rest) (hw : SimpleWord w) (hr : DelimStart rest) :
    get_next_valid_token query i = (w, i + w.length) := by
  obtain ⟨hne, hch, hv, hc, hm⟩ := hw
  refine get_next_valid_token_of_simple (get_next_token_word h hne hch hr) hv ?_ hc hm
  cases w with
  | nil => exact absurd rfl hne
  | cons c w => exact (hch c (by simp)).2.2.1

theorem get_next_valid_token_sep {query : List Char} {i : Nat} {c : Char}
    {rest : List Char} (h : query.drop i = c :: rest) (hc : c ∈ token_separators) :
    get_next_valid_token query i = ([c], i + 1) := by
  have hfacts : is_valid_token [c] = true ∧ charAt [c] 0 ≠ '`'
      ∧ convert_to_uppercase [c] ≠ "CONCAT".toList
      ∧ convert_to_uppercase [c] ≠ "MAX".toList := by
    simp only [token_separators, List.mem_cons, List.mem_singleton, List.not_mem_nil,
      or_false] at hc
    rcases hc with rfl | rfl | rfl | rfl | rfl | rfl | rfl | rfl | rfl | rfl | rfl | rfl
      | rfl | rfl <;> decide
  exact get_next_valid_token_of_simple (get_next_token_sep h hc) hfacts.1 hfacts.2.1
    hfacts.2.2.1 hfacts.2.2.2

theorem get_next_valid_token_space {query : List Char} {i : Nat} {rest : List Char}
    (h : query.drop i = ' ' :: rest) (hr : rest.headD (Char.ofNat 0) ≠ ' ') :
    get_next_valid_token query i = get_next_valid_token query (i + 1) := by
  simp only [get_next_valid_token, get_next_valid_token_rec, get_next_token_space h hr]

theorem get_next_valid_token_end {query : List Char} {i : Nat} (h : query.length ≤ i) :
    get_next_valid_token query i = ([], i) := by
  have hv : is_valid_token [] = false := by decide
  simp [get_next_valid_token, get_next_valid_token_rec, get_next_token_end h,
    Nat.sub_eq_zero_of_le h, skip_invalid_tokens, hv, h]

theorem get_next_valid_token_number_end {query : List Char} {i : Nat} {w : List Char}
    (h : query.drop i = w) (hne : w ≠ []) (hd : ∀ d ∈ w, d.isDigit = true) :
    get_next_valid_token query i = ([], i + w.length) := by
  have htok : get_next_token query i = (w, i + w.length) :=
    @get_next_token_word query i w [] (by simpa using h) hne
      (fun d hdm => wordChar_of_isDigit (hd d hdm)) (Or.inl rfl)
  have hlen := length_sub_of_drop h
  have hge : query.length ≤ i + w.length := by omega
  have hnum : is_number w = true := by
    cases w with
    | nil => exact absurd rfl hne
    | cons c w => simpa [is_number, List.isEmpty] using hd
  have hv : is_valid_token w = false := by
    simp [is_valid_token, hnum]
  simp [get_next_valid_token, get_next_valid_token_rec, htok,
    Nat.sub_eq_zero_of_le hge, skip_invalid_tokens, hv, hge]

theorem get_next_valid_token_number {query : List Char} {i : Nat} {w rest : List Char}
    (h : query.drop i = w ++ rest) (hne : w ≠ []) (hd : ∀ d ∈ w, d.isDigit = true)
    (hr : DelimStart rest) (hrest : rest ≠ []) :
    get_next_valid_token query i = get_next_valid_token query (i + w.length) := by
  have htok : get_next_token query i = (w, i + w.length) :=
    get_next_token_word h hne (fun d hdm => wordChar_of_isDigit (hd d hdm)) hr
  have hlen := length_sub_of_drop h
  rw [List.length_append] at hlen
  have hpos : 0 < rest.length := List.length_pos.mpr hrest
  have hlt : i + w.length < query.length := by omega
  have hnum : is_number w = true := by
    cases w with
    | nil => exact absurd rfl hne
    | cons c w => simpa [is_number, List.isEmpty] using hd
  have hv : is_valid_token w = false := by
    simp [is_valid_token, hnum]
  obtain ⟨f, hf⟩ : ∃ f, query.length - (i + w.length) = f + 1 :=
    ⟨query.length - (i + w.length) - 1, by omega⟩
  have hadv := get_next_token_advances query (i + w.length) hlt
  have hskip : skip_invalid_tokens query (query.length - (i + w.length)) (w, i + w.length)
      = skip_invalid_tokens query
          (query.length - (get_next_token query (i + w.length)).2)
          (get_next_token query (i + w.length)) := by
    rw [hf, skip_invalid_tokens, if_pos ⟨by simp [hv], hlt⟩]
    dsimp only
    exact skip_invalid_tokens_fuel_eq query _ _ _ (by omega) (Nat.le_refl _)
  unfold get_next_valid_token
  rw [get_next_valid_token_rec, get_next_valid_token_rec]
  simp only [htok, hskip]

/-! ### The driver reads its input through the token stream only -/

theorem loop_body_eq_on (q : List Char) (st : DriverState) :
    loop_body q st = loop_body_on (get_next_valid_token q) pushback_token_to_stream st :=
  rfl

theorem StRel.of_index {R : Nat → Nat → Prop} (st : DriverState) {i k : Nat}
    (h : R i k) : StRel R { st with index := i } { st with index := k } :=
  ⟨h, rfl⟩

theorem StRel.eq_with {R : Nat → Nat → Prop} {a b : DriverState} (h : StRel R a b) :
    a = { b with index := a.index } := by
  obtain ⟨_, he⟩ := h
  cases a
  cases b
  simp only [DriverState.mk.injEq, true_and] at he
  obtain ⟨h1, h2, h3, h4, h5, h6, h7⟩ := he
  subst h1 h2 h3 h4 h5 h6 h7
  rfl

theorem process_open_on_sim {R : Nat → Nat → Prop}
    {nextC nextA : Nat → List Char × Nat} {backC backA : List Char → Nat → Nat}
    (H : StreamRel R nextC backC nextA backA) (st : DriverState) (i k : Nat)
    (hR : R i k) :
    OutRel R (process_open_on nextC backC { st with index := i })
      (process_open_on nextA backA { st with index := k }) := by
  obtain ⟨ht, _, hb⟩ := H i k hR
  rw [ht] at hb
  unfold process_open_on
  simp only [ht]
  split
  · exact ⟨hb, rfl⟩
  · exact ⟨hb, rfl⟩

theorem process_from_on_sim {R : Nat → Nat → Prop}
    {nextC nextA : Nat → List Char × Nat} {backC backA : List Char → Nat → Nat}
    (H : StreamRel R nextC backC nextA backA) (tok : List Char) (i0 k0 : Nat)
    (h0 : (nextC i0).1 = tok ∧ (nextA k0).1 = tok) (hR0 : R i0 k0)
    (st : DriverState) :
    OutRel R (process_from_on nextC backC tok { st with index := (nextC i0).2 })
      (process_from_on nextA backA tok { st with index := (nextA k0).2 }) := by
  obtain ⟨_, hR, hb0⟩ := H i0 k0 hR0
  rw [h0.1, h0.2] at hb0
  obtain ⟨ht, hn, hb⟩ := H _ _ hR
  rw [ht] at hb
  obtain ⟨ht2, hn2, _⟩ := H _ _ hn
  unfold process_from_on
  simp only [ht, ht2]
  split
  · exact ⟨hb0, rfl⟩
  · split
    · exact ⟨hb, rfl⟩
    · split
      · split
        · exact ⟨hn2, rfl⟩
        · exact ⟨hn2, rfl⟩
      · exact ⟨hn, rfl⟩

theorem process_where_on_sim {R : Nat → Nat → Prop}
    {nextC nextA : Nat → List Char × Nat} {backC backA : List Char → Nat → Nat}
    (H : StreamRel R nextC backC nextA backA) (tok : List Char) (i0 k0 : Nat)
    (h0 : (nextC i0).1 = tok ∧ (nextA k0).1 = tok) (hR0 : R i0 k0)
    (st : DriverState) :
    OutRel R (process_where_on nextC backC tok { st with index := (nextC i0).2 })
      (process_where_on nextA backA tok { st with index := (nextA k0).2 }) := by
  obtain ⟨_, hR, hb0⟩ := H i0 k0 hR0
  rw [h0.1, h0.2] at hb0
  obtain ⟨ht, hn, hb⟩ := H _ _ hR
  rw [ht] at hb
  obtain ⟨ht2, hn2, _⟩ := H _ _ hn
  unfold process_where_on
  simp only [ht, ht2]
  split
  · exact ⟨hb0, rfl⟩
  · split
    · split
      · exact ⟨hn2, rfl⟩
      · split
        · exact ⟨hn2, rfl⟩
        · exact ⟨hn2, rfl⟩
    · split
      · exact ⟨hn, rfl⟩
      · exact ⟨hn, rfl⟩

theorem process_token_on_sim {R : Nat → Nat → Prop}
    {nextC nextA : Nat → List Char × Nat} {backC backA : List Char → Nat → Nat}
    (H : StreamRel R nextC backC nextA backA) (tok : List Char) (i0 k0 : Nat)
    (h0 : (nextC i0).1 = tok ∧ (nextA k0).1 = tok) (hR0 : R i0 k0)
    (st : DriverState) :
    OutRel R (process_token_on nextC backC tok { st with index := (nextC i0).2 })
      (process_token_on nextA backA tok { st with index := (nextA k0).2 }) := by
  have hR := (H i0 k0 hR0).2.1
  unfold process_token_on
  simp only
  split
  · exact ⟨hR, rfl⟩
  · split
    · exact ⟨hR, rfl⟩
    · split
      · exact process_from_on_sim H tok i0 k0 h0 hR0 st
      · split
        · exact process_where_on_sim H tok i0 k0 h0 hR0 st
        · exact ⟨hR, rfl⟩

theorem process_token_on_reset_sim {R : Nat → Nat → Prop}
    {nextC nextA : Nat → List Char × Nat} {backC backA : List Char → Nat → Nat}
    (H : StreamRel R nextC backC nextA backA) (tok : List Char) (i0 k0 : Nat)
    (h0 : (nextC i0).1 = tok ∧ (nextA k0).1 = tok) (hR0 : R i0 k0)
    (st : DriverState) :
    OutRel R
      (process_token_on nextC backC tok
        (apply_state_reset { st with index := (nextC i0).2 }))
      (process_token_on nextA backA tok
        (apply_state_reset { st with index := (nextA k0).2 })) := by
  obtain ⟨index, tnl, cs, ps, ltl, stack, res, flag⟩ := st
  unfold apply_state_reset
  cases flag
  · exact process_token_on_sim H tok i0 k0 h0 hR0 ⟨index, tnl, cs, ps, ltl, stack, res, false⟩
  · exact process_token_on_sim H tok i0 k0 h0 hR0 ⟨index, [], cs, ps, ltl, stack, res, !true⟩

theorem loop_body_on_sim {R : Nat → Nat → Prop}
    {nextC nextA : Nat → List Char × Nat} {backC backA : List Char → Nat → Nat}
    (H : StreamRel R nextC backC nextA backA) (a b : DriverState)
    (h : StRel R a b) :
    OutRel R (loop_body_on nextC backC a) (loop_body_on nextA backA b) := by
  have ha := h.eq_with
  obtain ⟨hR0, _⟩ := h
  generalize a.index = i0 at ha hR0
  subst ha
  obtain ⟨ht, hR, _⟩ := H i0 b.index hR0
  unfold loop_body_on
  simp only [ht]
  split
  · exact ⟨hR, rfl⟩
  · split
    · exact process_open_on_sim H b _ _ hR
    · split
      · unfold process_close
        simp only
        split
        · exact ⟨hR, rfl⟩
        · split
          · exact ⟨hR, rfl⟩
          · exact ⟨hR, rfl⟩
      · split
        · exact ⟨hR, rfl⟩
        · exact process_token_on_reset_sim H (nextA b.index).1 i0 b.index ⟨ht, rfl⟩ hR0
            { b with
              current_state := (set_state (nextA b.index).1 b.current_state
                b.previous_state b.state_reset_needed).current_state,
              previous_state := (set_state (nextA b.index).1 b.current_state
                b.previous_state b.state_reset_needed).previous_state,
              state_reset_needed := (set_state (nextA b.index).1 b.current_state
                b.previous_state b.state_reset_needed).state_reset_needed }

/-! ### Cutting a rendered statement back into pieces -/

theorem render_append (a b : List Seg) : render (a ++ b) = render a ++ render b := by
  induction a with
  | nil => rfl
  | cons s a ih => simp [render, ih]

theorem render_take_append_drop (segs : List Seg) (k : Nat) :
    render (segs.take k) ++ render (segs.drop k) = render segs := by
  rw [← render_append, List.take_append_drop]

theorem drop_seg_pos (segs : List Seg) (k : Nat) :
    (render segs).drop (seg_pos segs k) = render (segs.drop k) := by
  have h := render_take_append_drop segs k
  rw [← h]
  exact List.drop_left _ _

theorem seg_pos_add_length (segs : List Seg) (k : Nat) :
    seg_pos segs k + (render (segs.drop k)).length = (render segs).length := by
  rw [← render_take_append_drop segs k, List.length_append]
  rfl

theorem seg_pos_succ {segs : List Seg} {k : Nat} {s : Seg} {r : List Seg}
    (h : segs.drop k = s :: r) :
    k < segs.length ∧ segs.drop (k + 1) = r
      ∧ seg_pos segs (k + 1) = seg_pos segs k + s.text.length := by
  have hlt : k < segs.length := by
    by_contra hge
    rw [List.drop_eq_nil_of_le (by omega)] at h
    cases h
  have hd := List.drop_eq_getElem_cons hlt
  rw [h] at hd
  obtain ⟨h1, h2⟩ := List.cons.inj hd
  refine ⟨hlt, h2.symm, ?_⟩
  unfold seg_pos
  rw [List.take_succ, List.getElem?_eq_getElem hlt, ← h1, render_append]
  simp [render]

theorem SegsOK_tail {s : Seg} {r : List Seg} (h : SegsOK (s :: r)) : SegsOK r := by
  cases s with
  | word w => exact h.2.2
  | sep c => exact h.2
  | space => exact h.2
  | num w => exact h.2.2

theorem SegsOK_drop (segs : List Seg) (h : SegsOK segs) :
    ∀ k, SegsOK (segs.drop k) := by
  induction segs with
  | nil => intro k; simpa using h
  | cons s r ih =>
    intro k
    cases k with
    | zero => exact h
    | succ k => exact ih (SegsOK_tail h) k

theorem text_ne_nil_of_SegsOK {s : Seg} {r : List Seg} (h : SegsOK (s :: r)) :
    1 ≤ s.text.length := by
  cases s with
  | word w =>
    have hne : w ≠ [] := h.1.1
    cases w with
    | nil => exact absurd rfl hne
    | cons c w => simp [Seg.text]
  | sep c => simp [Seg.text]
  | space => simp [Seg.text]
  | num w =>
    have hne : w ≠ [] := h.1.1
    cases w with
    | nil => exact absurd rfl hne
    | cons c w => simp [Seg.text]

theorem delimStart_render {r : List Seg} (he : ends_word r) (hok : SegsOK r) :
    DelimStart (render r) := by
  cases r with
  | nil => exact Or.inl rfl
  | cons s r =>
    cases s with
    | word w => exact he.elim
    | sep c => exact Or.inr ⟨c, render r, rfl, Or.inr hok.1⟩
    | space => exact Or.inr ⟨' ', render r, rfl, Or.inl rfl⟩
    | num w => exact he.elim

theorem headD_render_ne_space {r : List Seg} (hns : no_space_first r) (hok : SegsOK r) :
    (render r).headD (Char.ofNat 0) ≠ ' ' := by
  cases r with
  | nil => decide
  | cons s r =>
    cases s with
    | word w =>
      obtain ⟨hne, hch, _⟩ := hok.1
      cases w with
      | nil => exact absurd rfl hne
      | cons c w => exact (hch c (by simp)).2.2.2.2
    | sep c =>
      have hc : c ∈ token_separators := hok.1
      intro h
      simp only [render, Seg.text, List.singleton_append, List.headD_cons] at h
      subst h
      exact absurd hc (by decide)
    | space => exact hns.elim
    | num w =>
      obtain ⟨hne, hd⟩ := hok.1
      cases w with
      | nil => exact absurd rfl hne
      | cons c w => exact (wordChar_of_isDigit (hd c (by simp))).2.2.2.2

/-- On a statement rendered from good pieces, `get_next_valid_token` at the
cursor after `k` pieces returns the token `seg_next_at` returns and leaves the
cursor after the piece of that token. -/
theorem get_next_valid_token_render (segs : List Seg) :
    ∀ (rem : List Seg) (k : Nat), segs.drop k = rem → k ≤ segs.length → SegsOK rem →
      get_next_valid_token (render segs) (seg_pos segs k)
          = ((seg_next_at rem k).1, seg_pos segs (seg_next_at rem k).2)
        ∧ (seg_next_at rem k).2 ≤ segs.length
        ∧ ((seg_next_at rem k).1 ≠ [] →
            1 ≤ (seg_next_at rem k).2
            ∧ seg_pos segs ((seg_next_at rem k).2 - 1) + (seg_next_at rem k).1.length
                = seg_pos segs (seg_next_at rem k).2) := by
  intro rem
  induction rem with
  | nil =>
    intro k h hk _
    have hlen := seg_pos_add_length segs k
    rw [h] at hlen
    simp only [render, List.length_nil, Nat.add_zero] at hlen
    refine ⟨?_, hk, fun hne => absurd rfl hne⟩
    exact get_next_valid_token_end (by rw [hlen])
  | cons s r ih =>
    intro k h hk hok
    obtain ⟨hlt, hdrop, hpos⟩ := seg_pos_succ h
    have hq := drop_seg_pos segs k
    rw [h] at hq
    cases s with
    | word w =>
      obtain ⟨hw, he, hokr⟩ := hok
      have hr := delimStart_render he hokr
      simp only [render, Seg.text] at hq hpos
      refine ⟨?_, hlt, fun _ => ⟨Nat.le_add_left 1 k, ?_⟩⟩
      · rw [get_next_valid_token_word hq hw hr]
        simp only [seg_next_at, hpos]
      · simp only [seg_next_at, Nat.add_sub_cancel, hpos]
    | sep c =>
      obtain ⟨hc, _⟩ := hok
      simp only [render, Seg.text, List.singleton_append] at hq
      simp only [Seg.text, List.length_singleton] at hpos
      refine ⟨?_, hlt, fun _ => ⟨Nat.le_add_left 1 k, ?_⟩⟩
      · rw [get_next_valid_token_sep hq hc]
        simp only [seg_next_at, hpos]
      · simp only [seg_next_at, Nat.add_sub_cancel, hpos, List.length_singleton]
    | space =>
      obtain ⟨hns, hokr⟩ := hok
      have hsp := headD_render_ne_space hns hokr
      simp only [render, Seg.text, List.singleton_append] at hq
      simp only [Seg.text, List.length_singleton] at hpos
      have := ih (k + 1) hdrop hlt hokr
      rw [hpos] at this
      simpa only [seg_next_at, get_next_valid_token_space hq hsp] using this
    | num w =>
      obtain ⟨⟨hne, hd⟩, he, hokr⟩ := hok
      simp only [Seg.text] at hpos
      cases r with
      | nil =>
        simp only [render, Seg.text, List.append_nil] at hq
        refine ⟨?_, hlt, fun hne' => absurd rfl hne'⟩
        rw [get_next_valid_token_number_end hq hne hd]
        simp only [seg_next_at, hpos]
      | cons s2 r2 =>
        have hr := delimStart_render he hokr
        have hq2 : (render segs).drop (seg_pos segs k) = w ++ render (s2 :: r2) := hq
        have hrest : render (s2 :: r2) ≠ [] := by
          have h1 := text_ne_nil_of_SegsOK hokr
          intro h0
          have h2 := congrArg List.length h0
          simp only [render, List.length_append, List.length_nil] at h2
          omega
        have := ih (k + 1) hdrop hlt hokr
        rw [hpos] at this
        simpa only [seg_next_at, get_next_valid_token_number hq2 hne hd hr hrest] using this

theorem pushback_token_to_stream_exact (token : List Char) (i j : Nat)
    (h : i + token.length = j) (hj : j < 4294967296) :
    pushback_token_to_stream token j = i := by
  unfold pushback_token_to_stream
  have h1 : token.length % 4294967296 = token.length := Nat.mod_eq_of_lt (by omega)
  rw [h1]
  have h2 : j + 4294967296 - token.length = i + 4294967296 := by omega
  rw [h2, Nat.add_mod_right]
  exact Nat.mod_eq_of_lt (by omega)

theorem seg_pos_le (segs : List Seg) (k : Nat) :
    seg_pos segs k ≤ (render segs).length := by
  have := seg_pos_add_length segs k
  omega

/-- On a statement rendered from good pieces and shorter than `2^32`, the
valid-token reader and the push-back of the source follow the pieces. -/
theorem streamRel_render (segs : List Seg) (hok : SegsOK segs)
    (hlen : (render segs).length < 4294967296) :
    StreamRel (SegCursor segs) (get_next_valid_token (render segs))
      pushback_token_to_stream (seg_next segs) seg_back := by
  rintro i k ⟨hk, rfl⟩
  obtain ⟨h1, h2, h3⟩ :=
    get_next_valid_token_render segs (segs.drop k) k rfl hk (SegsOK_drop segs hok k)
  unfold seg_next
  rw [h1]
  refine ⟨rfl, ⟨h2, rfl⟩, ?_⟩
  simp only
  unfold seg_back
  by_cases he : (seg_next_at (segs.drop k) k).1 = []
  · rw [he, if_pos rfl]
    refine ⟨h2, ?_⟩
    exact pushback_token_to_stream_exact [] _ _ rfl
      (Nat.lt_of_le_of_lt (seg_pos_le segs _) hlen)
  · rw [if_neg he]
    obtain ⟨h4, h5⟩ := h3 he
    refine ⟨by omega, ?_⟩
    exact pushback_token_to_stream_exact _ _ _ h5
      (Nat.lt_of_le_of_lt (seg_pos_le segs _) hlen)

theorem seg_pos_lt_iff (segs : List Seg) (hok : SegsOK segs) (k : Nat)
    (hk : k ≤ segs.length) :
    seg_pos segs k < (render segs).length ↔ k < segs.length := by
  have hadd := seg_pos_add_length segs k
  constructor
  · intro h
    by_contra hge
    have : segs.drop k = [] := List.drop_eq_nil_of_le (by omega)
    rw [this] at hadd
    simp only [render, List.length_nil, Nat.add_zero] at hadd
    omega
  · intro h
    have hd := List.drop_eq_getElem_cons h
    have hokd := SegsOK_drop segs hok k
    rw [hd] at hokd hadd
    have := text_ne_nil_of_SegsOK hokd
    simp only [render, List.length_append] at hadd
    omega

theorem ProcessQuery_loop_render (segs : List Seg) (hok : SegsOK segs)
    (hlen : (render segs).length < 4294967296) :
    ∀ (fuel : Nat) (a b : DriverState), StRel (SegCursor segs) a b →
      (ProcessQuery_loop (render segs) fuel a).map
          (fun st => (st.pRes, st.state_reset_needed))
        = (ProcessSegs_loop segs fuel b).map
          (fun st => (st.pRes, st.state_reset_needed)) := by
  have hfin : ∀ a b : DriverState, StRel (SegCursor segs) a b →
      (a.pRes, a.state_reset_needed) = (b.pRes, b.state_reset_needed) := by
    intro a b h
    rw [h.eq_with]
  have hmore : ∀ a b : DriverState, StRel (SegCursor segs) a b →
      (a.index < (render segs).length ↔ b.index < segs.length) := by
    rintro a b ⟨⟨hk, hi⟩, _⟩
    rw [hi]
    exact seg_pos_lt_iff segs hok _ hk
  intro fuel
  induction fuel with
  | zero =>
    intro a b h
    simp only [ProcessQuery_loop, ProcessSegs_loop]
    by_cases hb : b.index < segs.length
    · simp [hb, (hmore a b h).mpr hb]
    · simp [hb, mt (hmore a b h).mp hb, hfin a b h]
  | succ n ih =>
    intro a b h
    simp only [ProcessQuery_loop, ProcessSegs_loop]
    by_cases hb : b.index < segs.length
    · have ha := (hmore a b h).mpr hb
      have hsim := loop_body_on_sim (streamRel_render segs hok hlen) a b h
      rw [← loop_body_eq_on] at hsim
      simp only [hb, ha, if_true]
      cases h1 : loop_body (render segs) a with
      | next a' =>
        cases h2 : loop_body_on (seg_next segs) seg_back b with
        | next b' =>
          rw [h1, h2] at hsim
          exact ih a' b' hsim
        | done b' => rw [h1, h2] at hsim; exact hsim.elim
      | done a' =>
        cases h2 : loop_body_on (seg_next segs) seg_back b with
        | next b' => rw [h1, h2] at hsim; exact hsim.elim
        | done b' =>
          rw [h1, h2] at hsim
          simp [hfin a' b' hsim]
    · simp [hb, mt (hmore a b h).mp hb, hfin a b h]

/-- On a statement rendered from good pieces and shorter than `2^32`,
`ProcessQuery` is the driver run over the pieces. -/
theorem ProcessQuery_render (segs : List Seg) (hok : SegsOK segs)
    (hlen : (render segs).length < 4294967296) (fuel : Nat) (flag : Bool) :
    ProcessQuery fuel (render segs) flag = ProcessSegs fuel segs flag := by
  unfold ProcessQuery ProcessSegs
  exact ProcessQuery_loop_render segs hok hlen fuel _ _
    ⟨⟨Nat.zero_le _, rfl⟩, rfl⟩

/-! ### Plain identifiers -/

theorem ident_chars_wordChar :
    ∀ c ∈ ident_chars, c ≠ '\'' ∧ c ≠ '"' ∧ c ≠ '`' ∧ c ∉ token_separators ∧ c ≠ ' ' := by
  decide

theorem ident_letters_facts :
    ∀ c ∈ ident_letters, c ∈ ident_chars ∧ c.isDigit = false ∧ c ∉ operators
      ∧ c ≠ ',' ∧ c ≠ ';' ∧ c ≠ '(' ∧ c ≠ ')' ∧ c ≠ '.' := by
  decide

theorem plain_identifier_facts {w : List Char} (h : plain_identifier w = true) :
    PlainFacts w := by
  cases w with
  | nil => simp [plain_identifier] at h
  | cons c cs =>
    simp only [plain_identifier, Bool.and_eq_true, decide_eq_true_eq, List.all_eq_true,
      Bool.not_eq_true', ne_eq] at h
    obtain ⟨⟨⟨⟨hc, hcs⟩, hres⟩, has⟩, hcc⟩ := h
    refine ⟨by simp, by simpa [charAt] using hc, ?_, hres, has, hcc⟩
    intro d hd
    rcases List.mem_cons.mp hd with rfl | hd
    · exact ident_chars_wordChar d (ident_letters_facts d hc).1
    · exact ident_chars_wordChar d (hcs d hd)

theorem PlainFacts.head {w : List Char} (hp : PlainFacts w) :
    ∃ c cs, w = c :: cs ∧ c ∈ ident_letters := by
  cases w with
  | nil => exact absurd rfl hp.ne_nil
  | cons c cs => exact ⟨c, cs, rfl, by simpa [charAt] using hp.head_letter⟩

theorem PlainFacts.valid_token {w : List Char} (hp : PlainFacts w) :
    is_valid_token w = true := by
  obtain ⟨c, cs, rfl, hc⟩ := hp.head
  obtain ⟨h1, h2, _⟩ := ident_chars_wordChar c (ident_letters_facts c hc).1
  have hd := (ident_letters_facts c hc).2.1
  simp [is_valid_token, charAt, h1, h2, is_number, hd]

theorem PlainFacts.upper_not_keyword {w : List Char} (hp : PlainFacts w)
    (k : List Char) (hk : k ∈ keywords) : convert_to_uppercase w ≠ k := by
  intro h
  have := hp.not_reserved
  simp [is_token_reserved, h, hk] at this

theorem PlainFacts.simpleWord {w : List Char} (hp : PlainFacts w) : SimpleWord w :=
  ⟨hp.ne_nil, hp.wordChars, hp.valid_token, hp.not_concat,
    hp.upper_not_keyword _ (by decide)⟩

theorem PlainFacts.not_operator {w : List Char} (hp : PlainFacts w) :
    is_token_operator w = false := by
  have := (ident_letters_facts _ hp.head_letter).2.2.1
  simp [is_token_operator, this]

theorem PlainFacts.ne_single {w : List Char} (hp : PlainFacts w) (c : Char)
    (hc : c ∉ ident_letters) : w ≠ [c] := by
  rintro rfl
  exact hc (by simpa [charAt] using hp.head_letter)

theorem PlainFacts.valid_name {w : List Char} (hp : PlainFacts w) :
    is_valid_tblcol_name w = true := by
  have hd := (ident_letters_facts _ hp.head_letter).2.1
  have h1 := hp.ne_single ',' (by decide)
  have h2 := hp.ne_single ';' (by decide)
  simp [is_valid_tblcol_name, hp.ne_nil, hp.not_operator, hp.not_reserved, hd, h1, h2]

theorem PlainFacts.set_state {w : List Char} (hp : PlainFacts w)
    (cs ps : token_state_t) (f : Bool) :
    set_state w cs ps f
      = { changed := false, current_state := cs, previous_state := ps,
          state_reset_needed := f } := by
  have h1 := hp.upper_not_keyword "SELECT".toList (by decide)
  have h2 := hp.upper_not_keyword "UNION".toList (by decide)
  have h3 := hp.upper_not_keyword "FROM".toList (by decide)
  have h4 := hp.upper_not_keyword "JOIN".toList (by decide)
  have h5 := hp.upper_not_keyword "WHERE".toList (by decide)
  have h6 := hp.upper_not_keyword "ON".toList (by decide)
  have h7 := hp.upper_not_keyword "BY".toList (by decide)
  unfold QParser.set_state
  simp only [h1, h2, h3, h4, h5, h6, h7, or_self, if_false]

theorem PlainFacts.ne_AS {w : List Char} (hp : PlainFacts w) : w ≠ "AS".toList := by
  intro h
  exact hp.not_as (by rw [h]; decide)

theorem PlainFacts.ne_as {w : List Char} (hp : PlainFacts w) : w ≠ "as".toList := by
  intro h
  exact hp.not_as (by rw [h]; decide)

theorem PlainFacts.no_dot {w : List Char} (hp : PlainFacts w) : '.' ∉ w := by
  intro h
  exact (hp.wordChars '.' h).2.2.2.1 (by decide)

theorem PlainFacts.ne_open {w : List Char} (hp : PlainFacts w) : w ≠ ['('] :=
  hp.ne_single '(' (by decide)

theorem PlainFacts.ne_close {w : List Char} (hp : PlainFacts w) : w ≠ [')'] :=
  hp.ne_single ')' (by decide)

theorem PlainFacts.ne_comma {w : List Char} (hp : PlainFacts w) : w ≠ [','] :=
  hp.ne_single ',' (by decide)

theorem PlainFacts.ne_semicolon {w : List Char} (hp : PlainFacts w) : w ≠ [';'] :=
  hp.ne_single ';' (by decide)

theorem PlainFacts.ne_dot {w : List Char} (hp : PlainFacts w) : w ≠ ['.'] :=
  hp.ne_single '.' (by decide)

theorem PlainFacts.ne_AS' {w : List Char} (hp : PlainFacts w) : w ≠ ['A', 'S'] :=
  hp.ne_AS

theorem PlainFacts.ne_as' {w : List Char} (hp : PlainFacts w) : w ≠ ['a', 's'] :=
  hp.ne_as

/-! ### The classifier on the fixed tokens of the scenarios -/

theorem token_select_facts :
    (∀ (cs ps : token_state_t) (f : Bool),
        set_state ['s', 'e', 'l', 'e', 'c', 't'] cs ps f
          = { changed := true, current_state := .SELECT, previous_state := .SELECT,
              state_reset_needed := true })
    ∧ is_token_reserved ['s', 'e', 'l', 'e', 'c', 't'] = true
    ∧ is_token_operator ['s', 'e', 'l', 'e', 'c', 't'] = false
    ∧ is_valid_tblcol_name ['s', 'e', 'l', 'e', 'c', 't'] = false :=
  ⟨fun _ _ _ => rfl, by decide, by decide, by decide⟩

theorem token_name_facts :
    (∀ (cs ps : token_state_t) (f : Bool),
        set_state ['n', 'a', 'm', 'e'] cs ps f
          = { changed := false, current_state := cs, previous_state := ps,
              state_reset_needed := f })
    ∧ is_token_reserved ['n', 'a', 'm', 'e'] = false
    ∧ is_token_operator ['n', 'a', 'm', 'e'] = false
    ∧ is_valid_tblcol_name ['n', 'a', 'm', 'e'] = true :=
  ⟨fun _ _ _ => rfl, by decide, by decide, by decide⟩

theorem token_from_facts :
    (∀ (cs ps : token_state_t) (f : Bool),
        set_state ['f', 'r', 'o', 'm'] cs ps f
          = { changed := decide (token_state_t.FROM ≠ cs), current_state := .FROM,
              previous_state := cs, state_reset_needed := f })
    ∧ is_token_reserved ['f', 'r', 'o', 'm'] = true
    ∧ is_token_operator ['f', 'r', 'o', 'm'] = false
    ∧ is_valid_tblcol_name ['f', 'r', 'o', 'm'] = false :=
  ⟨fun _ _ _ => rfl, by decide, by decide, by decide⟩

theorem token_where_facts :
    (∀ (cs ps : token_state_t) (f : Bool),
        set_state ['w', 'h', 'e', 'r', 'e'] cs ps f
          = { changed := decide (token_state_t.WHERE ≠ cs), current_state := .WHERE,
              previous_state := cs, state_reset_needed := f })
    ∧ is_token_reserved ['w', 'h', 'e', 'r', 'e'] = true
    ∧ is_token_operator ['w', 'h', 'e', 'r', 'e'] = false
    ∧ is_valid_tblcol_name ['w', 'h', 'e', 'r', 'e'] = false :=
  ⟨fun _ _ _ => rfl, by decide, by decide, by decide⟩

theorem token_as_facts :
    (∀ (cs ps : token_state_t) (f : Bool),
        set_state ['a', 's'] cs ps f
          = { changed := false, current_state := cs, previous_state := ps,
              state_reset_needed := f })
    ∧ is_token_reserved ['a', 's'] = false
    ∧ is_token_operator ['a', 's'] = false
    ∧ is_valid_tblcol_name ['a', 's'] = true :=
  ⟨fun _ _ _ => rfl, by decide, by decide, by decide⟩

theorem token_star_facts :
    (∀ (cs ps : token_state_t) (f : Bool),
        set_state ['*'] cs ps f
          = { changed := false, current_state := cs, previous_state := ps,
              state_reset_needed := f })
    ∧ is_token_reserved ['*'] = false
    ∧ is_token_operator ['*'] = true
    ∧ is_valid_tblcol_name ['*'] = false :=
  ⟨fun _ _ _ => rfl, by decide, by decide, by decide⟩

theorem token_comma_facts :
    (∀ (cs ps : token_state_t) (f : Bool),
        set_state [','] cs ps f
          = { changed := false, current_state := cs, previous_state := ps,
              state_reset_needed := f })
    ∧ is_token_reserved [','] = false
    ∧ is_token_operator [','] = false
    ∧ is_valid_tblcol_name [','] = false :=
  ⟨fun _ _ _ => rfl, by decide, by decide, by decide⟩

theorem token_dot_facts :
    (∀ (cs ps : token_state_t) (f : Bool),
        set_state ['.'] cs ps f
          = { changed := false, current_state := cs, previous_state := ps,
              state_reset_needed := f })
    ∧ is_token_reserved ['.'] = false
    ∧ is_token_operator ['.'] = true
    ∧ is_valid_tblcol_name ['.'] = false :=
  ⟨fun _ _ _ => rfl, by decide, by decide, by decide⟩

theorem token_eq_facts :
    (∀ (cs ps : token_state_t) (f : Bool),
        set_state ['='] cs ps f
          = { changed := false, current_state := cs, previous_state := ps,
              state_reset_needed := f })
    ∧ is_token_reserved ['='] = false
    ∧ is_token_operator ['='] = true
    ∧ is_valid_tblcol_name ['='] = false :=
  ⟨fun _ _ _ => rfl, by decide, by decide, by decide⟩

theorem token_gt_facts :
    (∀ (cs ps : token_state_t) (f : Bool),
        set_state ['>'] cs ps f
          = { changed := false, current_state := cs, previous_state := ps,
              state_reset_needed := f })
    ∧ is_token_reserved ['>'] = false
    ∧ is_token_operator ['>'] = true
    ∧ is_valid_tblcol_name ['>'] = false :=
  ⟨fun _ _ _ => rfl, by decide, by decide, by decide⟩

/-! ### The driver loop, one iteration at a time and with more fuel -/

theorem ProcessSegs_loop_succ (segs : List Seg) (fuel : Nat) (st : DriverState) :
    ProcessSegs_loop segs (fuel + 1) st =
      if st.index < segs.length then
        match loop_body_on (seg_next segs) seg_back st with
        | .done st => some st
        | .next st => ProcessSegs_loop segs fuel st
      else some st := rfl

theorem ProcessQuery_loop_mono (q : List Char) :
    ∀ (fuel : Nat) (st r : DriverState), ProcessQuery_loop q fuel st = some r →
      ∀ extra, ProcessQuery_loop q (fuel + extra) st = some r := by
  intro fuel
  induction fuel with
  | zero =>
    intro st r h extra
    simp only [ProcessQuery_loop] at h
    split at h
    · cases h
    · rename_i hlt
      cases extra with
      | zero => simp [ProcessQuery_loop, hlt, h]
      | succ e => simpa [ProcessQuery_loop, hlt] using h
  | succ n ih =>
    intro st r h extra
    have e : n + 1 + extra = (n + extra) + 1 := by omega
    rw [e]
    simp only [ProcessQuery_loop] at h ⊢
    split at h
    · rename_i hlt
      simp only [hlt, if_true]
      cases hb : loop_body q st with
      | next st' =>
        rw [hb] at h
        exact ih st' r h extra
      | done st' =>
        rw [hb] at h
        exact h
    · rename_i hlt
      simpa [hlt] using h

theorem ProcessQuery_mono (q : List Char) (flag : Bool) (n : Nat)
    (p : TblColList × Bool) (h : ProcessQuery n q flag = some p) (fuel : Nat)
    (hf : n ≤ fuel) : ProcessQuery fuel q flag = some p := by
  unfold ProcessQuery at h ⊢
  cases hl : ProcessQuery_loop q n (initial_state flag) with
  | none => rw [hl] at h; cases h
  | some st =>
    rw [hl] at h
    obtain ⟨e, rfl⟩ : ∃ e, fuel = n + e := ⟨fuel - n, by omega⟩
    rw [ProcessQuery_loop_mono q n _ st hl e]
    exact h

/-! ### The scenarios of the specification, for all plain identifiers -/

theorem qualified_inj {t1 t2 x y : List Char} (h1 : '.' ∉ t1) (h2 : '.' ∉ t2)
    (h : t1 ++ '.' :: x = t2 ++ '.' :: y) : t1 = t2 := by
  induction t1 generalizing t2 with
  | nil =>
    cases t2 with
    | nil => rfl
    | cons d t2 =>
      simp only [List.nil_append, List.cons_append, List.cons.injEq] at h
      exact absurd (List.mem_cons.mpr (Or.inl h.1)) h2
  | cons c t1 ih =>
    cases t2 with
    | nil =>
      simp only [List.nil_append, List.cons_append, List.cons.injEq] at h
      exact absurd (List.mem_cons.mpr (Or.inl h.1.symm)) h1
    | cons d t2 =>
      simp only [List.cons_append, List.cons.injEq] at h
      rw [h.1, ih (fun hm => h1 (by simp [hm])) (fun hm => h2 (by simp [hm])) h.2]

/-- Scenario A for plain identifiers: `select name from t where t.c=5` gives the table `t`
and the entry `t.c`. -/
theorem run_scenario_A (t c : List Char) (ht : PlainFacts t) (hc : PlainFacts c)
    (hlen : ("select name from ".toList ++ t ++ " where ".toList ++ t ++ ".".toList ++ c ++ "=5".toList).length
      < 4294967296) (flag : Bool) :
    ProcessQuery 20 ("select name from ".toList ++ t ++ " where ".toList ++ t ++ ".".toList ++ c ++ "=5".toList) flag
      = some ({ mTblNameList := [t],
                mTblColNameList := [t ++ ['.'] ++ c] }, false) := by
  have s0 : SimpleWord ['f', 'r', 'o', 'm'] := by decide
  have s1 : SimpleWord ['n', 'a', 'm', 'e'] := by decide
  have s2 : SimpleWord ['s', 'e', 'l', 'e', 'c', 't'] := by decide
  have s3 : SimpleWord ['w', 'h', 'e', 'r', 'e'] := by decide
  have hq : "select name from ".toList ++ t ++ " where ".toList ++ t ++ ".".toList ++ c ++ "=5".toList
      = render [.word "select".toList, .space, .word "name".toList, .space, .word "from".toList,
       .space, .word t, .space, .word "where".toList, .space, .word t, .sep '.', .word c,
       .sep '=', .num "5".toList] := by
    simp [render, Seg.text]
  have hok : SegsOK [.word "select".toList, .space, .word "name".toList, .space, .word "from".toList,
       .space, .word t, .space, .word "where".toList, .space, .word t, .sep '.', .word c,
       .sep '=', .num "5".toList] := by
    simp [SegsOK, ends_word, no_space_first, token_separators, ht.simpleWord, hc.simpleWord,
      s0, s1, s2, s3]
  rw [hq] at hlen ⊢
  rw [ProcessQuery_render _ hok hlen]
  unfold ProcessSegs initial_state
  repeat
    rw [ProcessSegs_loop_succ]
    simp [loop_body_on, seg_next, seg_next_at, seg_back, process_token_on,
      process_from_on, process_where_on, process_open_on, process_close,
      apply_state_reset, find_table_name_of_alias_tblname,
      store_table_name_uniquely, store_table_col_name_uniquely,
      token_select_facts, token_name_facts, token_from_facts, token_where_facts,
      token_as_facts, token_star_facts, token_comma_facts, token_dot_facts,
      token_eq_facts, token_gt_facts,
      PlainFacts.ne_nil, PlainFacts.ne_open, PlainFacts.ne_close, PlainFacts.ne_comma,
      PlainFacts.ne_semicolon, PlainFacts.ne_dot, PlainFacts.ne_AS', PlainFacts.ne_as',
      PlainFacts.set_state, PlainFacts.not_reserved, PlainFacts.not_operator,
      PlainFacts.valid_name,
      ht, hc]

/-- Scenario C for plain identifiers: `select * from t1,t2 where t1.x>t2.y` gives the
tables `t1`, `t2` and the entries `t1.x`, `t2.y`, in that order. -/
theorem run_scenario_C (t1 t2 x y : List Char) (ht1 : PlainFacts t1) (ht2 : PlainFacts t2) (hx : PlainFacts x) (hy : PlainFacts y) (hne : t1 ≠ t2)
    (hlen : ("select * from ".toList ++ t1 ++ ",".toList ++ t2 ++ " where ".toList ++ t1 ++ ".".toList ++ x ++ ">".toList ++ t2 ++ ".".toList ++ y).length
      < 4294967296) (flag : Bool) :
    ProcessQuery 20 ("select * from ".toList ++ t1 ++ ",".toList ++ t2 ++ " where ".toList ++ t1 ++ ".".toList ++ x ++ ">".toList ++ t2 ++ ".".toList ++ y) flag
      = some ({ mTblNameList := [t1, t2],
                mTblColNameList := [t1 ++ ['.'] ++ x, t2 ++ ['.'] ++ y] }, false) := by
  have s0 : SimpleWord ['f', 'r', 'o', 'm'] := by decide
  have s1 : SimpleWord ['s', 'e', 'l', 'e', 'c', 't'] := by decide
  have s2 : SimpleWord ['w', 'h', 'e', 'r', 'e'] := by decide
  have hq : "select * from ".toList ++ t1 ++ ",".toList ++ t2 ++ " where ".toList ++ t1 ++ ".".toList ++ x ++ ">".toList ++ t2 ++ ".".toList ++ y
      = render [.word "select".toList, .space, .sep '*', .space, .word "from".toList, .space,
       .word t1, .sep ',', .word t2, .space, .word "where".toList, .space, .word t1,
       .sep '.', .word x, .sep '>', .word t2, .sep '.', .word y] := by
    simp [render, Seg.text]
  have hok : SegsOK [.word "select".toList, .space, .sep '*', .space, .word "from".toList, .space,
       .word t1, .sep ',', .word t2, .space, .word "where".toList, .space, .word t1,
       .sep '.', .word x, .sep '>', .word t2, .sep '.', .word y] := by
    simp [SegsOK, ends_word, no_space_first, token_separators, ht1.simpleWord, ht2.simpleWord, hx.simpleWord, hy.simpleWord,
      s0, s1, s2]
  have hne' : t2 ≠ t1 := fun h => hne h.symm
  have hcol : t2 ++ '.' :: y ≠ t1 ++ '.' :: x :=
    fun h => hne' (qualified_inj ht2.no_dot ht1.no_dot h)
  rw [hq] at hlen ⊢
  rw [ProcessQuery_render _ hok hlen]
  unfold ProcessSegs initial_state
  repeat
    rw [ProcessSegs_loop_succ]
    simp [loop_body_on, seg_next, seg_next_at, seg_back, process_token_on,
      process_from_on, process_where_on, process_open_on, process_close,
      apply_state_reset, find_table_name_of_alias_tblname,
      store_table_name_uniquely, store_table_col_name_uniquely,
      token_select_facts, token_name_facts, token_from_facts, token_where_facts,
      token_as_facts, token_star_facts, token_comma_facts, token_dot_facts,
      token_eq_facts, token_gt_facts,
      PlainFacts.ne_nil, PlainFacts.ne_open, PlainFacts.ne_close, PlainFacts.ne_comma,
      PlainFacts.ne_semicolon, PlainFacts.ne_dot, PlainFacts.ne_AS', PlainFacts.ne_as',
      PlainFacts.set_state, PlainFacts.not_reserved, PlainFacts.not_operator,
      PlainFacts.valid_name,
      ht1, ht2, hx, hy, hne, hne', hcol]

/-- Scenario B for plain identifiers: `select a.name from T as a where a.c>9` gives the
table `T` and the entry `T.c`. -/
theorem run_scenario_B (T a c : List Char) (hT : PlainFacts T) (ha : PlainFacts a) (hc : PlainFacts c)
    (hlen : ("select ".toList ++ a ++ ".name from ".toList ++ T ++ " as ".toList ++ a ++ " where ".toList ++ a ++ ".".toList ++ c ++ ">9".toList).length
      < 4294967296) (flag : Bool) :
    ProcessQuery 20 ("select ".toList ++ a ++ ".name from ".toList ++ T ++ " as ".toList ++ a ++ " where ".toList ++ a ++ ".".toList ++ c ++ ">9".toList) flag
      = some ({ mTblNameList := [T],
                mTblColNameList := [T ++ ['.'] ++ c] }, false) := by
  have s0 : SimpleWord ['a', 's'] := by decide
  have s1 : SimpleWord ['f', 'r', 'o', 'm'] := by decide
  have s2 : SimpleWord ['n', 'a', 'm', 'e'] := by decide
  have s3 : SimpleWord ['s', 'e', 'l', 'e', 'c', 't'] := by decide
  have s4 : SimpleWord ['w', 'h', 'e', 'r', 'e'] := by decide
  have hq : "select ".toList ++ a ++ ".name from ".toList ++ T ++ " as ".toList ++ a ++ " where ".toList ++ a ++ ".".toList ++ c ++ ">9".toList
      = render [.word "select".toList, .space, .word a, .sep '.', .word "name".toList, .space,
       .word "from".toList, .space, .word T, .space, .word "as".toList, .space, .word a,
       .space, .word "where".toList, .space, .word a, .sep '.', .word c, .sep '>',
       .num "9".toList] := by
    simp [render, Seg.text]
  have hok : SegsOK [.word "select".toList, .space, .word a, .sep '.', .word "name".toList, .space,
       .word "from".toList, .space, .word T, .space, .word "as".toList, .space, .word a,
       .space, .word "where".toList, .space, .word a, .sep '.', .word c, .sep '>',
       .num "9".toList] := by
    simp [SegsOK, ends_word, no_space_first, token_separators, hT.simpleWord, ha.simpleWord, hc.simpleWord,
      s0, s1, s2, s3, s4]
  rw [hq] at hlen ⊢
  rw [ProcessQuery_render _ hok hlen]
  unfold ProcessSegs initial_state
  repeat
    rw [ProcessSegs_loop_succ]
    simp [loop_body_on, seg_next, seg_next_at, seg_back, process_token_on,
      process_from_on, process_where_on, process_open_on, process_close,
      apply_state_reset, find_table_name_of_alias_tblname,
      store_table_name_uniquely, store_table_col_name_uniquely,
      token_select_facts, token_name_facts, token_from_facts, token_where_facts,
      token_as_facts, token_star_facts, token_comma_facts, token_dot_facts,
      token_eq_facts, token_gt_facts,
      PlainFacts.ne_nil, PlainFacts.ne_open, PlainFacts.ne_close, PlainFacts.ne_comma,
      PlainFacts.ne_semicolon, PlainFacts.ne_dot, PlainFacts.ne_AS', PlainFacts.ne_as',
      PlainFacts.set_state, PlainFacts.not_reserved, PlainFacts.not_operator,
      PlainFacts.valid_name,
      hT, ha, hc]

/-- Scenario D for plain identifiers: `select c from T where c>9` gives the table `T` and
the entry `T.c`. -/
theorem run_scenario_D (T c : List Char) (hT : PlainFacts T) (hc : PlainFacts c)
    (hlen : ("select ".toList ++ c ++ " from ".toList ++ T ++ " where ".toList ++ c ++ ">9".toList).length
      < 4294967296) (flag : Bool) :
    ProcessQuery 20 ("select ".toList ++ c ++ " from ".toList ++ T ++ " where ".toList ++ c ++ ">9".toList) flag
      = some ({ mTblNameList := [T],
                mTblColNameList := [T ++ ['.'] ++ c] }, false) := by
  have s0 : SimpleWord ['f', 'r', 'o', 'm'] := by decide
  have s1 : SimpleWord ['s', 'e', 'l', 'e', 'c', 't'] := by decide
  have s2 : SimpleWord ['w', 'h', 'e', 'r', 'e'] := by decide
  have hq : "select ".toList ++ c ++ " from ".toList ++ T ++ " where ".toList ++ c ++ ">9".toList
      = render [.word "select".toList, .space, .word c, .space, .word "from".toList, .space,
       .word T, .space, .word "where".toList, .space, .word c, .sep '>', .num "9".toList] := by
    simp [render, Seg.text]
  have hok : SegsOK [.word "select".toList, .space, .word c, .space, .word "from".toList, .space,
       .word T, .space, .word "where".toList, .space, .word c, .sep '>', .num "9".toList] := by
    simp [SegsOK, ends_word, no_space_first, token_separators, hT.simpleWord, hc.simpleWord,
      s0, s1, s2]
  rw [hq] at hlen ⊢
  rw [ProcessQuery_render _ hok hlen]
  unfold ProcessSegs initial_state
  repeat
    rw [ProcessSegs_loop_succ]
    simp [loop_body_on, seg_next, seg_next_at, seg_back, process_token_on,
      process_from_on, process_where_on, process_open_on, process_close,
      apply_state_reset, find_table_name_of_alias_tblname,
      store_table_name_uniquely, store_table_col_name_uniquely,
      token_select_facts, token_name_facts, token_from_facts, token_where_facts,
      token_as_facts, token_star_facts, token_comma_facts, token_dot_facts,
      token_eq_facts, token_gt_facts,
      PlainFacts.ne_nil, PlainFacts.ne_open, PlainFacts.ne_close, PlainFacts.ne_comma,
      PlainFacts.ne_semicolon, PlainFacts.ne_dot, PlainFacts.ne_AS', PlainFacts.ne_as',
      PlainFacts.set_state, PlainFacts.not_reserved, PlainFacts.not_operator,
      PlainFacts.valid_name,
      hT, hc]

/-- Scenario E for plain identifiers: `select * from a,b where f=1` gives the tables `a`,
`b` and the bare entry `f`. -/
theorem run_scenario_E (a b f : List Char) (ha : PlainFacts a) (hb : PlainFacts b) (hf : PlainFacts f) (hne : a ≠ b)
    (hlen : ("select * from ".toList ++ a ++ ",".toList ++ b ++ " where ".toList ++ f ++ "=1".toList).length
      < 4294967296) (flag : Bool) :
    ProcessQuery 20 ("select * from ".toList ++ a ++ ",".toList ++ b ++ " where ".toList ++ f ++ "=1".toList) flag
      = some ({ mTblNameList := [a, b],
                mTblColNameList := [f] }, false) := by
  have s0 : SimpleWord ['f', 'r', 'o', 'm'] := by decide
  have s1 : SimpleWord ['s', 'e', 'l', 'e', 'c', 't'] := by decide
  have s2 : SimpleWord ['w', 'h', 'e', 'r', 'e'] := by decide
  have hq : "select * from ".toList ++ a ++ ",".toList ++ b ++ " where ".toList ++ f ++ "=1".toList
      = render [.word "select".toList, .space, .sep '*', .space, .word "from".toList, .space,
       .word a, .sep ',', .word b, .space, .word "where".toList, .space, .word f,
       .sep '=', .num "1".toList] := by
    simp [render, Seg.text]
  have hok : SegsOK [.word "select".toList, .space, .sep '*', .space, .word "from".toList, .space,
       .word a, .sep ',', .word b, .space, .word "where".toList, .space, .word f,
       .sep '=', .num "1".toList] := by
    simp [SegsOK, ends_word, no_space_first, token_separators, ha.simpleWord, hb.simpleWord, hf.simpleWord,
      s0, s1, s2]
  have hne' : b ≠ a := fun h => hne h.symm
  rw [hq] at hlen ⊢
  rw [ProcessQuery_render _ hok hlen]
  unfold ProcessSegs initial_state
  repeat
    rw [ProcessSegs_loop_succ]
    simp [loop_body_on, seg_next, seg_next_at, seg_back, process_token_on,
      process_from_on, process_where_on, process_open_on, process_close,
      apply_state_reset, find_table_name_of_alias_tblname,
      store_table_name_uniquely, store_table_col_name_uniquely,
      token_select_facts, token_name_facts, token_from_facts, token_where_facts,
      token_as_facts, token_star_facts, token_comma_facts, token_dot_facts,
      token_eq_facts, token_gt_facts,
      PlainFacts.ne_nil, PlainFacts.ne_open, PlainFacts.ne_close, PlainFacts.ne_comma,
      PlainFacts.ne_semicolon, PlainFacts.ne_dot, PlainFacts.ne_AS', PlainFacts.ne_as',
      PlainFacts.set_state, PlainFacts.not_reserved, PlainFacts.not_operator,
      PlainFacts.valid_name,
      ha, hb, hf, hne, hne']

/-- C7. Qualified reference by the table's own name (Scenarios A and C): for
all plain identifiers `t`, `c`, the statement `select name from t where t.c=5`
gives the table list `[t]` and the table-column list `[t.c]`; for all plain
identifiers `t1 ≠ t2`, `x`, `y`, the statement
`select * from t1,t2 where t1.x>t2.y` gives `[t1, t2]` and `[t1.x, t2.y]`, in
that order.  Both hold from either value of the reset flag, for every bound of
at least 20 iterations, for statements shorter than `2^32` characters. -/
theorem qualified_reference_by_table_name (t c t1 t2 x y : List Char)
    (ht : plain_identifier t = true) (hc : plain_identifier c = true)
    (ht1 : plain_identifier t1 = true) (ht2 : plain_identifier t2 = true)
    (hx : plain_identifier x = true) (hy : plain_identifier y = true)
    (hne : t1 ≠ t2)
    (hlenA : ("select name from ".toList ++ t ++ " where ".toList ++ t ++ ".".toList ++ c
      ++ "=5".toList).length < 4294967296)
    (hlenC : ("select * from ".toList ++ t1 ++ ",".toList ++ t2 ++ " where ".toList ++ t1
      ++ ".".toList ++ x ++ ">".toList ++ t2 ++ ".".toList ++ y).length < 4294967296)
    (fuel : Nat) (hfuel : 20 ≤ fuel) (flag : Bool) :
    ProcessQuery fuel
        ("select name from ".toList ++ t ++ " where ".toList ++ t ++ ".".toList ++ c
          ++ "=5".toList) flag
      = some ({ mTblNameList := [t], mTblColNameList := [t ++ ".".toList ++ c] }, false)
    ∧ ProcessQuery fuel
        ("select * from ".toList ++ t1 ++ ",".toList ++ t2 ++ " where ".toList ++ t1
          ++ ".".toList ++ x ++ ">".toList ++ t2 ++ ".".toList ++ y) flag
      = some ({ mTblNameList := [t1, t2],
                mTblColNameList := [t1 ++ ".".toList ++ x, t2 ++ ".".toList ++ y] },
              false) :=
  ⟨ProcessQuery_mono _ flag 20 _
      (run_scenario_A t c (plain_identifier_facts ht)
        (plain_identifier_facts hc) hlenA flag) fuel hfuel,
   ProcessQuery_mono _ flag 20 _
      (run_scenario_C t1 t2 x y (plain_identifier_facts ht1)
        (plain_identifier_facts ht2) (plain_identifier_facts hx)
        (plain_identifier_facts hy) hne hlenC flag) fuel hfuel⟩

theorem qualified_reference_by_table_name_witness :
    ProcessQuery 20 "select name from emp where emp.id=5".toList false
      = some ({ mTblNameList := ["emp".toList],
                mTblColNameList := ["emp.id".toList] }, false)
    ∧ ProcessQuery 20 "select * from t1,t2 where t1.x>t2.y".toList false
      = some ({ mTblNameList := ["t1".toList, "t2".toList],
                mTblColNameList := ["t1.x".toList, "t2.y".toList] }, false) :=
  qualified_reference_by_table_name "emp".toList "id".toList "t1".toList "t2".toList
    "x".toList "y".toList (by decide) (by decide) (by decide) (by decide) (by decide)
    (by decide) (by decide) (by decide) (by decide) 20 (Nat.le_refl 20) false

/-- C8. Alias with AS (Scenario B): for all plain identifiers `T`, `a`, `c`, the
statement `select a.name from T as a where a.c>9` gives the table list `[T]`
and the table-column list `[T.c]`, from either value of the reset flag, for
every bound of at least 20 iterations, for statements shorter than `2^32`
characters. -/
theorem alias_with_as (T a c : List Char)
    (hT : plain_identifier T = true) (ha : plain_identifier a = true)
    (hc : plain_identifier c = true)
    (hlen : ("select ".toList ++ a ++ ".name from ".toList ++ T ++ " as ".toList ++ a
      ++ " where ".toList ++ a ++ ".".toList ++ c ++ ">9".toList).length < 4294967296)
    (fuel : Nat) (hfuel : 20 ≤ fuel) (flag : Bool) :
    ProcessQuery fuel
        ("select ".toList ++ a ++ ".name from ".toList ++ T ++ " as ".toList ++ a
          ++ " where ".toList ++ a ++ ".".toList ++ c ++ ">9".toList) flag
      = some ({ mTblNameList := [T], mTblColNameList := [T ++ ".".toList ++ c] }, false) :=
  ProcessQuery_mono _ flag 20 _
    (run_scenario_B T a c (plain_identifier_facts hT) (plain_identifier_facts ha)
      (plain_identifier_facts hc) hlen flag) fuel hfuel

theorem alias_with_as_witness :
    ProcessQuery 20 "select t.name from employee as t where t.id>9".toList false
      = some ({ mTblNameList := ["employee".toList],
                mTblColNameList := ["employee.id".toList] }, false) :=
  alias_with_as "employee".toList "t".toList "id".toList (by decide) (by decide)
    (by decide) (by decide) 20 (Nat.le_refl 20) false

/-- C9. Unqualified column with exactly one active table (Scenario D): for all
plain identifiers `T`, `c`, the statement `select c from T where c>9` gives the
table list `[T]` and the table-column list `[T.c]`, from either value of the
reset flag, for every bound of at least 20 iterations, for statements shorter
than `2^32` characters. -/
theorem unqualified_column_single_table (T c : List Char)
    (hT : plain_identifier T = true) (hc : plain_identifier c = true)
    (hlen : ("select ".toList ++ c ++ " from ".toList ++ T ++ " where ".toList ++ c
      ++ ">9".toList).length < 4294967296)
    (fuel : Nat) (hfuel : 20 ≤ fuel) (flag : Bool) :
    ProcessQuery fuel
        ("select ".toList ++ c ++ " from ".toList ++ T ++ " where ".toList ++ c
          ++ ">9".toList) flag
      = some ({ mTblNameList := [T], mTblColNameList := [T ++ ".".toList ++ c] }, false) :=
  ProcessQuery_mono _ flag 20 _
    (run_scenario_D T c (plain_identifier_facts hT)
      (plain_identifier_facts hc) hlen flag) fuel hfuel

theorem unqualified_column_single_table_witness :
    ProcessQuery 20 "select rollno from class where rollno>9".toList false
      = some ({ mTblNameList := ["class".toList],
                mTblColNameList := ["class.rollno".toList] }, false) :=
  unqualified_column_single_table "class".toList "rollno".toList (by decide) (by decide)
    (by decide) 20 (Nat.le_refl 20) false

/-- C10. Ambiguity policy (Scenario E): for all plain identifiers `a ≠ b` and
`f`, the statement `select * from a,b where f=1` gives the table list `[a, b]`
and the table-column list `[f]`, the column carrying no qualifier, from either
value of the reset flag, for every bound of at least 20 iterations, for
statements shorter than `2^32` characters. -/
theorem ambiguity_policy (a b f : List Char)
    (ha : plain_identifier a = true) (hb : plain_identifier b = true)
    (hf : plain_identifier f = true) (hne : a ≠ b)
    (hlen : ("select * from ".toList ++ a ++ ",".toList ++ b ++ " where ".toList ++ f
      ++ "=1".toList).length < 4294967296)
    (fuel : Nat) (hfuel : 20 ≤ fuel) (flag : Bool) :
    ProcessQuery fuel
        ("select * from ".toList ++ a ++ ",".toList ++ b ++ " where ".toList ++ f
          ++ "=1".toList) flag
      = some ({ mTblNameList := [a, b], mTblColNameList := [f] }, false) :=
  ProcessQuery_mono _ flag 20 _
    (run_scenario_E a b f (plain_identifier_facts ha)
      (plain_identifier_facts hb) (plain_identifier_facts hf) hne hlen flag) fuel hfuel

theorem ambiguity_policy_witness :
    ProcessQuery 20 "select * from a,b where flag=1".toList false
      = some ({ mTblNameList := ["a".toList, "b".toList],
                mTblColNameList := ["flag".toList] }, false) :=
  ambiguity_policy "a".toList "b".toList "flag".toList (by decide) (by decide)
    (by decide) (by decide) (by decide) 20 (Nat.le_refl 20) false

/-! ### The referential invariant on statements without quote characters -/

theorem charAt_mem {input : List Char} {i : Nat} (h : i < input.length) :
    charAt input i ∈ input := by
  unfold charAt
  rw [List.getD_eq_getElem _ _ h]
  exact List.getElem_mem h

theorem PlainToken.of_no_dot {t : List Char} (h : ∀ c ∈ t, c ≠ '`' ∧ c ≠ '.') :
    PlainToken t :=
  ⟨fun c hc => (h c hc).1, fun hd => absurd rfl (h '.' hd).2⟩

theorem get_next_token_loop_plain (input : List Char) (hq : QuoteFree input) :
    ∀ (fuel index : Nat) (token : List Char), (∀ c ∈ token, c ≠ '`' ∧ c ≠ '.') →
      PlainToken (get_next_token_loop input fuel index token).1 := by
  intro fuel
  induction fuel with
  | zero => intro index token h; exact PlainToken.of_no_dot h
  | succ f ih =>
    intro index token h
    by_cases hlt : index < input.length
    swap
    · rw [get_next_token_loop_at_end input _ index token hlt]
      exact PlainToken.of_no_dot h
    obtain ⟨h1, h2, h3⟩ := hq _ (charAt_mem hlt)
    have h0 : ¬ ¬ index < input.length := not_not.mpr hlt
    rw [get_next_token_loop, if_neg h0, if_neg h1, if_neg h2, if_neg h3]
    by_cases h4 : charAt input index ∈ token_separators
    · rw [if_pos h4]
      by_cases h5 : token.length ≠ 0
      · rw [if_pos h5]
        exact PlainToken.of_no_dot h
      · rw [if_neg h5]
        have ht : token = [] := List.length_eq_zero.mp (not_not.mp h5)
        subst ht
        refine ⟨?_, ?_⟩
        · intro c hc
          simp only [List.nil_append, List.mem_singleton] at hc
          rw [hc]; exact h3
        · intro hd
          simp only [List.nil_append, List.mem_singleton] at hd
          simp only [List.nil_append, ← hd]
    · rw [if_neg h4]
      have hdot : charAt input index ≠ '.' := by
        intro he
        exact h4 (by rw [he]; decide)
      have h' : ∀ c ∈ (if charAt input index ≠ ' ' then token ++ [charAt input index]
          else token), c ≠ '`' ∧ c ≠ '.' := by
        intro c hc
        split at hc
        · rcases List.mem_append.mp hc with hc | hc
          · exact h c hc
          · rw [List.mem_singleton.mp hc]; exact ⟨h3, hdot⟩
        · exact h c hc
      by_cases h6 : charAt input (index + 1) = ' '
          ∧ (if charAt input index ≠ ' ' then token ++ [charAt input index] else token) ≠ []
      · simp only
        rw [if_pos h6]
        exact PlainToken.of_no_dot h'
      by_cases h7 : charAt input index = ' '
      · by_cases h8 :
          (if charAt input index ≠ ' ' then token ++ [charAt input index] else token) ≠ []
        · simp only
          rw [if_neg h6, if_pos h7, if_pos h8]
          exact PlainToken.of_no_dot h'
        · simp only
          rw [if_neg h6, if_pos h7, if_neg h8]
          exact ih _ _ h'
      · simp only
        rw [if_neg h6, if_neg h7]
        exact ih _ _ h'

theorem get_next_token_plain (input : List Char) (hq : QuoteFree input) (index : Nat) :
    PlainToken (get_next_token input index).1 :=
  get_next_token_loop_plain input hq _ index [] (fun c hc => by cases hc)

theorem skip_invalid_tokens_plain (query : List Char) (hq : QuoteFree query) :
    ∀ (fuel : Nat) (r : List Char × Nat), PlainToken r.1 →
      PlainToken (skip_invalid_tokens query fuel r).1 := by
  intro fuel
  induction fuel with
  | zero => intro r h; exact h
  | succ f ih =>
    intro r h
    rw [skip_invalid_tokens]
    split
    · exact ih _ (get_next_token_plain query hq _)
    · exact h

theorem PlainToken.charAt_ne_backtick {t : List Char} (h : PlainToken t) :
    charAt t 0 ≠ '`' := by
  cases t with
  | nil => decide
  | cons c t => exact h.1 c (by simp)

theorem PlainToken.nil : PlainToken [] :=
  ⟨fun c hc => (by cases hc), fun hd => (by cases hd)⟩

/-- On a statement without quote characters every token the valid-token reader
returns is free of `.`, unless it is the separator `.` itself. -/
theorem get_next_valid_token_rec_plain (query : List Char) (hq : QuoteFree query) :
    ∀ (depth index : Nat), PlainToken (get_next_valid_token_rec query depth index).1 := by
  intro depth
  induction depth with
  | zero => intro index; exact PlainToken.nil
  | succ d ih =>
    intro index
    have hr := skip_invalid_tokens_plain query hq
      (query.length - (get_next_token query index).2) (get_next_token query index)
      (get_next_token_plain query hq index)
    rw [get_next_valid_token_rec]
    simp only
    rw [if_neg hr.charAt_ne_backtick]
    split
    · exact PlainToken.nil
    · split
      · split
        · exact PlainToken.nil
        · exact ih _
      · split
        · split
          · exact PlainToken.nil
          · split
            · exact PlainToken.nil
            · exact get_next_token_plain query hq _
        · exact hr

theorem get_next_valid_token_plain (query : List Char) (hq : QuoteFree query)
    (index : Nat) : PlainToken (get_next_valid_token query index).1 :=
  get_next_valid_token_rec_plain query hq 2 index

theorem no_dot_of_valid_name {t : List Char} (hp : PlainToken t)
    (hv : is_valid_tblcol_name t = true) : '.' ∉ t := by
  intro hd
  rw [hp.2 hd] at hv
  exact absurd hv (by decide)

theorem takeWhile_ne_dot (t c : List Char) (h : '.' ∉ t) :
    (t ++ '.' :: c).takeWhile (fun d => decide (d ≠ '.')) = t := by
  induction t with
  | nil => simp
  | cons a t ih =>
    have ha : a ≠ '.' := fun he => h (by simp [he])
    have ht : '.' ∉ t := fun hm => h (by simp [hm])
    rw [List.cons_append, List.takeWhile_cons, if_pos (by simpa using ha), ih ht]

theorem qualifier_of_qualified {t : List Char} (c : List Char) (h : '.' ∉ t) :
    qualifier_of (t ++ ['.'] ++ c) = some t := by
  unfold qualifier_of
  rw [if_pos (by simp)]
  simp only [List.append_assoc, List.singleton_append]
  rw [takeWhile_ne_dot t c h]

theorem qualifier_of_no_dot {e : List Char} (h : '.' ∉ e) : qualifier_of e = none := by
  unfold qualifier_of
  rw [if_neg h]

theorem find_table_name_no_dot (l : List lookup_table_for_name_alias_t)
    (a : List Char) (hl : ∀ e ∈ l, '.' ∉ e.table_name) (ha : '.' ∉ a) :
    '.' ∉ find_table_name_of_alias_tblname l a := by
  unfold find_table_name_of_alias_tblname
  split
  · split
    · rename_i e he
      exact hl e (List.mem_of_getLast?_eq_some he)
    · exact ha
  · split
    · rename_i e he
      exact hl e (List.mem_of_find?_eq_some he)
    · exact ha

theorem Referential.store_qualified {r : TblColList} (h : Referential r)
    (t c : List Char) (ht : '.' ∉ t) :
    Referential
      { mTblNameList := store_table_name_uniquely r.mTblNameList t,
        mTblColNameList :=
          store_table_col_name_uniquely r.mTblColNameList (t ++ ['.'] ++ c) } := by
  intro e he q hq
  simp only [mem_store_table_col_name_uniquely] at he
  rcases he with he | rfl
  · exact mem_store_table_name_uniquely.mpr (Or.inl (h e he q hq))
  · rw [qualifier_of_qualified c ht] at hq
    cases hq
    exact mem_store_table_name_uniquely.mpr (Or.inr rfl)

theorem Referential.store_bare {r : TblColList} (h : Referential r)
    (ts : List (List Char)) (c : List Char) (hc : '.' ∉ c) :
    Referential
      { mTblNameList := ts.foldl store_table_name_uniquely r.mTblNameList,
        mTblColNameList := store_table_col_name_uniquely r.mTblColNameList c } := by
  intro e he q hq
  simp only [mem_store_table_col_name_uniquely] at he
  rcases he with he | rfl
  · exact (mem_foldl_store ts _ _).mpr (Or.inl (h e he q hq))
  · rw [qualifier_of_no_dot hc] at hq
    cases hq

theorem process_open_dotFree (q : List Char) (st : DriverState)
    (h : DotFreeState st) : DotFreeState (process_open q st).state := by
  obtain ⟨h1, h2, h3, h4⟩ := h
  unfold process_open
  simp only
  split
  · refine ⟨fun t ht => (by cases ht), ?_, h3, h4⟩
    intro f hf t ht
    rcases List.mem_cons.mp hf with rfl | hf
    · exact h1 t ht
    · exact h2 f hf t ht
  · exact ⟨h1, h2, h3, h4⟩

theorem process_close_dotFree (st : DriverState)
    (h : DotFreeState st) : DotFreeState (process_close st).state := by
  obtain ⟨h1, h2, h3, h4⟩ := h
  unfold process_close
  split
  · exact ⟨h1, h2, h3, h4⟩
  · rename_i top rest hs
    rw [hs] at h2
    split
    · exact ⟨fun t ht => h2 top (List.mem_cons_self _ _) t ht,
        fun f hf => h2 f (List.mem_cons_of_mem _ hf), h3, h4⟩
    · refine ⟨h1, ?_, h3, h4⟩
      simp only [Outcome.state]
      rw [hs]
      exact h2

theorem process_from_dotFree (q : List Char) (tok : List Char)
    (htok : is_valid_tblcol_name tok = true → '.' ∉ tok) (st : DriverState)
    (h : DotFreeState st) : DotFreeState (process_from q tok st).state := by
  obtain ⟨h1, h2, h3, h4⟩ := h
  have hpush : is_valid_tblcol_name tok = true →
      ∀ t ∈ st.table_name_list ++ [tok], '.' ∉ t := by
    intro hv t ht
    rcases List.mem_append.mp ht with ht | ht
    · exact h1 t ht
    · rw [List.mem_singleton.mp ht]; exact htok hv
  have hlook : is_valid_tblcol_name tok = true → ∀ a,
      ∀ e ∈ st.lookup_table_list ++ [{ table_name := tok, alias_name := a }],
        '.' ∉ e.table_name := by
    intro hv a e he
    rcases List.mem_append.mp he with he | he
    · exact h3 e he
    · rw [List.mem_singleton.mp he]; exact htok hv
  unfold process_from
  split
  · exact ⟨h1, h2, h3, h4⟩
  · rename_i hv
    have hv' : is_valid_tblcol_name tok = true := by simpa using hv
    simp only
    split
    · exact ⟨hpush hv', h2, hlook hv' _, h4⟩
    · split
      · split
        · exact ⟨hpush hv', h2, h3, h4⟩
        · exact ⟨hpush hv', h2, hlook hv' _, h4⟩
      · exact ⟨hpush hv', h2, hlook hv' _, h4⟩

theorem process_where_dotFree (q : List Char) (tok : List Char)
    (htok : is_valid_tblcol_name tok = true → '.' ∉ tok) (st : DriverState)
    (h : DotFreeState st) : DotFreeState (process_where q tok st).state := by
  obtain ⟨h1, h2, h3, h4⟩ := h
  unfold process_where
  split
  · exact ⟨h1, h2, h3, h4⟩
  · rename_i hv
    have hv' : is_valid_tblcol_name tok = true := by simpa using hv
    have hd := htok hv'
    simp only
    split
    · split
      · exact ⟨h1, h2, h3, h4⟩
      · split
        · exact ⟨h1, h2, h3, h4⟩
        · exact ⟨h1, h2, h3,
            h4.store_qualified _ _ (find_table_name_no_dot _ _ h3 hd)⟩
    · split
      · rename_i hlen
        refine ⟨h1, h2, h3, h4.store_qualified _ _ ?_⟩
        cases hl : st.table_name_list with
        | nil => simp [hl] at hlen
        | cons a l =>
          simp only [List.headD_cons]
          exact h1 a (by simp [hl])
      · exact ⟨h1, h2, h3, h4.store_bare _ _ hd⟩

theorem process_token_dotFree (q : List Char) (tok : List Char)
    (htok : is_valid_tblcol_name tok = true → '.' ∉ tok) (st : DriverState)
    (h : DotFreeState st) : DotFreeState (process_token q tok st).state := by
  unfold process_token
  split
  · exact h
  · split
    · exact h
    · split
      · exact process_from_dotFree q tok htok st h
      · split
        · exact process_where_dotFree q tok htok st h
        · exact h

theorem apply_state_reset_dotFree (st : DriverState) (h : DotFreeState st) :
    DotFreeState (apply_state_reset st) := by
  obtain ⟨h1, h2, h3, h4⟩ := h
  unfold apply_state_reset
  split
  · exact ⟨fun t ht => (by cases ht), h2, h3, h4⟩
  · exact ⟨h1, h2, h3, h4⟩

theorem loop_body_dotFree (q : List Char) (st : DriverState)
    (htok : is_valid_tblcol_name (get_next_valid_token q st.index).1 = true →
      '.' ∉ (get_next_valid_token q st.index).1)
    (h : DotFreeState st) : DotFreeState (loop_body q st).state := by
  have hi : ∀ i, DotFreeState { st with index := i } := fun i => h
  unfold loop_body
  simp only
  split
  · exact hi _
  · split
    · exact process_open_dotFree q _ (hi _)
    · split
      · exact process_close_dotFree _ (hi _)
      · split
        · exact h
        · refine process_token_dotFree q _ htok _ (apply_state_reset_dotFree _ ?_)
          exact h

theorem ProcessQuery_loop_state_invariant (P : DriverState → Prop) (q : List Char)
    (hstep : ∀ st, P st → P (loop_body q st).state) :
    ∀ (fuel : Nat) (st st' : DriverState), P st →
      ProcessQuery_loop q fuel st = some st' → P st' := by
  intro fuel
  induction fuel with
  | zero =>
    intro st st' hP h
    simp only [ProcessQuery_loop] at h
    split at h
    · cases h
    · cases h; exact hP
  | succ n ih =>
    intro st st' hP h
    simp only [ProcessQuery_loop] at h
    split at h
    · have hb := hstep st hP
      cases hl : loop_body q st with
      | next a =>
        rw [hl] at h hb
        exact ih a st' hb h
      | done a =>
        rw [hl] at h hb
        cases h
        exact hb
    · cases h; exact hP

/-! ### CONCAT, MAX and AS in the reader and the driver -/

/-- C12. Extraction does not resume after a CONCAT: on
`select concat(a,b) from t where t.c=1` the reader, called at the cursor of
`concat`, consumes the input through the first `)` and returns the empty token
with input left, although the reader called at the cursor past that `)` returns
`from`; the driver takes the empty token as the end and `ProcessQuery` returns
an empty table list and an empty table-column list. -/
theorem concat_stops_extraction :
    get_next_valid_token "select concat(a,b) from t where t.c=1".toList 6 = ([], 18)
    ∧ get_next_valid_token "select concat(a,b) from t where t.c=1".toList 18
        = ("from".toList, 23)
    ∧ ProcessQuery 20 "select concat(a,b) from t where t.c=1".toList false
        = some ({ mTblNameList := [], mTblColNameList := [] }, true) := by
  decide

/-- C13. A malformed MAX read as the lookahead of the Where state does not end
the statement: on `select * from t where a max b and t.c = 1` the lookahead
after `a` is the empty token of the failed MAX, the driver records `t.a` and
goes on, and `t.c`, which comes after the MAX, is in the table-column list. -/
theorem malformed_max_lookahead_continues :
    get_next_valid_token "select * from t where a max b and t.c = 1".toList 23 = ([], 29)
    ∧ ProcessQuery 20 "select * from t where a max b and t.c = 1".toList false
        = some ({ mTblNameList := ["t".toList],
                  mTblColNameList := ["t.a".toList, "t.c".toList] }, false) := by
  decide

/-- C14. The spelling `As` is not taken as the AS keyword in the From state:
on `select t.name from employee As t where t.id>9` the binding registered for
`employee` has the alias `As`, `t` is read as a second table, and `ProcessQuery`
returns the table list `[t]` and the table-column list `[t.id]`. -/
theorem mixed_case_as_not_recognised :
    ProcessQuery 20 "select t.name from employee As t where t.id>9".toList false
      = some ({ mTblNameList := ["t".toList],
                mTblColNameList := ["t.id".toList] }, false) := by
  decide

/-- C20. The parentheses pass `is_valid_tblcol_name`: the one-character tokens
`(` and `)`, which the lexer returns from its separator set, are accepted as
names. -/
theorem is_valid_tblcol_name_accepts_parentheses :
    '(' ∈ token_separators ∧ ')' ∈ token_separators
    ∧ is_valid_tblcol_name ['('] = true ∧ is_valid_tblcol_name [')'] = true := by
  decide

/-- What `is_valid_tblcol_name` does reject: reserved keywords in any letter
case, tokens whose first character is an operator character, tokens made of
digits, and every one-character token of the separator set other than the two
parentheses. -/
theorem is_valid_tblcol_name_rejects (token : List Char) :
    (convert_to_uppercase token ∈ keywords → is_valid_tblcol_name token = false)
    ∧ (charAt token 0 ∈ operators → is_valid_tblcol_name token = false)
    ∧ ((∀ d ∈ token, d.isDigit = true) → is_valid_tblcol_name token = false)
    ∧ (∀ c ∈ token_separators, c ≠ '(' → c ≠ ')' → is_valid_tblcol_name [c] = false) := by
  refine ⟨?_, ?_, ?_, ?_⟩
  · intro h
    unfold is_valid_tblcol_name is_token_reserved
    simp [h]
  · intro h
    unfold is_valid_tblcol_name is_token_operator
    simp [h]
  · intro h
    cases token with
    | nil => simp [is_valid_tblcol_name]
    | cons a t =>
      have ha : a.isDigit = true := h a (List.mem_cons_self _ _)
      unfold is_valid_tblcol_name
      simp [charAt, ha]
  · decide

/-! ### The alias table -/

/-- C18. Alias resolution by `find_table_name_of_alias_tblname`, for every list
of bindings `L` and every string `a`: (i) when `a` is empty and `L` ends with
the binding `e`, the result is the table name of `e`; (ii) when `a` is not
empty and `e` is the first binding of `L` whose alias is `a`, the result is the
table name of `e`; (iii) when `a` is not empty and no binding of `L` has the
alias `a`, the result is `a`. -/
theorem alias_resolution (L : List lookup_table_for_name_alias_t) (a : List Char) :
    (∀ pre e, a = [] → L = pre ++ [e] →
        find_table_name_of_alias_tblname L a = e.table_name)
    ∧ (∀ pre e post, a ≠ [] → L = pre ++ e :: post → e.alias_name = a →
        (∀ x ∈ pre, x.alias_name ≠ a) →
        find_table_name_of_alias_tblname L a = e.table_name)
    ∧ (a ≠ [] → (∀ x ∈ L, x.alias_name ≠ a) →
        find_table_name_of_alias_tblname L a = a) := by
  refine ⟨?_, ?_, ?_⟩
  · intro pre e ha hL
    subst hL
    unfold find_table_name_of_alias_tblname
    simp [ha]
  · intro pre e post ha hL he hpre
    subst hL
    unfold find_table_name_of_alias_tblname
    rw [if_neg (fun h => ha h.1)]
    have hfind : (pre ++ e :: post).find? (fun e => decide (e.alias_name = a)) = some e := by
      rw [List.find?_append]
      have h1 : pre.find? (fun e => decide (e.alias_name = a)) = none := by
        rw [List.find?_eq_none]
        intro x hx
        simpa using hpre x hx
      rw [h1]
      simp [List.find?_cons, he]
    rw [hfind]
  · intro ha hL
    unfold find_table_name_of_alias_tblname
    rw [if_neg (fun h => ha h.1)]
    have hfind : L.find? (fun e => decide (e.alias_name = a)) = none := by
      rw [List.find?_eq_none]
      intro x hx
      simpa using hL x hx
    rw [hfind]

theorem alias_resolution_witness :
    find_table_name_of_alias_tblname
        [{ table_name := "emp".toList, alias_name := "e".toList },
         { table_name := "dept".toList, alias_name := "d".toList }] [] = "dept".toList
    ∧ find_table_name_of_alias_tblname
        [{ table_name := "emp".toList, alias_name := "e".toList },
         { table_name := "dept".toList, alias_name := "d".toList },
         { table_name := "dual".toList, alias_name := "d".toList }] "d".toList
        = "dept".toList
    ∧ find_table_name_of_alias_tblname
        [{ table_name := "emp".toList, alias_name := "e".toList }] "t1".toList
        = "t1".toList :=
  ⟨(alias_resolution _ []).1
      [{ table_name := "emp".toList, alias_name := "e".toList }]
      { table_name := "dept".toList, alias_name := "d".toList } rfl rfl,
   (alias_resolution _ "d".toList).2.1
      [{ table_name := "emp".toList, alias_name := "e".toList }]
      { table_name := "dept".toList, alias_name := "d".toList }
      [{ table_name := "dual".toList, alias_name := "d".toList }]
      (by decide) rfl rfl (by decide),
   (alias_resolution [{ table_name := "emp".toList, alias_name := "e".toList }]
      "t1".toList).2.2 (by decide) (by decide)⟩

/-! ### The transitions of `set_state` -/

/-- C19. The transition rule of `set_state`, for every token, every pair of
states and every value of the reset flag: a token that is SELECT or UNION in
upper case leaves both states at `SELECT` and sets the reset flag; a token
that is FROM or JOIN leaves the previous state at the old current state and the
current state at `FROM`; a token that is WHERE, ON or BY leaves the previous
state at the old current state and the current state at `WHERE`; any other
token leaves both states and the reset flag as they were. -/
theorem set_state_transitions (token : List Char)
    (current_state previous_state : token_state_t) (flag : Bool) :
    ((convert_to_uppercase token = "SELECT".toList
        ∨ convert_to_uppercase token = "UNION".toList) →
      (set_state token current_state previous_state flag).current_state = .SELECT
      ∧ (set_state token current_state previous_state flag).previous_state = .SELECT
      ∧ (set_state token current_state previous_state flag).state_reset_needed = true)
    ∧ ((convert_to_uppercase token = "FROM".toList
        ∨ convert_to_uppercase token = "JOIN".toList) →
      (set_state token current_state previous_state flag).previous_state = current_state
      ∧ (set_state token current_state previous_state flag).current_state = .FROM)
    ∧ ((convert_to_uppercase token = "WHERE".toList
        ∨ convert_to_uppercase token = "ON".toList
        ∨ convert_to_uppercase token = "BY".toList) →
      (set_state token current_state previous_state flag).previous_state = current_state
      ∧ (set_state token current_state previous_state flag).current_state = .WHERE)
    ∧ (convert_to_uppercase token ∉
          ["SELECT".toList, "UNION".toList, "FROM".toList, "JOIN".toList,
           "WHERE".toList, "ON".toList, "BY".toList] →
      (set_state token current_state previous_state flag).current_state = current_state
      ∧ (set_state token current_state previous_state flag).previous_state
          = previous_state
      ∧ (set_state token current_state previous_state flag).state_reset_needed = flag) := by
  refine ⟨?_, ?_, ?_, ?_⟩
  · intro h
    unfold set_state
    simp only [if_pos h, and_self]
  · intro h
    have h1 : ¬ (convert_to_uppercase token = "SELECT".toList
        ∨ convert_to_uppercase token = "UNION".toList) := by
      rcases h with h | h <;> rw [h] <;> decide
    unfold set_state
    simp only [if_neg h1, if_pos h, and_self]
  · intro h
    have h1 : ¬ (convert_to_uppercase token = "SELECT".toList
        ∨ convert_to_uppercase token = "UNION".toList) := by
      rcases h with h | h | h <;> rw [h] <;> decide
    have h2 : ¬ (convert_to_uppercase token = "FROM".toList
        ∨ convert_to_uppercase token = "JOIN".toList) := by
      rcases h with h | h | h <;> rw [h] <;> decide
    unfold set_state
    simp only [if_neg h1, if_neg h2, if_pos h, and_self]
  · intro h
    simp only [List.mem_cons, List.mem_singleton, List.not_mem_nil, or_false, not_or] at h
    unfold set_state
    simp only [if_neg (not_or.mpr ⟨h.1, h.2.1⟩), if_neg (not_or.mpr ⟨h.2.2.1, h.2.2.2.1⟩),
      if_neg (not_or.mpr ⟨h.2.2.2.2.1, not_or.mpr ⟨h.2.2.2.2.2.1, h.2.2.2.2.2.2⟩⟩), and_self]

theorem set_state_transitions_witness :
    ((set_state "Union".toList .WHERE .FROM false).current_state = .SELECT
      ∧ (set_state "Union".toList .WHERE .FROM false).previous_state = .SELECT
      ∧ (set_state "Union".toList .WHERE .FROM false).state_reset_needed = true)
    ∧ ((set_state "join".toList .WHERE .FROM false).previous_state = .WHERE
      ∧ (set_state "join".toList .WHERE .FROM false).current_state = .FROM)
    ∧ ((set_state "By".toList .FROM .SELECT false).previous_state = .FROM
      ∧ (set_state "By".toList .FROM .SELECT false).current_state = .WHERE)
    ∧ ((set_state "emp".toList .FROM .SELECT false).current_state = .FROM
      ∧ (set_state "emp".toList .FROM .SELECT false).previous_state = .SELECT
      ∧ (set_state "emp".toList .FROM .SELECT false).state_reset_needed = false) :=
  ⟨(set_state_transitions "Union".toList .WHERE .FROM false).1 (by decide),
   (set_state_transitions "join".toList .WHERE .FROM false).2.1 (by decide),
   (set_state_transitions "By".toList .FROM .SELECT false).2.2.1 (by decide),
   (set_state_transitions "emp".toList .FROM .SELECT false).2.2.2 (by decide)⟩

/-! ### The alias table is never shortened -/

theorem process_open_lookup (q : List Char) (st : DriverState) :
    (process_open q st).state.lookup_table_list = st.lookup_table_list := by
  unfold process_open
  simp only
  split <;> rfl

theorem process_close_lookup (st : DriverState) :
    (process_close st).state.lookup_table_list = st.lookup_table_list := by
  unfold process_close
  split
  · rfl
  · split <;> rfl

theorem process_from_lookup (q tok : List Char) (st : DriverState) :
    ∃ ext, (process_from q tok st).state.lookup_table_list
      = st.lookup_table_list ++ ext := by
  unfold process_from
  simp only
  split
  · exact ⟨[], by simp [Outcome.state]⟩
  · split
    · exact ⟨_, rfl⟩
    · split
      · split
        · exact ⟨[], by simp [Outcome.state]⟩
        · exact ⟨_, rfl⟩
      · exact ⟨_, rfl⟩

theorem process_where_lookup (q tok : List Char) (st : DriverState) :
    (process_where q tok st).state.lookup_table_list = st.lookup_table_list := by
  unfold process_where
  simp only
  split
  · rfl
  · split
    · split
      · rfl
      · split <;> rfl
    · split <;> rfl

theorem apply_state_reset_lookup (st : DriverState) :
    (apply_state_reset st).lookup_table_list = st.lookup_table_list := by
  unfold apply_state_reset
  split <;> rfl

theorem process_token_lookup (q tok : List Char) (st : DriverState) :
    ∃ ext, (process_token q tok st).state.lookup_table_list
      = st.lookup_table_list ++ ext := by
  unfold process_token
  split
  · exact ⟨[], by simp [Outcome.state]⟩
  · split
    · exact ⟨[], by simp [Outcome.state]⟩
    · split
      · exact process_from_lookup q tok st
      · split
        · exact ⟨[], by simp [process_where_lookup]⟩
        · exact ⟨[], by simp [Outcome.state]⟩

theorem loop_body_lookup (q : List Char) (st : DriverState) :
    ∃ ext, (loop_body q st).state.lookup_table_list = st.lookup_table_list ++ ext := by
  unfold loop_body
  simp only
  split
  · exact ⟨[], by simp [Outcome.state]⟩
  · split
    · exact ⟨[], by simp [process_open_lookup]⟩
    · split
      · exact ⟨[], by simp [process_close_lookup]⟩
      · split
        · exact ⟨[], by simp [Outcome.state]⟩
        · have h := process_token_lookup q (get_next_valid_token q st.index).1
            (apply_state_reset
              { st with
                index := (get_next_valid_token q st.index).2,
                current_state := (set_state (get_next_valid_token q st.index).1
                  st.current_state st.previous_state st.state_reset_needed).current_state,
                previous_state := (set_state (get_next_valid_token q st.index).1
                  st.current_state st.previous_state st.state_reset_needed).previous_state,
                state_reset_needed := (set_state (get_next_valid_token q st.index).1
                  st.current_state st.previous_state st.state_reset_needed).state_reset_needed })
          rw [apply_state_reset_lookup] at h
          exact h

theorem ProcessQuery_loop_lookup (q : List Char) :
    ∀ (fuel : Nat) (st st' : DriverState), ProcessQuery_loop q fuel st = some st' →
      ∃ ext, st'.lookup_table_list = st.lookup_table_list ++ ext := by
  intro fuel
  induction fuel with
  | zero =>
    intro st st' h
    simp only [ProcessQuery_loop] at h
    split at h
    · cases h
    · cases h; exact ⟨[], by simp⟩
  | succ n ih =>
    intro st st' h
    simp only [ProcessQuery_loop] at h
    split at h
    · obtain ⟨e1, he1⟩ := loop_body_lookup q st
      cases hl : loop_body q st with
      | next a =>
        rw [hl] at h he1
        obtain ⟨e2, he2⟩ := ih a st' h
        refine ⟨e1 ++ e2, ?_⟩
        rw [he2]
        simp only [Outcome.state] at he1
        rw [he1, List.append_assoc]
      | done a =>
        rw [hl] at h he1
        cases h
        exact ⟨e1, he1⟩
    · cases h; exact ⟨[], by simp⟩

theorem find_table_name_append (L ext : List lookup_table_for_name_alias_t)
    (a : List Char) (ha : a ≠ []) (hex : ∃ e ∈ L, e.alias_name = a) :
    find_table_name_of_alias_tblname (L ++ ext) a
      = find_table_name_of_alias_tblname L a := by
  obtain ⟨e, he, hea⟩ := hex
  unfold find_table_name_of_alias_tblname
  rw [if_neg (fun h => ha h.1), if_neg (fun h => ha h.1), List.find?_append]
  cases hf : L.find? (fun e => decide (e.alias_name = a)) with
  | none =>
    rw [List.find?_eq_none] at hf
    exact absurd (by simpa using hea) (hf e he)
  | some x => rfl

/-- C15. The alias table is not scoped by the scope stack: the block of `)`
leaves `lookup_table_list` as it is; an iteration of the driver loop, and a
whole run of it, only appends bindings to the list; a non-empty alias that has
a binding in the list resolves to the same table however the list is extended;
and on `select * from a where a.id in (select b.id from big b where b.k = 1)
and b.z = 2` the binding `(big, b)` registered inside the subquery resolves
`b.z` after the subquery closes, the result being the table list `[a, big]`
and the table-column list `[a.id, big.k, big.z]`. -/
theorem alias_table_not_scoped :
    (∀ st : DriverState,
        (process_close st).state.lookup_table_list = st.lookup_table_list)
    ∧ (∀ (q : List Char) (st : DriverState),
        ∃ ext, (loop_body q st).state.lookup_table_list = st.lookup_table_list ++ ext)
    ∧ (∀ (q : List Char) (fuel : Nat) (st st' : DriverState),
        ProcessQuery_loop q fuel st = some st' →
        ∃ ext, st'.lookup_table_list = st.lookup_table_list ++ ext)
    ∧ (∀ (L ext : List lookup_table_for_name_alias_t) (a : List Char), a ≠ [] →
        (∃ e ∈ L, e.alias_name = a) →
        find_table_name_of_alias_tblname (L ++ ext) a
          = find_table_name_of_alias_tblname L a)
    ∧ ProcessQuery 40
        "select * from a where a.id in (select b.id from big b where b.k = 1) and b.z = 2".toList
        false
      = some ({ mTblNameList := ["a".toList, "big".toList],
                mTblColNameList := ["a.id".toList, "big.k".toList, "big.z".toList] },
              false) :=
  ⟨process_close_lookup, loop_body_lookup, fun q fuel st st' h =>
    ProcessQuery_loop_lookup q fuel st st' h, find_table_name_append, by decide⟩

theorem alias_table_not_scoped_witness :
    find_table_name_of_alias_tblname
        ([{ table_name := "a".toList, alias_name := [] },
          { table_name := "big".toList, alias_name := "b".toList }]
          ++ [{ table_name := "other".toList, alias_name := "b".toList }]) "b".toList
      = find_table_name_of_alias_tblname
        [{ table_name := "a".toList, alias_name := [] },
         { table_name := "big".toList, alias_name := "b".toList }] "b".toList :=
  alias_table_not_scoped.2.2.2.1 _ _ "b".toList (by decide)
    ⟨{ table_name := "big".toList, alias_name := "b".toList }, by decide, rfl⟩

/-! ### No extraction outside the Where state -/

theorem set_state_not_where (tok : List Char) (cs ps : token_state_t) (flag : Bool)
    (hk : ¬ is_where_keyword tok) (hcs : cs ≠ .WHERE) :
    (set_state tok cs ps flag).current_state ≠ .WHERE := by
  unfold is_where_keyword at hk
  unfold set_state
  simp only
  split_ifs with h1 h2
  · simp
  · simp
  · exact hcs

theorem process_from_keeps (q tok : List Char) (st : DriverState) :
    (process_from q tok st).state.current_state = st.current_state
    ∧ (process_from q tok st).state.query_state_stack = st.query_state_stack := by
  unfold process_from
  simp only
  split
  · exact ⟨rfl, rfl⟩
  · split
    · exact ⟨rfl, rfl⟩
    · split
      · split <;> exact ⟨rfl, rfl⟩
      · exact ⟨rfl, rfl⟩

theorem process_where_keeps_state (q tok : List Char) (st : DriverState) :
    (process_where q tok st).state.current_state = st.current_state := by
  unfold process_where
  simp only
  split
  · rfl
  · split
    · split
      · rfl
      · split <;> rfl
    · split <;> rfl

theorem apply_state_reset_keeps (st : DriverState) :
    (apply_state_reset st).current_state = st.current_state
    ∧ (apply_state_reset st).query_state_stack = st.query_state_stack
    ∧ (apply_state_reset st).pRes = st.pRes := by
  unfold apply_state_reset
  split <;> exact ⟨rfl, rfl, rfl⟩

theorem process_token_neverInWhere (q tok : List Char) (st : DriverState)
    (h : NeverInWhere st) : NeverInWhere (process_token q tok st).state := by
  unfold process_token
  split
  · exact h
  · split
    · exact h
    · split
      · obtain ⟨h1, h2⟩ := process_from_keeps q tok st
        refine ⟨?_, ?_, ?_⟩
        · rw [h1]; exact h.1
        · rw [h2]; exact h.2.1
        · rw [process_from_pRes]; exact h.2.2
      · split
        · rename_i hw
          exact absurd hw h.1
        · exact h

theorem loop_body_neverInWhere (q : List Char) (st : DriverState)
    (h : NeverInWhere st) (hk : ¬ is_where_keyword (get_next_valid_token q st.index).1) :
    NeverInWhere (loop_body q st).state := by
  unfold loop_body
  simp only
  split
  · exact h
  · split
    · unfold process_open
      simp only
      split
      · refine ⟨by simp [Outcome.state], ?_, h.2.2⟩
        intro f hf
        simp only [Outcome.state, List.mem_cons] at hf
        rcases hf with hf | hf
        · rw [hf]; exact h.1
        · exact h.2.1 f hf
      · exact h
    · split
      · unfold process_close
        split
        · exact h
        · rename_i top rest hst
          split
          · refine ⟨?_, ?_, h.2.2⟩
            · exact h.2.1 top (by rw [hst]; exact List.mem_cons_self _ _)
            · intro f hf
              exact h.2.1 f (by rw [hst]; exact List.mem_cons_of_mem _ hf)
          · exact h
      · have hs := set_state_not_where (get_next_valid_token q st.index).1
          st.current_state st.previous_state st.state_reset_needed hk h.1
        split
        · exact ⟨hs, h.2.1, h.2.2⟩
        · apply process_token_neverInWhere
          obtain ⟨h1, h2, h3⟩ := apply_state_reset_keeps
              { st with
                index := (get_next_valid_token q st.index).2,
                current_state := (set_state (get_next_valid_token q st.index).1
                  st.current_state st.previous_state st.state_reset_needed).current_state,
                previous_state := (set_state (get_next_valid_token q st.index).1
                  st.current_state st.previous_state st.state_reset_needed).previous_state,
                state_reset_needed := (set_state (get_next_valid_token q st.index).1
                  st.current_state st.previous_state st.state_reset_needed).state_reset_needed }
          refine ⟨?_, ?_, ?_⟩
          · rw [h1]; exact hs
          · rw [h2]; exact h.2.1
          · rw [h3]; exact h.2.2

theorem ProcessQuery_loop_neverInWhere (q : List Char) :
    ∀ (fuel : Nat) (st st' : DriverState), NeverInWhere st →
      (∀ t ∈ current_tokens q fuel st, ¬ is_where_keyword t) →
      ProcessQuery_loop q fuel st = some st' → NeverInWhere st' := by
  intro fuel
  induction fuel with
  | zero =>
    intro st st' hI _ h
    simp only [ProcessQuery_loop] at h
    split at h
    · cases h
    · cases h; exact hI
  | succ n ih =>
    intro st st' hI hno h
    simp only [ProcessQuery_loop] at h
    by_cases hlt : st.index < q.length
    · rw [if_pos hlt] at h
      simp only [current_tokens, if_pos hlt, List.mem_cons, forall_eq_or_imp] at hno
      have hb := loop_body_neverInWhere q st hI hno.1
      cases hl : loop_body q st with
      | next a =>
        rw [hl] at h hb
        have hno2 := hno.2
        rw [hl] at hno2
        exact ih a st' hb hno2 h
      | done a =>
        rw [hl] at h hb
        cases h
        exact hb
    · rw [if_neg hlt] at h
      cases h; exact hI

theorem loop_body_pRes_where (q : List Char) (st : DriverState)
    (h : (loop_body q st).state.pRes ≠ st.pRes) :
    (loop_body q st).state.current_state = .WHERE := by
  revert h
  unfold loop_body
  simp only
  split
  · intro h; exact absurd rfl h
  · split
    · intro h; exact absurd (process_open_pRes q _) h
    · split
      · intro h; exact absurd (process_close_pRes _) h
      · split
        · intro h; exact absurd rfl h
        · unfold process_token
          split
          · intro h
            exact absurd (apply_state_reset_pRes _) h
          · split
            · intro h
              exact absurd (apply_state_reset_pRes _) h
            · split
              · intro h
                rw [process_from_pRes, apply_state_reset_pRes] at h
                exact absurd rfl h
              · split
                · rename_i hw
                  intro _
                  rw [process_where_keeps_state]
                  exact hw
                · intro h
                  exact absurd (apply_state_reset_pRes _) h

/-! ### The scenarios with UNION and with AS, for all plain identifiers -/

theorem token_union_facts :
    (∀ (cs ps : token_state_t) (f : Bool),
        set_state ['u', 'n', 'i', 'o', 'n'] cs ps f
          = { changed := true, current_state := .SELECT, previous_state := .SELECT,
              state_reset_needed := true })
    ∧ is_token_reserved ['u', 'n', 'i', 'o', 'n'] = true
    ∧ is_token_operator ['u', 'n', 'i', 'o', 'n'] = false
    ∧ is_valid_tblcol_name ['u', 'n', 'i', 'o', 'n'] = false :=
  ⟨fun _ _ _ => rfl, by decide, by decide, by decide⟩

theorem token_AS_facts :
    (∀ (cs ps : token_state_t) (f : Bool),
        set_state ['A', 'S'] cs ps f
          = { changed := false, current_state := cs, previous_state := ps,
              state_reset_needed := f })
    ∧ is_token_reserved ['A', 'S'] = false
    ∧ is_token_operator ['A', 'S'] = false
    ∧ is_valid_tblcol_name ['A', 'S'] = true :=
  ⟨fun _ _ _ => rfl, by decide, by decide, by decide⟩

/-- The statement `select * from a where x=1 union select * from b where y=2` for plain
identifiers: the table list is `[a, b]` and the table-column list `[a.x, b.y]`. -/
theorem run_scenario_union (a b x y : List Char) (ha : PlainFacts a) (hb : PlainFacts b) (hx : PlainFacts x) (hy : PlainFacts y) (hne : a ≠ b)
    (hlen : ("select * from ".toList ++ a ++ " where ".toList ++ x ++ "=1 union select * from ".toList ++ b ++ " where ".toList ++ y ++ "=2".toList).length
      < 4294967296) (flag : Bool) :
    ProcessQuery 20 ("select * from ".toList ++ a ++ " where ".toList ++ x ++ "=1 union select * from ".toList ++ b ++ " where ".toList ++ y ++ "=2".toList) flag
      = some ({ mTblNameList := [a, b],
                mTblColNameList := [a ++ ['.'] ++ x, b ++ ['.'] ++ y] }, false) := by
  have s0 : SimpleWord ['f', 'r', 'o', 'm'] := by decide
  have s1 : SimpleWord ['s', 'e', 'l', 'e', 'c', 't'] := by decide
  have s2 : SimpleWord ['u', 'n', 'i', 'o', 'n'] := by decide
  have s3 : SimpleWord ['w', 'h', 'e', 'r', 'e'] := by decide
  have hq : "select * from ".toList ++ a ++ " where ".toList ++ x ++ "=1 union select * from ".toList ++ b ++ " where ".toList ++ y ++ "=2".toList
      = render [.word "select".toList, .space, .sep '*', .space, .word "from".toList, .space,
       .word a, .space, .word "where".toList, .space, .word x, .sep '=', .num "1".toList,
       .space, .word "union".toList, .space, .word "select".toList, .space, .sep '*',
       .space, .word "from".toList, .space, .word b, .space, .word "where".toList,
       .space, .word y, .sep '=', .num "2".toList] := by
    simp [render, Seg.text]
  have hok : SegsOK [.word "select".toList, .space, .sep '*', .space, .word "from".toList, .space,
       .word a, .space, .word "where".toList, .space, .word x, .sep '=', .num "1".toList,
       .space, .word "union".toList, .space, .word "select".toList, .space, .sep '*',
       .space, .word "from".toList, .space, .word b, .space, .word "where".toList,
       .space, .word y, .sep '=', .num "2".toList] := by
    simp [SegsOK, ends_word, no_space_first, token_separators, ha.simpleWord, hb.simpleWord, hx.simpleWord, hy.simpleWord,
      s0, s1, s2, s3]
  have hne' : b ≠ a := fun h => hne h.symm
  have hcol : b ++ '.' :: y ≠ a ++ '.' :: x :=
    fun h => hne' (qualified_inj hb.no_dot ha.no_dot h)
  rw [hq] at hlen ⊢
  rw [ProcessQuery_render _ hok hlen]
  unfold ProcessSegs initial_state
  repeat
    rw [ProcessSegs_loop_succ]
    simp [loop_body_on, seg_next, seg_next_at, seg_back, process_token_on,
      process_from_on, process_where_on, process_open_on, process_close,
      apply_state_reset, find_table_name_of_alias_tblname,
      store_table_name_uniquely, store_table_col_name_uniquely,
      token_select_facts, token_name_facts, token_from_facts, token_where_facts,
      token_as_facts, token_star_facts, token_comma_facts, token_dot_facts,
      token_eq_facts, token_gt_facts, token_union_facts, token_AS_facts,
      PlainFacts.ne_nil, PlainFacts.ne_open, PlainFacts.ne_close, PlainFacts.ne_comma,
      PlainFacts.ne_semicolon, PlainFacts.ne_dot, PlainFacts.ne_AS', PlainFacts.ne_as',
      PlainFacts.set_state, PlainFacts.not_reserved, PlainFacts.not_operator,
      PlainFacts.valid_name,
      ha, hb, hx, hy, hne, hne', hcol]

/-- The statement `select * from T AS a where a.c>9` for plain identifiers: the table
list is `[T]` and the table-column list `[T.c]`. -/
theorem run_scenario_as_upper (T a c : List Char) (hT : PlainFacts T) (ha : PlainFacts a) (hc : PlainFacts c)
    (hlen : ("select * from ".toList ++ T ++ " AS ".toList ++ a ++ " where ".toList ++ a ++ ".".toList ++ c ++ ">9".toList).length
      < 4294967296) (flag : Bool) :
    ProcessQuery 20 ("select * from ".toList ++ T ++ " AS ".toList ++ a ++ " where ".toList ++ a ++ ".".toList ++ c ++ ">9".toList) flag
      = some ({ mTblNameList := [T],
                mTblColNameList := [T ++ ['.'] ++ c] }, false) := by
  have s0 : SimpleWord ['A', 'S'] := by decide
  have s1 : SimpleWord ['f', 'r', 'o', 'm'] := by decide
  have s2 : SimpleWord ['s', 'e', 'l', 'e', 'c', 't'] := by decide
  have s3 : SimpleWord ['w', 'h', 'e', 'r', 'e'] := by decide
  have hq : "select * from ".toList ++ T ++ " AS ".toList ++ a ++ " where ".toList ++ a ++ ".".toList ++ c ++ ">9".toList
      = render [.word "select".toList, .space, .sep '*', .space, .word "from".toList, .space,
       .word T, .space, .word "AS".toList, .space, .word a, .space, .word "where".toList,
       .space, .word a, .sep '.', .word c, .sep '>', .num "9".toList] := by
    simp [render, Seg.text]
  have hok : SegsOK [.word "select".toList, .space, .sep '*', .space, .word "from".toList, .space,
       .word T, .space, .word "AS".toList, .space, .word a, .space, .word "where".toList,
       .space, .word a, .sep '.', .word c, .sep '>', .num "9".toList] := by
    simp [SegsOK, ends_word, no_space_first, token_separators, hT.simpleWord, ha.simpleWord, hc.simpleWord,
      s0, s1, s2, s3]
  rw [hq] at hlen ⊢
  rw [ProcessQuery_render _ hok hlen]
  unfold ProcessSegs initial_state
  repeat
    rw [ProcessSegs_loop_succ]
    simp [loop_body_on, seg_next, seg_next_at, seg_back, process_token_on,
      process_from_on, process_where_on, process_open_on, process_close,
      apply_state_reset, find_table_name_of_alias_tblname,
      store_table_name_uniquely, store_table_col_name_uniquely,
      token_select_facts, token_name_facts, token_from_facts, token_where_facts,
      token_as_facts, token_star_facts, token_comma_facts, token_dot_facts,
      token_eq_facts, token_gt_facts, token_union_facts, token_AS_facts,
      PlainFacts.ne_nil, PlainFacts.ne_open, PlainFacts.ne_close, PlainFacts.ne_comma,
      PlainFacts.ne_semicolon, PlainFacts.ne_dot, PlainFacts.ne_AS', PlainFacts.ne_as',
      PlainFacts.set_state, PlainFacts.not_reserved, PlainFacts.not_operator,
      PlainFacts.valid_name,
      hT, ha, hc]

/-- The statement `select * from T as a where a.c>9` for plain identifiers: the table
list is `[T]` and the table-column list `[T.c]`. -/
theorem run_scenario_as_lower (T a c : List Char) (hT : PlainFacts T) (ha : PlainFacts a) (hc : PlainFacts c)
    (hlen : ("select * from ".toList ++ T ++ " as ".toList ++ a ++ " where ".toList ++ a ++ ".".toList ++ c ++ ">9".toList).length
      < 4294967296) (flag : Bool) :
    ProcessQuery 20 ("select * from ".toList ++ T ++ " as ".toList ++ a ++ " where ".toList ++ a ++ ".".toList ++ c ++ ">9".toList) flag
      = some ({ mTblNameList := [T],
                mTblColNameList := [T ++ ['.'] ++ c] }, false) := by
  have s0 : SimpleWord ['a', 's'] := by decide
  have s1 : SimpleWord ['f', 'r', 'o', 'm'] := by decide
  have s2 : SimpleWord ['s', 'e', 'l', 'e', 'c', 't'] := by decide
  have s3 : SimpleWord ['w', 'h', 'e', 'r', 'e'] := by decide
  have hq : "select * from ".toList ++ T ++ " as ".toList ++ a ++ " where ".toList ++ a ++ ".".toList ++ c ++ ">9".toList
      = render [.word "select".toList, .space, .sep '*', .space, .word "from".toList, .space,
       .word T, .space, .word "as".toList, .space, .word a, .space, .word "where".toList,
       .space, .word a, .sep '.', .word c, .sep '>', .num "9".toList] := by
    simp [render, Seg.text]
  have hok : SegsOK [.word "select".toList, .space, .sep '*', .space, .word "from".toList, .space,
       .word T, .space, .word "as".toList, .space, .word a, .space, .word "where".toList,
       .space, .word a, .sep '.', .word c, .sep '>', .num "9".toList] := by
    simp [SegsOK, ends_word, no_space_first, token_separators, hT.simpleWord, ha.simpleWord, hc.simpleWord,
      s0, s1, s2, s3]
  rw [hq] at hlen ⊢
  rw [ProcessQuery_render _ hok hlen]
  unfold ProcessSegs initial_state
  repeat
    rw [ProcessSegs_loop_succ]
    simp [loop_body_on, seg_next, seg_next_at, seg_back, process_token_on,
      process_from_on, process_where_on, process_open_on, process_close,
      apply_state_reset, find_table_name_of_alias_tblname,
      store_table_name_uniquely, store_table_col_name_uniquely,
      token_select_facts, token_name_facts, token_from_facts, token_where_facts,
      token_as_facts, token_star_facts, token_comma_facts, token_dot_facts,
      token_eq_facts, token_gt_facts, token_union_facts, token_AS_facts,
      PlainFacts.ne_nil, PlainFacts.ne_open, PlainFacts.ne_close, PlainFacts.ne_comma,
      PlainFacts.ne_semicolon, PlainFacts.ne_dot, PlainFacts.ne_AS', PlainFacts.ne_as',
      PlainFacts.set_state, PlainFacts.not_reserved, PlainFacts.not_operator,
      PlainFacts.valid_name,
      hT, ha, hc]

/-! ### The valid-token reader on a MAX call -/

theorem drop_add_of_drop_append {input : List Char} {i : Nat} {a b : List Char}
    (h : input.drop i = a ++ b) : input.drop (i + a.length) = b := by
  rw [← List.drop_drop, h]
  exact List.drop_left _ _

/-- The reader on `m(w)`, `m` being a spelling of MAX and `w` a word: the
token is `w` and the cursor is past the closing parenthesis. -/
theorem get_next_valid_token_max {query : List Char} {i : Nat} {m w rest : List Char}
    (h : query.drop i = m ++ '(' :: (w ++ ')' :: rest))
    (hm : convert_to_uppercase m = "MAX".toList) (hmw : ∀ d ∈ m, WordChar d)
    (hmv : is_valid_token m = true) (hw : w ≠ []) (hww : ∀ d ∈ w, WordChar d) :
    get_next_valid_token query i = (w, i + m.length + 1 + w.length + 1) := by
  have hmne : m ≠ [] := by
    intro h0
    rw [h0] at hm
    exact absurd hm (by decide)
  have hmb : charAt m 0 ≠ '`' := by
    cases m with
    | nil => exact absurd rfl hmne
    | cons c m => exact (hmw c (by simp)).2.2.1
  have hmc : convert_to_uppercase m ≠ "CONCAT".toList := by
    rw [hm]
    decide
  have h1 : get_next_token query i = (m, i + m.length) :=
    get_next_token_word h hmne hmw (Or.inr ⟨'(', _, rfl, Or.inr (by decide)⟩)
  have hd2 := drop_add_of_drop_append h
  have h2 : get_next_token query (i + m.length) = (['('], i + m.length + 1) :=
    get_next_token_sep hd2 (by decide)
  have hd3 := drop_succ_of_drop_cons hd2
  have h3 : get_next_token query (i + m.length + 1) = (w, i + m.length + 1 + w.length) :=
    get_next_token_word hd3 hw hww (Or.inr ⟨')', _, rfl, Or.inr (by decide)⟩)
  have hd4 := drop_add_of_drop_append hd3
  have h4 : get_next_token query (i + m.length + 1 + w.length)
      = ([')'], i + m.length + 1 + w.length + 1) :=
    get_next_token_sep hd4 (by decide)
  unfold get_next_valid_token
  rw [get_next_valid_token_rec]
  simp only [h1, skip_invalid_tokens_of_valid query _ (m, i + m.length) hmv, hmv, hmb, hmc,
    hm, h2, h3, h4, not_true_eq_false, and_false, if_false, if_true, ne_eq]
  rw [if_neg (by decide)]

/-! ### The valid-token reader at the pieces of a rendered statement -/

theorem gnvt_seg_word {segs : List Seg} {k : Nat} {w : List Char} {r : List Seg}
    (h : segs.drop k = .word w :: r) (hw : SimpleWord w) (hr : DelimStart (render r)) :
    get_next_valid_token (render segs) (seg_pos segs k) = (w, seg_pos segs (k + 1)) := by
  have hq := drop_seg_pos segs k
  rw [h] at hq
  obtain ⟨_, _, hpos⟩ := seg_pos_succ h
  rw [get_next_valid_token_word hq hw hr, hpos]
  rfl

theorem gnvt_seg_sep {segs : List Seg} {k : Nat} {c : Char} {r : List Seg}
    (h : segs.drop k = .sep c :: r) (hc : c ∈ token_separators) :
    get_next_valid_token (render segs) (seg_pos segs k) = ([c], seg_pos segs (k + 1)) := by
  have hq := drop_seg_pos segs k
  rw [h] at hq
  obtain ⟨_, _, hpos⟩ := seg_pos_succ h
  rw [get_next_valid_token_sep hq hc, hpos]
  rfl

theorem gnvt_seg_space {segs : List Seg} {k : Nat} {r : List Seg}
    (h : segs.drop k = .space :: r) (hr : (render r).headD (Char.ofNat 0) ≠ ' ') :
    get_next_valid_token (render segs) (seg_pos segs k)
      = get_next_valid_token (render segs) (seg_pos segs (k + 1)) := by
  have hq := drop_seg_pos segs k
  rw [h] at hq
  obtain ⟨_, _, hpos⟩ := seg_pos_succ h
  rw [get_next_valid_token_space hq hr, hpos]
  rfl

theorem gnvt_seg_num_end {segs : List Seg} {k : Nat} {w : List Char}
    (h : segs.drop k = [.num w]) (hne : w ≠ []) (hd : ∀ d ∈ w, d.isDigit = true) :
    get_next_valid_token (render segs) (seg_pos segs k) = ([], seg_pos segs (k + 1)) := by
  have hq := drop_seg_pos segs k
  rw [h] at hq
  obtain ⟨_, _, hpos⟩ := seg_pos_succ h
  simp only [render, Seg.text, List.append_nil] at hq
  rw [get_next_valid_token_number_end hq hne hd, hpos]
  rfl

theorem gnvt_seg_max {segs : List Seg} {k : Nat} {m w : List Char} {r : List Seg}
    (h : segs.drop k = .word m :: .sep '(' :: .word w :: .sep ')' :: r)
    (hm : convert_to_uppercase m = "MAX".toList) (hmw : ∀ d ∈ m, WordChar d)
    (hmv : is_valid_token m = true) (hw : w ≠ []) (hww : ∀ d ∈ w, WordChar d) :
    get_next_valid_token (render segs) (seg_pos segs k) = (w, seg_pos segs (k + 4)) := by
  have hq := drop_seg_pos segs k
  rw [h] at hq
  obtain ⟨_, hd1, hp1⟩ := seg_pos_succ h
  obtain ⟨_, hd2, hp2⟩ := seg_pos_succ hd1
  obtain ⟨_, hd3, hp3⟩ := seg_pos_succ hd2
  obtain ⟨_, _, hp4⟩ := seg_pos_succ hd3
  have hq2 : (render segs).drop (seg_pos segs k) = m ++ '(' :: (w ++ ')' :: render r) := hq
  rw [get_next_valid_token_max hq2 hm hmw hmv hw hww, hp4, hp3, hp2, hp1]
  rfl

theorem headD_render_word {w : List Char} {r : List Seg} (hw : SimpleWord w) :
    (render (.word w :: r)).headD (Char.ofNat 0) ≠ ' ' := by
  obtain ⟨hne, hch, _⟩ := hw
  cases w with
  | nil => exact absurd rfl hne
  | cons c w => exact (hch c (by simp)).2.2.2.2

theorem headD_render_word_cons {c : Char} {w : List Char} {r : List Seg} (hc : c ≠ ' ') :
    (render (.word (c :: w) :: r)).headD (Char.ofNat 0) ≠ ' ' := hc

theorem headD_render_sep {c : Char} {r : List Seg} (hc : c ≠ ' ') :
    (render (.sep c :: r)).headD (Char.ofNat 0) ≠ ' ' := hc

theorem headD_render_num {w : List Char} {r : List Seg} (hne : w ≠ [])
    (hd : ∀ d ∈ w, d.isDigit = true) :
    (render (.num w :: r)).headD (Char.ofNat 0) ≠ ' ' := by
  cases w with
  | nil => exact absurd rfl hne
  | cons c w => exact (wordChar_of_isDigit (hd c (by simp))).2.2.2.2

theorem delimStart_space {r : List Seg} : DelimStart (render (.space :: r)) :=
  Or.inr ⟨' ', render r, rfl, Or.inl rfl⟩

theorem delimStart_sep {c : Char} {r : List Seg} (hc : c ∈ token_separators) :
    DelimStart (render (.sep c :: r)) :=
  Or.inr ⟨c, render r, rfl, Or.inr hc⟩

theorem seg_pos_lt_of_drop {segs : List Seg} {k : Nat} {s : Seg} {r : List Seg}
    (h : segs.drop k = s :: r) (hs : s.text ≠ []) :
    seg_pos segs k < (render segs).length := by
  have hadd := seg_pos_add_length segs k
  rw [h] at hadd
  have hpos : 0 < s.text.length := List.length_pos.mpr hs
  simp only [render, List.length_append] at hadd
  omega

/-! ### The driver on a statement with a MAX call in its WHERE clause -/

theorem ProcessQuery_loop_succ (q : List Char) (fuel : Nat) (st : DriverState) :
    ProcessQuery_loop q (fuel + 1) st =
      if st.index < q.length then
        match loop_body q st with
        | .done st => some st
        | .next st => ProcessQuery_loop q fuel st
      else some st := rfl

/-- The run of the driver on a statement that the reader cuts into `select`,
`*`, `from`, `T`, `where`, a column `c` and `>`, the lookahead `where` being
pushed back after `T`. -/
theorem run_where_column (q T c : List Char) (hT : PlainFacts T) (hc : PlainFacts c)
    (p1 p2 p3 p4 p5 p5b p6 p7 p8 : Nat)
    (h0 : get_next_valid_token q 0 = (['s', 'e', 'l', 'e', 'c', 't'], p1))
    (h1 : get_next_valid_token q p1 = (['*'], p2))
    (h2 : get_next_valid_token q p2 = (['f', 'r', 'o', 'm'], p3))
    (h3 : get_next_valid_token q p3 = (T, p4))
    (h4 : get_next_valid_token q p4 = (['w', 'h', 'e', 'r', 'e'], p5))
    (hb : pushback_token_to_stream ['w', 'h', 'e', 'r', 'e'] p5 = p5b)
    (h5 : get_next_valid_token q p5b = (['w', 'h', 'e', 'r', 'e'], p5))
    (h6 : get_next_valid_token q p5 = (c, p6))
    (h7 : get_next_valid_token q p6 = (['>'], p7))
    (h8 : get_next_valid_token q p7 = ([], p8))
    (l0 : 0 < q.length) (l1 : p1 < q.length) (l2 : p2 < q.length) (l3 : p3 < q.length)
    (l5b : p5b < q.length) (l5 : p5 < q.length) (l7 : p7 < q.length) (flag : Bool) :
    ProcessQuery 20 q flag
      = some ({ mTblNameList := [T], mTblColNameList := [T ++ ['.'] ++ c] }, false) := by
  unfold ProcessQuery initial_state
  repeat
    rw [ProcessQuery_loop_succ]
    simp [loop_body, process_token, process_from, process_where, process_open, process_close,
      apply_state_reset, find_table_name_of_alias_tblname,
      store_table_name_uniquely, store_table_col_name_uniquely,
      token_select_facts, token_from_facts, token_where_facts,
      token_star_facts, token_gt_facts,
      PlainFacts.ne_nil, PlainFacts.ne_open, PlainFacts.ne_close, PlainFacts.ne_comma,
      PlainFacts.ne_semicolon, PlainFacts.ne_dot, PlainFacts.ne_AS', PlainFacts.ne_as',
      PlainFacts.set_state, PlainFacts.not_reserved, PlainFacts.not_operator,
      PlainFacts.valid_name,
      hT, hc, h0, h1, h2, h3, h4, hb, h5, h6, h7, h8, l0, l1, l2, l3, l5b, l5, l7]

/-- The statement `select * from T where max(c) > 100` for plain identifiers:
the table list is `[T]` and the table-column list `[T.c]`. -/
theorem run_scenario_max (T c : List Char) (hT : PlainFacts T) (hc : PlainFacts c)
    (hlen : ("select * from ".toList ++ T ++ " where max(".toList ++ c
      ++ ") > 100".toList).length < 4294967296) (flag : Bool) :
    ProcessQuery 20
        ("select * from ".toList ++ T ++ " where max(".toList ++ c ++ ") > 100".toList) flag
      = some ({ mTblNameList := [T], mTblColNameList := [T ++ ['.'] ++ c] }, false) := by
  have s0 : SimpleWord ['f', 'r', 'o', 'm'] := by decide
  have s1 : SimpleWord ['s', 'e', 'l', 'e', 'c', 't'] := by decide
  have s3 : SimpleWord ['w', 'h', 'e', 'r', 'e'] := by decide
  have hq : "select * from ".toList ++ T ++ " where max(".toList ++ c ++ ") > 100".toList
      = render [.word ['s', 'e', 'l', 'e', 'c', 't'], .space, .sep '*', .space,
          .word ['f', 'r', 'o', 'm'], .space, .word T, .space,
          .word ['w', 'h', 'e', 'r', 'e'], .space, .word ['m', 'a', 'x'], .sep '(',
          .word c, .sep ')', .space, .sep '>', .space, .num ['1', '0', '0']] := by
    simp [render, Seg.text]
  rw [hq] at hlen ⊢
  obtain ⟨segs, hsegs⟩ : ∃ segs : List Seg, segs =
      [.word ['s', 'e', 'l', 'e', 'c', 't'], .space, .sep '*', .space,
        .word ['f', 'r', 'o', 'm'], .space, .word T, .space,
        .word ['w', 'h', 'e', 'r', 'e'], .space, .word ['m', 'a', 'x'], .sep '(',
        .word c, .sep ')', .space, .sep '>', .space, .num ['1', '0', '0']] := ⟨_, rfl⟩
  rw [← hsegs] at hlen ⊢
  have d0 : segs.drop 0 = .word ['s', 'e', 'l', 'e', 'c', 't'] :: segs.drop 1 := by
    rw [hsegs]; rfl
  have d1 : segs.drop 1 = .space :: segs.drop 2 := by rw [hsegs]; rfl
  have d2 : segs.drop 2 = .sep '*' :: segs.drop 3 := by rw [hsegs]; rfl
  have d3 : segs.drop 3 = .space :: segs.drop 4 := by rw [hsegs]; rfl
  have d4 : segs.drop 4 = .word ['f', 'r', 'o', 'm'] :: segs.drop 5 := by rw [hsegs]; rfl
  have d5 : segs.drop 5 = .space :: segs.drop 6 := by rw [hsegs]; rfl
  have d6 : segs.drop 6 = .word T :: segs.drop 7 := by rw [hsegs]; rfl
  have d7 : segs.drop 7 = .space :: segs.drop 8 := by rw [hsegs]; rfl
  have d8 : segs.drop 8 = .word ['w', 'h', 'e', 'r', 'e'] :: segs.drop 9 := by
    rw [hsegs]; rfl
  have d9 : segs.drop 9 = .space :: segs.drop 10 := by rw [hsegs]; rfl
  have d10 : segs.drop 10
      = .word ['m', 'a', 'x'] :: .sep '(' :: .word c :: .sep ')' :: segs.drop 14 := by
    rw [hsegs]; rfl
  have d14 : segs.drop 14 = .space :: segs.drop 15 := by rw [hsegs]; rfl
  have d15 : segs.drop 15 = .sep '>' :: segs.drop 16 := by rw [hsegs]; rfl
  have d16 : segs.drop 16 = .space :: segs.drop 17 := by rw [hsegs]; rfl
  have d17 : segs.drop 17 = [.num ['1', '0', '0']] := by rw [hsegs]; rfl
  have e0 : seg_pos segs 0 = 0 := rfl
  have g0 : get_next_valid_token (render segs) (seg_pos segs 0)
      = (['s', 'e', 'l', 'e', 'c', 't'], seg_pos segs 1) :=
    gnvt_seg_word d0 s1 (by rw [d1]; exact delimStart_space)
  have g1 : get_next_valid_token (render segs) (seg_pos segs 1)
      = (['*'], seg_pos segs 3) := by
    rw [gnvt_seg_space d1 (by rw [d2]; exact headD_render_sep (by decide))]
    exact gnvt_seg_sep d2 (by decide)
  have g3 : get_next_valid_token (render segs) (seg_pos segs 3)
      = (['f', 'r', 'o', 'm'], seg_pos segs 5) := by
    rw [gnvt_seg_space d3 (by rw [d4]; exact headD_render_word s0)]
    exact gnvt_seg_word d4 s0 (by rw [d5]; exact delimStart_space)
  have g5 : get_next_valid_token (render segs) (seg_pos segs 5)
      = (T, seg_pos segs 7) := by
    rw [gnvt_seg_space d5 (by rw [d6]; exact headD_render_word hT.simpleWord)]
    exact gnvt_seg_word d6 hT.simpleWord (by rw [d7]; exact delimStart_space)
  have g8 : get_next_valid_token (render segs) (seg_pos segs 8)
      = (['w', 'h', 'e', 'r', 'e'], seg_pos segs 9) :=
    gnvt_seg_word d8 s3 (by rw [d9]; exact delimStart_space)
  have g7 : get_next_valid_token (render segs) (seg_pos segs 7)
      = (['w', 'h', 'e', 'r', 'e'], seg_pos segs 9) := by
    rw [gnvt_seg_space d7 (by rw [d8]; exact headD_render_word s3)]
    exact g8
  have g9 : get_next_valid_token (render segs) (seg_pos segs 9)
      = (c, seg_pos segs 14) := by
    rw [gnvt_seg_space d9 (by rw [d10]; exact headD_render_word_cons (by decide))]
    exact gnvt_seg_max d10 (by decide) (by decide) (by decide) hc.ne_nil hc.wordChars
  have g14 : get_next_valid_token (render segs) (seg_pos segs 14)
      = (['>'], seg_pos segs 16) := by
    rw [gnvt_seg_space d14 (by rw [d15]; exact headD_render_sep (by decide))]
    exact gnvt_seg_sep d15 (by decide)
  have g16 : get_next_valid_token (render segs) (seg_pos segs 16)
      = ([], seg_pos segs 18) := by
    rw [gnvt_seg_space d16 (by rw [d17]; exact headD_render_num (by decide) (by decide))]
    exact gnvt_seg_num_end d17 (by decide) (by decide)
  have hback : pushback_token_to_stream ['w', 'h', 'e', 'r', 'e'] (seg_pos segs 9)
      = seg_pos segs 8 :=
    pushback_token_to_stream_exact _ _ _ (seg_pos_succ d8).2.2.symm
      (Nat.lt_of_le_of_lt (seg_pos_le segs 9) hlen)
  have l0 := seg_pos_lt_of_drop d0 (by decide)
  have l1 := seg_pos_lt_of_drop d1 (by decide)
  have l3 := seg_pos_lt_of_drop d3 (by decide)
  have l5 := seg_pos_lt_of_drop d5 (by decide)
  have l8 := seg_pos_lt_of_drop d8 (by decide)
  have l9 := seg_pos_lt_of_drop d9 (by decide)
  have l16 := seg_pos_lt_of_drop d16 (by decide)
  rw [e0] at g0 l0
  exact run_where_column (render segs) T c hT hc _ _ _ _ _ _ _ _ _ g0 g1 g3 g5 g7 hback g8
    g9 g14 g16 l0 l1 l3 l5 l8 l9 l16 flag

/-! ### Statements without a WHERE clause -/

/-- The statement `select a.c, d from T a` for plain identifiers, which has no WHERE
clause: the table list and the table-column list are empty. -/
theorem run_scenario_no_where (T a c d : List Char) (hT : PlainFacts T) (ha : PlainFacts a) (hc : PlainFacts c) (hd : PlainFacts d)
    (hlen : ("select ".toList ++ a ++ ".".toList ++ c ++ ", ".toList ++ d ++ " from ".toList ++ T ++ " ".toList ++ a).length
      < 4294967296) (flag : Bool) :
    ProcessQuery 20 ("select ".toList ++ a ++ ".".toList ++ c ++ ", ".toList ++ d ++ " from ".toList ++ T ++ " ".toList ++ a) flag
      = some ({ mTblNameList := [],
                mTblColNameList := [] }, false) := by
  have s0 : SimpleWord ['f', 'r', 'o', 'm'] := by decide
  have s1 : SimpleWord ['s', 'e', 'l', 'e', 'c', 't'] := by decide
  have hq : "select ".toList ++ a ++ ".".toList ++ c ++ ", ".toList ++ d ++ " from ".toList ++ T ++ " ".toList ++ a
      = render [.word "select".toList, .space, .word a, .sep '.', .word c, .sep ',', .space,
       .word d, .space, .word "from".toList, .space, .word T, .space, .word a] := by
    simp [render, Seg.text]
  have hok : SegsOK [.word "select".toList, .space, .word a, .sep '.', .word c, .sep ',', .space,
       .word d, .space, .word "from".toList, .space, .word T, .space, .word a] := by
    simp [SegsOK, ends_word, no_space_first, token_separators, hT.simpleWord, ha.simpleWord, hc.simpleWord, hd.simpleWord,
      s0, s1]
  rw [hq] at hlen ⊢
  rw [ProcessQuery_render _ hok hlen]
  unfold ProcessSegs initial_state
  repeat
    rw [ProcessSegs_loop_succ]
    simp [loop_body_on, seg_next, seg_next_at, seg_back, process_token_on,
      process_from_on, process_where_on, process_open_on, process_close,
      apply_state_reset, find_table_name_of_alias_tblname,
      store_table_name_uniquely, store_table_col_name_uniquely,
      token_select_facts, token_name_facts, token_from_facts, token_where_facts,
      token_as_facts, token_star_facts, token_comma_facts, token_dot_facts,
      token_eq_facts, token_gt_facts,
      PlainFacts.ne_nil, PlainFacts.ne_open, PlainFacts.ne_close, PlainFacts.ne_comma,
      PlainFacts.ne_semicolon, PlainFacts.ne_dot, PlainFacts.ne_AS', PlainFacts.ne_as',
      PlainFacts.set_state, PlainFacts.not_reserved, PlainFacts.not_operator,
      PlainFacts.valid_name,
      hT, ha, hc, hd]

theorem ProcessQuery_neverInWhere (fuel : Nat) (q : List Char) (flag : Bool)
    (p : TblColList × Bool)
    (hno : ∀ t ∈ current_tokens q fuel (initial_state flag), ¬ is_where_keyword t)
    (h : ProcessQuery fuel q flag = some p) :
    p.1 = { mTblNameList := [], mTblColNameList := [] } := by
  unfold ProcessQuery at h
  cases hl : ProcessQuery_loop q fuel (initial_state flag) with
  | none => rw [hl] at h; cases h
  | some st' =>
    rw [hl] at h
    cases h
    exact (ProcessQuery_loop_neverInWhere q fuel _ st'
      ⟨by simp [initial_state], by simp [initial_state], rfl⟩ hno hl).2.2

/-! ### One iteration of the lexer, case by case -/

theorem skip_spaces_le_length (input : List Char) :
    ∀ (fuel index : Nat), index ≤ input.length →
      skip_spaces input fuel index ≤ input.length := by
  intro fuel
  induction fuel with
  | zero => intro index h; exact h
  | succ f ih =>
    intro index h
    simp only [skip_spaces]
    split
    · rename_i hc
      exact ih (index + 1) hc.2
    · exact h

/-- What one iteration of the `for` loop of the lexer does, entered with input
left, by the character under the cursor: a quote starts a quoted read; a
separator ends the token or is the token; a space is skipped with the spaces
after it, or ends the token; any other character is appended, and the token
ends when a space follows. -/
theorem get_next_token_loop_cases (input : List Char) (index : Nat)
    (token : List Char) (hlt : index < input.length) :
    (∃ q, (q = '\'' ∨ q = '"' ∨ q = '`') ∧ charAt input index = q
        ∧ ∀ g, get_next_token_loop input (g + 1) index token
            = read_quoted input q index token)
    ∨ (charAt input index ∈ token_separators ∧ token ≠ []
        ∧ ∀ g, get_next_token_loop input (g + 1) index token = (token, index))
    ∨ (charAt input index ∈ token_separators ∧ token = []
        ∧ ∀ g, get_next_token_loop input (g + 1) index token
            = ([charAt input index], index + 1))
    ∨ (charAt input index ≠ ' ' ∧ charAt input (index + 1) = ' '
        ∧ ∀ g, get_next_token_loop input (g + 1) index token
            = (token ++ [charAt input index], index + 1))
    ∨ (charAt input index = ' ' ∧ token ≠ []
        ∧ ∃ j, index < j ∧ j ≤ input.length
            ∧ ∀ g, get_next_token_loop input (g + 1) index token = (token, j))
    ∨ (charAt input index = ' ' ∧ token = []
        ∧ ∀ g, get_next_token_loop input (g + 1) index token
            = get_next_token_loop input g
                (skip_spaces input (input.length - (index + 1)) (index + 1)) [])
    ∨ (charAt input index ≠ ' ' ∧ charAt input (index + 1) ≠ ' '
        ∧ ∀ g, get_next_token_loop input (g + 1) index token
            = get_next_token_loop input g (index + 1) (token ++ [charAt input index])) := by
  have hs := skip_spaces_le input (input.length - (index + 1)) (index + 1)
  have hs2 := skip_spaces_le_length input (input.length - (index + 1)) (index + 1) hlt
  have h0 : ¬ ¬ index < input.length := not_not.mpr hlt
  by_cases h1 : charAt input index = '\''
  · refine Or.inl ⟨'\'', Or.inl rfl, h1, ?_⟩
    intro g; rw [get_next_token_loop, if_neg h0, if_pos h1]
  by_cases h2 : charAt input index = '"'
  · refine Or.inl ⟨'"', Or.inr (Or.inl rfl), h2, ?_⟩
    intro g; rw [get_next_token_loop, if_neg h0, if_neg h1, if_pos h2]
  by_cases h3 : charAt input index = '`'
  · refine Or.inl ⟨'`', Or.inr (Or.inr rfl), h3, ?_⟩
    intro g; rw [get_next_token_loop, if_neg h0, if_neg h1, if_neg h2, if_pos h3]
  by_cases h4 : charAt input index ∈ token_separators
  · by_cases h5 : token.length ≠ 0
    · refine Or.inr (Or.inl ⟨h4, fun h => h5 (by rw [h]; rfl), ?_⟩)
      intro g
      rw [get_next_token_loop, if_neg h0, if_neg h1, if_neg h2, if_neg h3, if_pos h4,
        if_pos h5]
    · have ht : token = [] := List.length_eq_zero.mp (not_not.mp h5)
      refine Or.inr (Or.inr (Or.inl ⟨h4, ht, ?_⟩))
      intro g
      rw [get_next_token_loop, if_neg h0, if_neg h1, if_neg h2, if_neg h3, if_pos h4,
        if_neg h5, ht, List.nil_append]
  by_cases h7 : charAt input index = ' '
  · have htok : (if charAt input index ≠ ' ' then token ++ [charAt input index] else token)
        = token := if_neg (not_not.mpr h7)
    by_cases h8 : token = []
    · refine Or.inr (Or.inr (Or.inr (Or.inr (Or.inr (Or.inl ⟨h7, h8, ?_⟩)))))
      intro g
      have h6 : ¬ (charAt input (index + 1) = ' ' ∧ token ≠ []) := fun h => h.2 h8
      have hidx : skip_spaces input (input.length - (index + 1)) (index + 1) - 1 + 1
          = skip_spaces input (input.length - (index + 1)) (index + 1) := by omega
      rw [get_next_token_loop, if_neg h0, if_neg h1, if_neg h2, if_neg h3, if_neg h4]
      simp only
      rw [htok, if_neg h6, if_pos h7, if_neg (not_not.mpr h8), hidx, h8]
    · by_cases h6 : charAt input (index + 1) = ' ' ∧ token ≠ []
      · refine Or.inr (Or.inr (Or.inr (Or.inr (Or.inl
          ⟨h7, h8, index + 1, Nat.lt_succ_self _, hlt, ?_⟩))))
        intro g
        rw [get_next_token_loop, if_neg h0, if_neg h1, if_neg h2, if_neg h3, if_neg h4]
        simp only
        rw [htok, if_pos h6]
      · refine Or.inr (Or.inr (Or.inr (Or.inr (Or.inl
          ⟨h7, h8, skip_spaces input (input.length - (index + 1)) (index + 1),
            by omega, hs2, ?_⟩))))
        intro g
        rw [get_next_token_loop, if_neg h0, if_neg h1, if_neg h2, if_neg h3, if_neg h4]
        simp only
        rw [htok, if_neg h6, if_pos h7, if_pos h8]
  · have htok : (if charAt input index ≠ ' ' then token ++ [charAt input index] else token)
        = token ++ [charAt input index] := if_pos h7
    have hne : token ++ [charAt input index] ≠ [] := by simp
    by_cases h6 : charAt input (index + 1) = ' '
    · refine Or.inr (Or.inr (Or.inr (Or.inl ⟨h7, h6, ?_⟩)))
      intro g
      rw [get_next_token_loop, if_neg h0, if_neg h1, if_neg h2, if_neg h3, if_neg h4]
      simp only
      rw [htok, if_pos ⟨h6, hne⟩]
    · refine Or.inr (Or.inr (Or.inr (Or.inr (Or.inr (Or.inr ⟨h7, h6, ?_⟩)))))
      intro g
      rw [get_next_token_loop, if_neg h0, if_neg h1, if_neg h2, if_neg h3, if_neg h4]
      simp only
      rw [htok, if_neg (fun h => h6 h.1), if_neg h7]

theorem read_quoted_ne_nil (input : List Char) (q : Char) (index : Nat)
    (token : List Char) : (read_quoted input q index token).1 ≠ [] := by
  simp [read_quoted]

/-- A token that has a character keeps one: the lexer only appends. -/
theorem get_next_token_loop_ne_nil (input : List Char) :
    ∀ (fuel index : Nat) (token : List Char), token ≠ [] →
      (get_next_token_loop input fuel index token).1 ≠ [] := by
  intro fuel
  induction fuel with
  | zero => intro index token h; exact h
  | succ f ih =>
    intro index token h
    by_cases hlt : index < input.length
    · rcases get_next_token_loop_cases input index token hlt with
        ⟨q, _, _, hr⟩ | ⟨_, _, hr⟩ | ⟨_, ht, _⟩ | ⟨_, _, hr⟩ | ⟨_, _, j, _, _, hr⟩
          | ⟨_, ht, _⟩ | ⟨_, _, hr⟩
      · rw [hr f]; exact read_quoted_ne_nil _ _ _ _
      · rw [hr f]; exact h
      · exact absurd ht h
      · rw [hr f]; simp
      · rw [hr f]; exact h
      · exact absurd ht h
      · rw [hr f]; exact ih _ _ (by simp)
    · rw [get_next_token_loop_at_end input _ index token hlt]
      exact h

/-- The loop that skips spaces stops past a run of spaces, at the end of the
input or at a character that is not a space. -/
theorem skip_spaces_spec (input : List Char) :
    ∀ (fuel index : Nat), input.length - index ≤ fuel →
      (∀ k, index ≤ k → k < skip_spaces input fuel index → charAt input k = ' ')
      ∧ (skip_spaces input fuel index < input.length →
          charAt input (skip_spaces input fuel index) ≠ ' ') := by
  intro fuel
  induction fuel with
  | zero =>
    intro index h
    simp only [skip_spaces]
    exact ⟨fun k h1 h2 => absurd h2 (by omega), fun h2 => absurd h2 (by omega)⟩
  | succ f ih =>
    intro index h
    by_cases hc : charAt input index = ' ' ∧ index < input.length
    · simp only [skip_spaces, if_pos hc]
      obtain ⟨h1, h2⟩ := ih (index + 1) (by omega)
      refine ⟨fun k hk1 hk2 => ?_, h2⟩
      by_cases hk : k = index
      · rw [hk]; exact hc.1
      · exact h1 k (by omega) hk2
    · simp only [skip_spaces, if_neg hc]
      refine ⟨fun k h1 h2 => absurd h2 (by omega), fun h2 h3 => hc ⟨h3, h2⟩⟩

theorem charAt_ne_space_of_sep {c : Char} (h : c ∈ token_separators) : c ≠ ' ' := by
  rintro rfl
  exact absurd h (by decide)

/-- Read with no token accumulated, the lexer returns the empty token exactly
when only spaces are left, and then leaves the cursor at or past the end. -/
theorem get_next_token_loop_empty_iff (input : List Char) :
    ∀ (fuel index : Nat), input.length - index ≤ fuel →
      ((get_next_token_loop input fuel index []).1 = []
          ↔ ∀ k, index ≤ k → k < input.length → charAt input k = ' ')
      ∧ ((get_next_token_loop input fuel index []).1 = []
          → input.length ≤ (get_next_token_loop input fuel index []).2) := by
  intro fuel
  induction fuel with
  | zero =>
    intro index h
    rw [get_next_token_loop_at_end input 0 index [] (by omega)]
    exact ⟨⟨fun _ k h1 h2 => absurd h2 (by omega), fun _ => rfl⟩, fun _ => by omega⟩
  | succ f ih =>
    intro index h
    by_cases hlt : index < input.length
    · have hno : ∀ {P : Prop}, charAt input index ≠ ' ' →
          (∀ k, index ≤ k → k < input.length → charAt input k = ' ') → P :=
        fun hc hall => absurd (hall index (Nat.le_refl _) hlt) hc
      rcases get_next_token_loop_cases input index [] hlt with
        ⟨q, hq, hcq, hr⟩ | ⟨_, ht, _⟩ | ⟨hsep, _, hr⟩ | ⟨hc, _, hr⟩ | ⟨_, ht, _⟩
          | ⟨hsp, _, hr⟩ | ⟨hc, _, hr⟩
      · rw [hr f]
        have hc : charAt input index ≠ ' ' := by
          rw [hcq]
          rcases hq with rfl | rfl | rfl <;> decide
        exact ⟨⟨fun h0 => absurd h0 (read_quoted_ne_nil _ _ _ _), fun hall => hno hc hall⟩,
          fun h0 => absurd h0 (read_quoted_ne_nil _ _ _ _)⟩
      · exact absurd rfl ht
      · rw [hr f]
        exact ⟨⟨fun h0 => absurd h0 (by simp),
          fun hall => hno (charAt_ne_space_of_sep hsep) hall⟩, fun h0 => absurd h0 (by simp)⟩
      · rw [hr f]
        exact ⟨⟨fun h0 => absurd h0 (by simp), fun hall => hno hc hall⟩,
          fun h0 => absurd h0 (by simp)⟩
      · exact absurd rfl ht
      · rw [hr f]
        have hle := skip_spaces_le input (input.length - (index + 1)) (index + 1)
        obtain ⟨hs1, hs2⟩ := skip_spaces_spec input (input.length - (index + 1)) (index + 1)
          (Nat.le_refl _)
        obtain ⟨ih1, ih2⟩ :=
          ih (skip_spaces input (input.length - (index + 1)) (index + 1)) (by omega)
        refine ⟨⟨fun h0 k hk1 hk2 => ?_, fun hall => ?_⟩, ih2⟩
        · by_cases hk : k = index
          · rw [hk]; exact hsp
          · by_cases hk3 : k < skip_spaces input (input.length - (index + 1)) (index + 1)
            · exact hs1 k (by omega) hk3
            · exact ih1.mp h0 k (by omega) hk2
        · exact ih1.mpr (fun k hk1 hk2 => hall k (by omega) hk2)
      · rw [hr f]
        have hne := get_next_token_loop_ne_nil input f (index + 1)
          ([] ++ [charAt input index]) (by simp)
        exact ⟨⟨fun h0 => absurd h0 hne, fun hall => hno hc hall⟩, fun h0 => absurd h0 hne⟩
    · rw [get_next_token_loop_at_end input _ index [] hlt]
      exact ⟨⟨fun _ k h1 h2 => absurd h2 (by omega), fun _ => rfl⟩, fun _ => by omega⟩

/-- C22. End of stream in the lexer, for every input and cursor:
`get_next_token` returns the empty token exactly when the cursor is at or past
the end of the input or every character from the cursor onward is a space;
when it returns the empty token it leaves the cursor at or past the end; and
called with the cursor before the end it leaves the cursor strictly further. -/
theorem lexer_end_of_stream (input : List Char) (i : Nat) :
    ((get_next_token input i).1 = []
        ↔ (input.length ≤ i ∨ ∀ k, i ≤ k → k < input.length → charAt input k = ' '))
    ∧ ((get_next_token input i).1 = [] → input.length ≤ (get_next_token input i).2)
    ∧ (i < input.length → i < (get_next_token input i).2) := by
  obtain ⟨h1, h2⟩ := get_next_token_loop_empty_iff input (input.length - i) i (Nat.le_refl _)
  refine ⟨⟨fun h => Or.inr (h1.mp h), fun h => h1.mpr ?_⟩, h2,
    get_next_token_advances input i⟩
  rcases h with h | h
  · exact fun k hk1 hk2 => absurd hk2 (by omega)
  · exact h

theorem lexer_end_of_stream_witness :
    (get_next_token "ab   ".toList 2).1 = []
    ∧ "ab   ".toList.length ≤ (get_next_token "ab   ".toList 2).2
    ∧ 0 < (get_next_token "ab   ".toList 0).2 :=
  ⟨(lexer_end_of_stream "ab   ".toList 2).1.mpr (Or.inr (by decide)),
   (lexer_end_of_stream "ab   ".toList 2).2.1 (by decide),
   (lexer_end_of_stream "ab   ".toList 0).2.2 (by decide)⟩

/-! ### Quoted reads -/

/-- When the delimiter does not occur from the cursor on, the scan of a quoted
read appends everything up to the end of the input. -/
theorem scan_quoted_unterminated (input : List Char) (q : Char) :
    ∀ (fuel index : Nat) (token : List Char), input.length - index ≤ fuel →
      index ≤ input.length →
      (∀ k, index ≤ k → k < input.length → charAt input k ≠ q) →
      scan_quoted input q fuel index token = (token ++ input.drop index, input.length) := by
  intro fuel
  induction fuel with
  | zero =>
    intro index token h hle _
    have he : index = input.length := by omega
    simp [scan_quoted, he]
  | succ f ih =>
    intro index token h hle hno
    by_cases hlt : index < input.length
    · have hc : charAt input index ≠ q ∧ index < input.length :=
        ⟨hno index (Nat.le_refl _) hlt, hlt⟩
      have hd : input.drop index = charAt input index :: input.drop (index + 1) := by
        have h1 := List.drop_eq_getElem_cons hlt
        rw [charAt_of_drop_cons h1]
        exact h1
      rw [scan_quoted, if_pos hc,
        ih (index + 1) _ (by omega) (by omega) (fun k h1 h2 => hno k (by omega) h2), hd]
      simp
    · have he : index = input.length := by omega
      have hc : ¬ (charAt input index ≠ q ∧ index < input.length) := fun h => hlt h.2
      rw [scan_quoted, if_neg hc, he]
      simp

/-- The lexer at a quote whose delimiter does not occur again: the token is
the rest of the input followed by the character read at the end of the input,
the terminating `'\0'`, and the cursor is one past the end. -/
theorem get_next_token_unterminated (input : List Char) (i : Nat)
    (hlt : i < input.length)
    (hq : charAt input i = '\'' ∨ charAt input i = '"' ∨ charAt input i = '`')
    (hno : ∀ k, i < k → k < input.length → charAt input k ≠ charAt input i) :
    get_next_token input i = (input.drop i ++ [Char.ofNat 0], input.length + 1) := by
  obtain ⟨m, hm⟩ : ∃ m, input.length - i = m + 1 := ⟨input.length - i - 1, by omega⟩
  have hd : input.drop i = charAt input i :: input.drop (i + 1) := by
    have h1 := List.drop_eq_getElem_cons hlt
    rw [charAt_of_drop_cons h1]
    exact h1
  have hend : charAt input input.length = Char.ofNat 0 := by
    simp [charAt]
  have hscan := scan_quoted_unterminated input (charAt input i) (input.length - (i + 1))
    (i + 1) ([] ++ [charAt input i]) (Nat.le_refl _) (by omega)
    (fun k h1 h2 => hno k (by omega) h2)
  have hread : read_quoted input (charAt input i) i []
      = (input.drop i ++ [Char.ofNat 0], input.length + 1) := by
    simp only [List.nil_append] at hscan
    simp only [read_quoted, List.nil_append, hscan, hend, hd, List.singleton_append]
  have h0 : ¬ ¬ i < input.length := not_not.mpr hlt
  unfold get_next_token
  rw [hm]
  rcases hq with h | h | h
  · rw [get_next_token_loop, if_neg h0, if_pos h, ← h, hread]
  · have h1 : charAt input i ≠ '\'' := by rw [h]; decide
    rw [get_next_token_loop, if_neg h0, if_neg h1, if_pos h, ← h, hread]
  · have h1 : charAt input i ≠ '\'' := by rw [h]; decide
    have h2 : charAt input i ≠ '"' := by rw [h]; decide
    rw [get_next_token_loop, if_neg h0, if_neg h1, if_neg h2, if_pos h, ← h, hread]

/-! ### Reading a token again from where it starts -/

/-- C21. An unterminated quote gets a character added: on `'abc` read from
the start, and on `` x `ab `` read from the backtick, `get_next_token` returns
the rest of the input followed by the character `'\0'` it reads at the end of
the input, one character more than the rest of the input, and leaves the
cursor one past the end. -/
theorem unterminated_quote_adds_character :
    (get_next_token "'abc".toList 0 = ("'abc".toList ++ [Char.ofNat 0], 5)
      ∧ (get_next_token "'abc".toList 0).1 ≠ "'abc".toList.drop 0
      ∧ (get_next_token "'abc".toList 0).1.length = ("'abc".toList.drop 0).length + 1)
    ∧ (get_next_token "x `ab".toList 2 = ("`ab".toList ++ [Char.ofNat 0], 6)
      ∧ (get_next_token "x `ab".toList 2).1 ≠ "x `ab".toList.drop 2) := by
  decide

/-! ### The lookahead of the Where state -/

/-- The statement `select * from t where a b` for plain identifiers: `b` is consumed as the
lookahead of `a`, the table list is `[t]` and the table-column list `[t.a]`. -/
theorem run_scenario_where_pair (t a b : List Char) (ht : PlainFacts t) (ha : PlainFacts a) (hb : PlainFacts b)
    (hlen : ("select * from ".toList ++ t ++ " where ".toList ++ a ++ " ".toList ++ b).length
      < 4294967296) (flag : Bool) :
    ProcessQuery 20 ("select * from ".toList ++ t ++ " where ".toList ++ a ++ " ".toList ++ b) flag
      = some ({ mTblNameList := [t],
                mTblColNameList := [t ++ ['.'] ++ a] }, false) := by
  have s0 : SimpleWord ['f', 'r', 'o', 'm'] := by decide
  have s1 : SimpleWord ['s', 'e', 'l', 'e', 'c', 't'] := by decide
  have s2 : SimpleWord ['w', 'h', 'e', 'r', 'e'] := by decide
  have hq : "select * from ".toList ++ t ++ " where ".toList ++ a ++ " ".toList ++ b
      = render [.word "select".toList, .space, .sep '*', .space, .word "from".toList, .space,
       .word t, .space, .word "where".toList, .space, .word a, .space, .word b] := by
    simp [render, Seg.text]
  have hok : SegsOK [.word "select".toList, .space, .sep '*', .space, .word "from".toList, .space,
       .word t, .space, .word "where".toList, .space, .word a, .space, .word b] := by
    simp [SegsOK, ends_word, no_space_first, token_separators, ht.simpleWord, ha.simpleWord, hb.simpleWord,
      s0, s1, s2]
  rw [hq] at hlen ⊢
  rw [ProcessQuery_render _ hok hlen]
  unfold ProcessSegs initial_state
  repeat
    rw [ProcessSegs_loop_succ]
    simp [loop_body_on, seg_next, seg_next_at, seg_back, process_token_on,
      process_from_on, process_where_on, process_open_on, process_close,
      apply_state_reset, find_table_name_of_alias_tblname,
      store_table_name_uniquely, store_table_col_name_uniquely,
      token_select_facts, token_name_facts, token_from_facts, token_where_facts,
      token_as_facts, token_star_facts, token_comma_facts, token_dot_facts,
      token_eq_facts, token_gt_facts,
      PlainFacts.ne_nil, PlainFacts.ne_open, PlainFacts.ne_close, PlainFacts.ne_comma,
      PlainFacts.ne_semicolon, PlainFacts.ne_dot, PlainFacts.ne_AS', PlainFacts.ne_as',
      PlainFacts.set_state, PlainFacts.not_reserved, PlainFacts.not_operator,
      PlainFacts.valid_name,
      ht, ha, hb]

/-- C24. The bare-column branch of the Where state consumes its lookahead.
On `select * from t where a b` the token `b`, read as the lookahead of `a`, is
never the current token of an iteration and only `t.a` is recorded.  On
`select * from a where x in (select y from b where z) and w = 1` the `)` read
as the lookahead of `z` does not restore the frame saved at `(`, and `w` is
recorded as `b.w`. -/
theorem where_lookahead_consumed :
    ProcessQuery 20 "select * from t where a b".toList false
        = some ({ mTblNameList := ["t".toList], mTblColNameList := ["t.a".toList] }, false)
    ∧ current_tokens "select * from t where a b".toList 20 (initial_state false)
        = ["select".toList, "*".toList, "from".toList, "t".toList, "where".toList,
           "a".toList]
    ∧ ProcessQuery 40
        "select * from a where x in (select y from b where z) and w = 1".toList false
        = some ({ mTblNameList := ["a".toList, "b".toList],
                  mTblColNameList := ["a.x".toList, "b.z".toList, "b.w".toList] },
                false) := by
  decide

/-! ### The scope stack -/

theorem loop_body_open (q : List Char) (st : DriverState)
    (h : (get_next_valid_token q st.index).1 = ['(']) :
    loop_body q st
      = process_open q { st with index := (get_next_valid_token q st.index).2 } := by
  unfold loop_body
  simp [h]

theorem loop_body_close (q : List Char) (st : DriverState)
    (h : (get_next_valid_token q st.index).1 = [')']) :
    loop_body q st
      = process_close { st with index := (get_next_valid_token q st.index).2 } := by
  unfold loop_body
  simp [h]

/-- C25. Scope stack round trip, for every statement and every driver state
whose next token is `(`.  When the valid token after the `(` is SELECT in any
letter case, the iteration pushes the one frame that holds the current state,
the previous state and `table_name_list`, sets both states to `NONE` and
empties `table_name_list`; an iteration on `)` run from the state so reached,
at whatever cursor the `)` is read, gives back the two states, `table_name_list`
and the stack as they were before the `(`; neither iteration changes the alias
table or the result.  When the token after the `(` is not SELECT, the stack, the
two states and `table_name_list` are as before. -/
theorem scope_stack_round_trip (q : List Char) (st : DriverState)
    (hopen : (get_next_valid_token q st.index).1 = ['(']) :
    (convert_to_uppercase
          (get_next_valid_token q (get_next_valid_token q st.index).2).1 = "SELECT".toList →
        (loop_body q st).state.query_state_stack
            = { table_name_list := st.table_name_list, current_state := st.current_state,
                previous_state := st.previous_state,
                select_triggered_query_state_change := true } :: st.query_state_stack
        ∧ (loop_body q st).state.current_state = .NONE
        ∧ (loop_body q st).state.previous_state = .NONE
        ∧ (loop_body q st).state.table_name_list = []
        ∧ (loop_body q st).state.lookup_table_list = st.lookup_table_list
        ∧ (loop_body q st).state.pRes = st.pRes
        ∧ ∀ j, (get_next_valid_token q j).1 = [')'] →
            (loop_body q { (loop_body q st).state with index := j }).state.current_state
                = st.current_state
            ∧ (loop_body q { (loop_body q st).state with index := j }).state.previous_state
                = st.previous_state
            ∧ (loop_body q { (loop_body q st).state with index := j }).state.table_name_list
                = st.table_name_list
            ∧ (loop_body q { (loop_body q st).state with index := j }).state.query_state_stack
                = st.query_state_stack
            ∧ (loop_body q { (loop_body q st).state with index := j }).state.lookup_table_list
                = st.lookup_table_list
            ∧ (loop_body q { (loop_body q st).state with index := j }).state.pRes = st.pRes)
    ∧ (convert_to_uppercase
          (get_next_valid_token q (get_next_valid_token q st.index).2).1 ≠ "SELECT".toList →
        (loop_body q st).state.query_state_stack = st.query_state_stack
        ∧ (loop_body q st).state.current_state = st.current_state
        ∧ (loop_body q st).state.previous_state = st.previous_state
        ∧ (loop_body q st).state.table_name_list = st.table_name_list
        ∧ (loop_body q st).state.lookup_table_list = st.lookup_table_list
        ∧ (loop_body q st).state.pRes = st.pRes) := by
  rw [loop_body_open q st hopen]
  constructor
  · intro hsel
    have ho : (process_open q { st with index := (get_next_valid_token q st.index).2 }).state
        = { st with
            index := pushback_token_to_stream
              (get_next_valid_token q (get_next_valid_token q st.index).2).1
              (get_next_valid_token q (get_next_valid_token q st.index).2).2,
            query_state_stack :=
              { table_name_list := st.table_name_list, current_state := st.current_state,
                previous_state := st.previous_state,
                select_triggered_query_state_change := true } :: st.query_state_stack,
            table_name_list := [], current_state := .NONE, previous_state := .NONE } := by
      unfold process_open
      simp only [hsel, if_true, Outcome.state]
    rw [ho]
    refine ⟨rfl, rfl, rfl, rfl, rfl, rfl, ?_⟩
    intro j hj
    rw [loop_body_close q _ hj]
    simp [process_close, Outcome.state]
  · intro hsel
    have ho : (process_open q { st with index := (get_next_valid_token q st.index).2 }).state
        = { st with
            index := pushback_token_to_stream
              (get_next_valid_token q (get_next_valid_token q st.index).2).1
              (get_next_valid_token q (get_next_valid_token q st.index).2).2 } := by
      unfold process_open
      simp only [hsel, if_false, Outcome.state]
    rw [ho]
    exact ⟨rfl, rfl, rfl, rfl, rfl, rfl⟩

theorem scope_stack_round_trip_witness :
    (loop_body "(Select a) x".toList
        { initial_state false with current_state := .WHERE, previous_state := .FROM,
                                   table_name_list := ["t".toList] }).state.current_state
      = .NONE
    ∧ (loop_body "(Select a) x".toList
        { (loop_body "(Select a) x".toList
            { initial_state false with current_state := .WHERE, previous_state := .FROM,
                                       table_name_list := ["t".toList] }).state
          with index := 9 }).state.table_name_list = ["t".toList]
    ∧ (loop_body "(x) y".toList
        { initial_state false with current_state := .WHERE, previous_state := .FROM,
                                   table_name_list := ["t".toList] }).state.query_state_stack
      = [] :=
  ⟨((scope_stack_round_trip "(Select a) x".toList
      { initial_state false with current_state := .WHERE, previous_state := .FROM,
                                 table_name_list := ["t".toList] } (by decide)).1
      (by decide)).2.1,
   (((scope_stack_round_trip "(Select a) x".toList
      { initial_state false with current_state := .WHERE, previous_state := .FROM,
                                 table_name_list := ["t".toList] } (by decide)).1
      (by decide)).2.2.2.2.2.2 9 (by decide)).2.2.1,
   ((scope_stack_round_trip "(x) y".toList
      { initial_state false with current_state := .WHERE, previous_state := .FROM,
                                 table_name_list := ["t".toList] } (by decide)).2
      (by decide)).1⟩

/-! ### The qualifier of every qualified entry is recorded, on every statement -/

theorem process_where_pRes_at (q tok : List Char) (st : DriverState) :
    ResStepAt tok st.pRes (process_where q tok st).state.pRes := by
  unfold process_where
  simp only
  split
  · exact Or.inl rfl
  · rename_i hv
    split
    · split
      · exact Or.inl rfl
      · split
        · exact Or.inl rfl
        · exact Or.inr (Or.inl ⟨_, _, rfl⟩)
    · split
      · exact Or.inr (Or.inl ⟨_, _, rfl⟩)
      · exact Or.inr (Or.inr ⟨_, by simpa using hv, rfl⟩)

theorem process_token_pRes_at (q tok : List Char) (st : DriverState) :
    ResStepAt tok st.pRes (process_token q tok st).state.pRes := by
  unfold process_token
  split
  · exact Or.inl rfl
  · split
    · exact Or.inl rfl
    · split
      · exact Or.inl (process_from_pRes q tok st)
      · split
        · exact process_where_pRes_at q tok st
        · exact Or.inl rfl

theorem loop_body_pRes_at (q : List Char) (st : DriverState) :
    ResStepAt (get_next_valid_token q st.index).1 st.pRes (loop_body q st).state.pRes := by
  unfold loop_body
  simp only
  split
  · exact Or.inl rfl
  · split
    · exact Or.inl (process_open_pRes q _)
    · split
      · exact Or.inl (process_close_pRes _)
      · split
        · exact Or.inl rfl
        · have h := process_token_pRes_at q (get_next_valid_token q st.index).1
            (apply_state_reset
              { st with
                index := (get_next_valid_token q st.index).2,
                current_state := (set_state (get_next_valid_token q st.index).1
                  st.current_state st.previous_state st.state_reset_needed).current_state,
                previous_state := (set_state (get_next_valid_token q st.index).1
                  st.current_state st.previous_state st.state_reset_needed).previous_state,
                state_reset_needed := (set_state (get_next_valid_token q st.index).1
                  st.current_state st.previous_state st.state_reset_needed).state_reset_needed })
          rw [apply_state_reset_pRes] at h
          exact h

theorem QualifiersRecorded.step {s : List Char} {r r' : TblColList} (i : Nat)
    (h : QualifiersRecorded s r) (hs : ResStepAt (get_next_valid_token s i).1 r r') :
    QualifiersRecorded s r' := by
  rcases hs with rfl | ⟨t, c, rfl⟩ | ⟨tables, hv, rfl⟩
  · exact h
  · intro e he
    simp only [mem_store_table_col_name_uniquely] at he
    rcases he with he | rfl
    · rcases h e he with ⟨t0, c0, h1, h2⟩ | h3
      · exact Or.inl ⟨t0, c0, h1, mem_store_table_name_uniquely.mpr (Or.inl h2)⟩
      · exact Or.inr h3
    · exact Or.inl ⟨t, c, rfl, mem_store_table_name_uniquely.mpr (Or.inr rfl)⟩
  · intro e he
    simp only [mem_store_table_col_name_uniquely] at he
    rcases he with he | rfl
    · rcases h e he with ⟨t0, c0, h1, h2⟩ | h3
      · exact Or.inl ⟨t0, c0, h1, (mem_foldl_store tables _ _).mpr (Or.inl h2)⟩
      · exact Or.inr h3
    · exact Or.inr ⟨i, rfl, hv⟩

theorem ProcessQuery_loop_dotFree (q : List Char) :
    ∀ (fuel : Nat) (st st' : DriverState), DotFreeState st →
      (∀ t ∈ current_tokens q fuel st, is_valid_tblcol_name t = true → '.' ∉ t) →
      ProcessQuery_loop q fuel st = some st' → DotFreeState st' := by
  intro fuel
  induction fuel with
  | zero =>
    intro st st' hI _ h
    simp only [ProcessQuery_loop] at h
    split at h
    · cases h
    · cases h; exact hI
  | succ n ih =>
    intro st st' hI hno h
    simp only [ProcessQuery_loop] at h
    by_cases hlt : st.index < q.length
    · rw [if_pos hlt] at h
      simp only [current_tokens, if_pos hlt, List.mem_cons, forall_eq_or_imp] at hno
      have hb := loop_body_dotFree q st hno.1 hI
      cases hl : loop_body q st with
      | next a =>
        rw [hl] at h hb
        have hno2 := hno.2
        rw [hl] at hno2
        exact ih a st' hb hno2 h
      | done a =>
        rw [hl] at h hb
        cases h
        exact hb
    · rw [if_neg hlt] at h
      cases h; exact hI

theorem initial_state_dotFree (flag : Bool) : DotFreeState (initial_state flag) :=
  ⟨fun t ht => (by cases ht), fun f hf => (by cases hf), fun e he => (by cases he),
    fun e he => (by cases he)⟩

/-- C3, amended. The qualifier written into an entry is recorded, on every
statement.  Whenever `ProcessQuery` returns: every entry of the table-column
list is either `t.c` with `t` in the table list, or a token of the statement
that passes `is_valid_tblcol_name`, written bare by the branch of several or
no active tables; when no current token of the run that passes
`is_valid_tblcol_name` contains a `.`, the text before the first `.` of every
entry is in the table list; and this is so on every statement without quote
characters. -/
theorem process_query_qualifiers_recorded (fuel : Nat) (s : List Char) (flag : Bool)
    (p : TblColList × Bool) (h : ProcessQuery fuel s flag = some p) :
    (∀ e ∈ p.1.mTblColNameList,
        (∃ t c, e = t ++ ['.'] ++ c ∧ t ∈ p.1.mTblNameList)
        ∨ (∃ i, (get_next_valid_token s i).1 = e ∧ is_valid_tblcol_name e = true))
    ∧ ((∀ t ∈ current_tokens s fuel (initial_state flag),
          is_valid_tblcol_name t = true → '.' ∉ t) →
        ∀ e ∈ p.1.mTblColNameList, ∀ t, qualifier_of e = some t → t ∈ p.1.mTblNameList)
    ∧ (QuoteFree s →
        ∀ e ∈ p.1.mTblColNameList, ∀ t, qualifier_of e = some t → t ∈ p.1.mTblNameList) := by
  unfold ProcessQuery at h
  cases hl : ProcessQuery_loop s fuel (initial_state flag) with
  | none => rw [hl] at h; cases h
  | some st' =>
    rw [hl] at h
    cases h
    refine ⟨?_, ?_, ?_⟩
    · exact ProcessQuery_loop_state_invariant (fun st => QualifiersRecorded s st.pRes) s
        (fun st hst => hst.step st.index (loop_body_pRes_at s st)) fuel _ st'
        (fun e he => (by cases he)) hl
    · intro hno
      exact (ProcessQuery_loop_dotFree s fuel _ st' (initial_state_dotFree flag) hno hl).2.2.2
    · intro hq
      exact (ProcessQuery_loop_state_invariant DotFreeState s
        (fun st hst => loop_body_dotFree s st
          (fun hv => no_dot_of_valid_name (get_next_valid_token_plain s hq st.index) hv) hst)
        fuel _ st' (initial_state_dotFree flag) hl).2.2.2

set_option maxRecDepth 100000 in
theorem process_query_qualifiers_recorded_witness :
    ProcessQuery 20 "select * from t where t.name = 'bob' and t.age > 3".toList false
        = some ({ mTblNameList := ["t".toList],
                  mTblColNameList := ["t.name".toList, "t.age".toList] }, false)
    ∧ (∀ e ∈ ["t.name".toList, "t.age".toList],
        (∃ t c, e = t ++ ['.'] ++ c ∧ t ∈ ["t".toList])
        ∨ (∃ i, (get_next_valid_token
              "select * from t where t.name = 'bob' and t.age > 3".toList i).1 = e
            ∧ is_valid_tblcol_name e = true))
    ∧ (∀ t ∈ current_tokens "select * from t where t.name = 'bob' and t.age > 3".toList 20
          (initial_state false), is_valid_tblcol_name t = true → '.' ∉ t)
    ∧ (∀ e ∈ ["t.name".toList, "t.age".toList], ∀ t,
        qualifier_of e = some t → t ∈ ["t".toList])
    ∧ QuoteFree "select * from t1,t2 where t1.x>t2.y and z=1".toList
    ∧ ProcessQuery 20 "select * from t1,t2 where t1.x>t2.y and z=1".toList false
        = some ({ mTblNameList := ["t1".toList, "t2".toList],
                  mTblColNameList := ["t1.x".toList, "t2.y".toList, "z".toList] },
                false)
    ∧ (∀ e ∈ ["t1.x".toList, "t2.y".toList, "z".toList], ∀ t,
        qualifier_of e = some t → t ∈ ["t1".toList, "t2".toList]) :=
  ⟨by decide,
   (process_query_qualifiers_recorded 20
      "select * from t where t.name = 'bob' and t.age > 3".toList false
      ({ mTblNameList := ["t".toList],
         mTblColNameList := ["t.name".toList, "t.age".toList] }, false) (by decide)).1,
   by decide,
   (process_query_qualifiers_recorded 20
      "select * from t where t.name = 'bob' and t.age > 3".toList false
      ({ mTblNameList := ["t".toList],
         mTblColNameList := ["t.name".toList, "t.age".toList] }, false) (by decide)).2.1
      (by decide),
   by unfold QuoteFree; decide, by decide,
   (process_query_qualifiers_recorded 20
      "select * from t1,t2 where t1.x>t2.y and z=1".toList false
      ({ mTblNameList := ["t1".toList, "t2".toList],
         mTblColNameList := ["t1.x".toList, "t2.y".toList, "z".toList] }, false)
      (by decide)).2.2 (by unfold QuoteFree; decide)⟩

/-- The statement `select c from T` for plain identifiers, which names the table `T`
in its FROM clause and has no WHERE clause: the table list and the table-column list
are empty. -/
theorem run_scenario_from_only (c T : List Char) (hc : PlainFacts c) (hT : PlainFacts T)
    (hlen : ("select ".toList ++ c ++ " from ".toList ++ T).length
      < 4294967296) (flag : Bool) :
    ProcessQuery 20 ("select ".toList ++ c ++ " from ".toList ++ T) flag
      = some ({ mTblNameList := [],
                mTblColNameList := [] }, false) := by
  have s0 : SimpleWord ['f', 'r', 'o', 'm'] := by decide
  have s1 : SimpleWord ['s', 'e', 'l', 'e', 'c', 't'] := by decide
  have hq : "select ".toList ++ c ++ " from ".toList ++ T
      = render [.word "select".toList, .space, .word c, .space, .word "from".toList, .space,
       .word T] := by
    simp [render, Seg.text]
  have hok : SegsOK [.word "select".toList, .space, .word c, .space, .word "from".toList, .space,
       .word T] := by
    simp [SegsOK, ends_word, no_space_first, token_separators, hc.simpleWord, hT.simpleWord,
      s0, s1]
  rw [hq] at hlen ⊢
  rw [ProcessQuery_render _ hok hlen]
  unfold ProcessSegs initial_state
  repeat
    rw [ProcessSegs_loop_succ]
    simp [loop_body_on, seg_next, seg_next_at, seg_back, process_token_on,
      process_from_on, process_where_on, process_open_on, process_close,
      apply_state_reset, find_table_name_of_alias_tblname,
      store_table_name_uniquely, store_table_col_name_uniquely,
      token_select_facts, token_name_facts, token_from_facts, token_where_facts,
      token_as_facts, token_star_facts, token_comma_facts, token_dot_facts,
      token_eq_facts, token_gt_facts,
      PlainFacts.ne_nil, PlainFacts.ne_open, PlainFacts.ne_close, PlainFacts.ne_comma,
      PlainFacts.ne_semicolon, PlainFacts.ne_dot, PlainFacts.ne_AS', PlainFacts.ne_as',
      PlainFacts.set_state, PlainFacts.not_reserved, PlainFacts.not_operator,
      PlainFacts.valid_name,
      hc, hT]

/-! ### Which tables of the FROM clause reach the result -/

theorem ResStep.tables_mono {r r' : TblColList} (h : ResStep r r') :
    ∀ t ∈ r.mTblNameList, t ∈ r'.mTblNameList := by
  intro t ht
  rcases h with rfl | ⟨a, c, rfl⟩ | ⟨tables, c, _, rfl⟩
  · exact ht
  · exact mem_store_table_name_uniquely.mpr (Or.inl ht)
  · exact (mem_foldl_store tables _ _).mpr (Or.inl ht)

/-- A table name in the result stays there until the driver loop returns. -/
theorem ProcessQuery_loop_tables_mono (q : List Char) (fuel : Nat)
    (st st' : DriverState) (h : ProcessQuery_loop q fuel st = some st') :
    ∀ t ∈ st.pRes.mTblNameList, t ∈ st'.pRes.mTblNameList := by
  intro t ht
  exact ProcessQuery_loop_invariant (fun r => t ∈ r.mTblNameList)
    (fun r r' hr hs => hs.tables_mono t hr) q fuel st st' ht h

/-- The Where block on a valid name whose lookahead is not `.`: every name of
`table_name_list` is in the table list of the result afterwards. -/
theorem process_where_records_active (q tok : List Char) (st : DriverState)
    (hv : is_valid_tblcol_name tok = true)
    (hn : (get_next_valid_token q st.index).1 ≠ ['.']) :
    ∀ t ∈ st.table_name_list, t ∈ (process_where q tok st).state.pRes.mTblNameList := by
  intro t ht
  unfold process_where
  rw [if_neg (by simp [hv])]
  simp only
  rw [if_neg hn]
  split
  · rename_i hlen
    cases hl : st.table_name_list with
    | nil => rw [hl] at ht; cases ht
    | cons a l =>
      rw [hl] at hlen ht
      have hnil : l = [] := by
        cases l with
        | nil => rfl
        | cons b l' => simp at hlen
      rw [hnil] at ht
      simp only [List.mem_singleton] at ht
      simp only [Outcome.state, List.headD_cons]
      exact mem_store_table_name_uniquely.mpr (Or.inr ht)
  · simp only [Outcome.state]
    exact (mem_foldl_store _ _ _).mpr (Or.inr ht)

/-- C6, amended. The table list of the result holds the tables against which a
column of a WHERE, ON or BY position was recorded, not every table read in the
From state.  For all plain identifiers `c`, `T` the statement `select c from T`
returns an empty table list and an empty table-column list; so does every
statement none of whose current tokens is WHERE, ON or BY in any letter case,
when `ProcessQuery` returns.  When the Where block takes a valid name whose
lookahead is not `.`, every name of `table_name_list` is in the table list of
the result afterwards, and a name in the table list of the result stays there
until the driver loop returns.  And for all plain identifiers `T`, `c` the
statement `select c from T where c>9` returns the table list `[T]`.  The two
families hold from either value of the reset flag, for every bound of at least
20 iterations, for statements shorter than `2^32` characters. -/
theorem from_tables_recorded_by_where :
    (∀ (c T : List Char), plain_identifier c = true → plain_identifier T = true →
        ("select ".toList ++ c ++ " from ".toList ++ T).length < 4294967296 →
        ∀ (fuel : Nat), 20 ≤ fuel → ∀ (flag : Bool),
        ProcessQuery fuel ("select ".toList ++ c ++ " from ".toList ++ T) flag
          = some ({ mTblNameList := [], mTblColNameList := [] }, false))
    ∧ (∀ (fuel : Nat) (q : List Char) (flag : Bool) (p : TblColList × Bool),
        (∀ t ∈ current_tokens q fuel (initial_state flag), ¬ is_where_keyword t) →
        ProcessQuery fuel q flag = some p →
        p.1 = { mTblNameList := [], mTblColNameList := [] })
    ∧ (∀ (q tok : List Char) (st : DriverState),
        is_valid_tblcol_name tok = true →
        (get_next_valid_token q st.index).1 ≠ ['.'] →
        ∀ t ∈ st.table_name_list, t ∈ (process_where q tok st).state.pRes.mTblNameList)
    ∧ (∀ (q : List Char) (fuel : Nat) (st st' : DriverState),
        ProcessQuery_loop q fuel st = some st' →
        ∀ t ∈ st.pRes.mTblNameList, t ∈ st'.pRes.mTblNameList)
    ∧ (∀ (T c : List Char), plain_identifier T = true → plain_identifier c = true →
        ("select ".toList ++ c ++ " from ".toList ++ T ++ " where ".toList ++ c
          ++ ">9".toList).length < 4294967296 →
        ∀ (fuel : Nat), 20 ≤ fuel → ∀ (flag : Bool),
        ProcessQuery fuel
            ("select ".toList ++ c ++ " from ".toList ++ T ++ " where ".toList ++ c
              ++ ">9".toList) flag
          = some ({ mTblNameList := [T], mTblColNameList := [T ++ ['.'] ++ c] }, false)) :=
  ⟨fun c T hc hT hlen fuel hfuel flag =>
    ProcessQuery_mono _ flag 20 _
      (run_scenario_from_only c T (plain_identifier_facts hc) (plain_identifier_facts hT)
        hlen flag) fuel hfuel,
   ProcessQuery_neverInWhere,
   process_where_records_active,
   ProcessQuery_loop_tables_mono,
   fun T c hT hc hlen fuel hfuel flag =>
    ProcessQuery_mono _ flag 20 _
      (run_scenario_D T c (plain_identifier_facts hT) (plain_identifier_facts hc)
        hlen flag) fuel hfuel⟩

theorem from_tables_recorded_by_where_witness :
    ProcessQuery 20 "select name from emp".toList true
        = some ({ mTblNameList := [], mTblColNameList := [] }, false)
    ∧ (∀ t ∈ current_tokens "select e.name, id from employee e, person".toList 20
          (initial_state false), ¬ is_where_keyword t)
    ∧ ProcessQuery 20 "select e.name, id from employee e, person".toList false
        = some ({ mTblNameList := [], mTblColNameList := [] }, false)
    ∧ (({ mTblNameList := [], mTblColNameList := [] }, false) : TblColList × Bool).1
        = { mTblNameList := [], mTblColNameList := [] }
    ∧ (∀ t ∈ ["t1".toList, "t2".toList],
        t ∈ (process_where "a = 1".toList "a".toList
              { initial_state false with index := 1, current_state := .WHERE,
                                         table_name_list := ["t1".toList, "t2".toList] }
            ).state.pRes.mTblNameList)
    ∧ (∀ t ∈ ["z".toList],
        t ∈ ["z".toList, "t".toList])
    ∧ ProcessQuery 20 "select id from emp where id>9".toList false
        = some ({ mTblNameList := ["emp".toList],
                  mTblColNameList := ["emp".toList ++ ['.'] ++ "id".toList] }, false) :=
  ⟨from_tables_recorded_by_where.1 "name".toList "emp".toList (by decide) (by decide)
      (by decide) 20 (Nat.le_refl 20) true,
   by decide, by decide,
   from_tables_recorded_by_where.2.1 20 "select e.name, id from employee e, person".toList
      false ({ mTblNameList := [], mTblColNameList := [] }, false) (by decide) (by decide),
   from_tables_recorded_by_where.2.2.1 "a = 1".toList "a".toList
      { initial_state false with index := 1, current_state := .WHERE,
                                 table_name_list := ["t1".toList, "t2".toList] }
      (by decide) (by decide),
   from_tables_recorded_by_where.2.2.2.1 "a = 1".toList 5
      { initial_state false with
          current_state := .WHERE, table_name_list := ["t".toList],
          pRes := { mTblNameList := ["z".toList], mTblColNameList := [] } }
      { index := 5, table_name_list := ["t".toList], current_state := .WHERE,
        previous_state := .NONE, lookup_table_list := [], query_state_stack := [],
        pRes := { mTblNameList := ["z".toList, "t".toList],
                  mTblColNameList := ["t.a".toList] },
        state_reset_needed := false }
      (by decide),
   from_tables_recorded_by_where.2.2.2.2 "emp".toList "id".toList (by decide) (by decide)
      (by decide) 20 (Nat.le_refl 20) false⟩

/-! ### The MAX rewrite in the reader -/

/-- The reader on a MAX call, MAX in any letter case: at a cursor where the
input goes on with `m(w)`, `m` a spelling of MAX and `w` a plain identifier,
the token returned is `w` and the cursor is left past the `)`. -/
theorem get_next_valid_token_max_call (query : List Char) (i : Nat)
    (m w rest : List Char)
    (hm : m ∈ ["max".toList, "maX".toList, "mAx".toList, "mAX".toList, "Max".toList,
      "MaX".toList, "MAx".toList, "MAX".toList])
    (hw : plain_identifier w = true)
    (h : query.drop i = m ++ '(' :: (w ++ ')' :: rest)) :
    get_next_valid_token query i = (w, i + w.length + 5) := by
  have hf := plain_identifier_facts hw
  have key : convert_to_uppercase m = "MAX".toList ∧ (∀ d ∈ m, WordChar d)
      ∧ is_valid_token m = true ∧ m.length = 3 := by
    simp only [List.mem_cons, List.mem_singleton, List.not_mem_nil, or_false] at hm
    rcases hm with rfl | rfl | rfl | rfl | rfl | rfl | rfl | rfl <;> decide
  obtain ⟨k1, k2, k3, k4⟩ := key
  rw [get_next_valid_token_max h k1 k2 k3 hf.ne_nil hf.wordChars, k4]
  have e : i + 3 + 1 + w.length + 1 = i + w.length + 5 := by omega
  rw [e]

theorem max_statement_drop (T c : List Char) :
    ("select * from ".toList ++ T ++ " where max(".toList ++ c ++ ") > 100".toList).drop
        (21 + T.length)
      = "max".toList ++ '(' :: (c ++ ')' :: " > 100".toList) := by
  have hs : "select * from ".toList ++ T ++ " where max(".toList ++ c ++ ") > 100".toList
      = ("select * from ".toList ++ T ++ " where ".toList)
        ++ ("max".toList ++ '(' :: (c ++ ')' :: " > 100".toList)) := by
    simp
  have hl : ("select * from ".toList ++ T ++ " where ".toList).length = 21 + T.length := by
    simp only [List.length_append]
    have h1 : "select * from ".toList.length = 14 := by decide
    have h2 : " where ".toList.length = 7 := by decide
    omega
  rw [hs, ← hl]
  exact List.drop_left _ _

/-- C11. MAX rewrite (Scenario F).  In the reader: at every cursor of every
input where a spelling of MAX, in any letter case, is followed by `(`, a plain
identifier `w` and `)`, `get_next_valid_token` returns `w` in place of the
call and leaves the cursor past the `)`.  In the driver: for all plain
identifiers `T`, `c`, on the statement `select * from T where max(c) > 100`
the reader called at the cursor of `max` returns `c` with the cursor past the
`)`, and `ProcessQuery` gives the table list `[T]` and the table-column list
`[T.c]`, which contains `T.c`, from either value of the reset flag, for every
bound of at least 20 iterations, for statements shorter than `2^32`
characters. -/
theorem max_rewrite :
    (∀ (query : List Char) (i : Nat) (m w rest : List Char),
        m ∈ ["max".toList, "maX".toList, "mAx".toList, "mAX".toList, "Max".toList,
          "MaX".toList, "MAx".toList, "MAX".toList] →
        plain_identifier w = true →
        query.drop i = m ++ '(' :: (w ++ ')' :: rest) →
        get_next_valid_token query i = (w, i + w.length + 5))
    ∧ (∀ (T c : List Char), plain_identifier T = true → plain_identifier c = true →
        ("select * from ".toList ++ T ++ " where max(".toList ++ c
          ++ ") > 100".toList).length < 4294967296 →
        get_next_valid_token
            ("select * from ".toList ++ T ++ " where max(".toList ++ c
              ++ ") > 100".toList) (21 + T.length)
          = (c, 21 + T.length + c.length + 5)
        ∧ ∀ (fuel : Nat), 20 ≤ fuel → ∀ (flag : Bool),
          ProcessQuery fuel
              ("select * from ".toList ++ T ++ " where max(".toList ++ c
                ++ ") > 100".toList) flag
            = some ({ mTblNameList := [T],
                      mTblColNameList := [T ++ ".".toList ++ c] }, false)) :=
  ⟨get_next_valid_token_max_call,
   fun T c hT hc hlen =>
    ⟨get_next_valid_token_max_call _ _ "max".toList c " > 100".toList (by decide) hc
        (max_statement_drop T c),
     fun fuel hfuel flag =>
      ProcessQuery_mono _ flag 20 _
        (run_scenario_max T c (plain_identifier_facts hT) (plain_identifier_facts hc)
          hlen flag) fuel hfuel⟩⟩

theorem max_rewrite_witness :
    get_next_valid_token "x > Max(amount) and y".toList 4 = ("amount".toList, 15)
    ∧ get_next_valid_token "select * from sales where max(amount) > 100".toList 26
        = ("amount".toList, 37)
    ∧ ProcessQuery 20 "select * from sales where max(amount) > 100".toList false
        = some ({ mTblNameList := ["sales".toList],
                  mTblColNameList := ["sales.amount".toList] }, false) :=
  ⟨max_rewrite.1 "x > Max(amount) and y".toList 4 "Max".toList "amount".toList
      " and y".toList (by decide) (by decide) (by decide),
   (max_rewrite.2 "sales".toList "amount".toList (by decide) (by decide) (by decide)).1,
   (max_rewrite.2 "sales".toList "amount".toList (by decide) (by decide) (by decide)).2 20
      (Nat.le_refl 20) false⟩

/-! ### The clear of the active table list -/

theorem set_state_flag_of_unchanged (tok : List Char) (cs ps : token_state_t)
    (flag : Bool) (h : (set_state tok cs ps flag).changed = false) :
    (set_state tok cs ps flag).state_reset_needed = flag := by
  revert h
  unfold set_state
  simp only
  split_ifs <;> simp

theorem process_from_tables (q tok : List Char) (st : DriverState) :
    (process_from q tok st).state.state_reset_needed = st.state_reset_needed
    ∧ ∀ t ∈ (process_from q tok st).state.table_name_list,
        t ∈ st.table_name_list ∨ t = tok := by
  unfold process_from
  simp only
  split
  · exact ⟨rfl, fun t ht => Or.inl ht⟩
  · split
    · refine ⟨rfl, fun t ht => ?_⟩
      simpa [Outcome.state] using ht
    · split
      · split
        · refine ⟨rfl, fun t ht => ?_⟩
          simpa [Outcome.state] using ht
        · refine ⟨rfl, fun t ht => ?_⟩
          simpa [Outcome.state] using ht
      · refine ⟨rfl, fun t ht => ?_⟩
        simpa [Outcome.state] using ht

theorem process_where_tables (q tok : List Char) (st : DriverState) :
    (process_where q tok st).state.state_reset_needed = st.state_reset_needed
    ∧ (process_where q tok st).state.table_name_list = st.table_name_list := by
  unfold process_where
  simp only
  split
  · exact ⟨rfl, rfl⟩
  · split
    · split
      · exact ⟨rfl, rfl⟩
      · split <;> exact ⟨rfl, rfl⟩
    · split <;> exact ⟨rfl, rfl⟩

theorem process_token_tables (q tok : List Char) (st : DriverState) :
    (process_token q tok st).state.state_reset_needed = st.state_reset_needed
    ∧ ∀ t ∈ (process_token q tok st).state.table_name_list,
        t ∈ st.table_name_list ∨ t = tok := by
  unfold process_token
  split
  · exact ⟨rfl, fun t ht => Or.inl ht⟩
  · split
    · exact ⟨rfl, fun t ht => Or.inl ht⟩
    · split
      · exact process_from_tables q tok st
      · split
        · obtain ⟨h1, h2⟩ := process_where_tables q tok st
          exact ⟨h1, fun t ht => Or.inl (by rw [← h2]; exact ht)⟩
        · exact ⟨rfl, fun t ht => Or.inl ht⟩

/-- A SELECT or UNION token, in any letter case, schedules the clear: the
iteration sets the reset flag and both states, and leaves `table_name_list` as
it is. -/
theorem loop_body_schedules_clear (q : List Char) (st : DriverState)
    (h : convert_to_uppercase (get_next_valid_token q st.index).1 = "SELECT".toList
      ∨ convert_to_uppercase (get_next_valid_token q st.index).1 = "UNION".toList) :
    (loop_body q st).state.state_reset_needed = true
    ∧ (loop_body q st).state.current_state = .SELECT
    ∧ (loop_body q st).state.previous_state = .SELECT
    ∧ (loop_body q st).state.table_name_list = st.table_name_list := by
  have h1 : (get_next_valid_token q st.index).1 ≠ [] := by
    intro h0
    rw [h0] at h
    rcases h with h | h <;> exact absurd h (by decide)
  have h2 : (get_next_valid_token q st.index).1 ≠ ['('] := by
    intro h0
    rw [h0] at h
    rcases h with h | h <;> exact absurd h (by decide)
  have h3 : (get_next_valid_token q st.index).1 ≠ [')'] := by
    intro h0
    rw [h0] at h
    rcases h with h | h <;> exact absurd h (by decide)
  have hs : set_state (get_next_valid_token q st.index).1 st.current_state
      st.previous_state st.state_reset_needed
        = { changed := true, current_state := .SELECT, previous_state := .SELECT,
            state_reset_needed := true } := by
    unfold set_state
    simp only [if_pos h]
  unfold loop_body
  simp only [h1, h2, h3, hs, if_false, if_true, Outcome.state, and_self]

/-- The scheduled clear is applied at the next current token that is not a
parenthesis and does not change the state, before the token is processed:
after the iteration the reset flag is down and `table_name_list` holds no
table recorded before, only, at most, the token of this iteration. -/
theorem loop_body_applies_clear (q : List Char) (st : DriverState)
    (hflag : st.state_reset_needed = true)
    (h1 : (get_next_valid_token q st.index).1 ≠ [])
    (h2 : (get_next_valid_token q st.index).1 ≠ ['('])
    (h3 : (get_next_valid_token q st.index).1 ≠ [')'])
    (hch : (set_state (get_next_valid_token q st.index).1 st.current_state
      st.previous_state st.state_reset_needed).changed = false) :
    (loop_body q st).state.state_reset_needed = false
    ∧ ∀ t ∈ (loop_body q st).state.table_name_list,
        t = (get_next_valid_token q st.index).1 := by
  have hf : (set_state (get_next_valid_token q st.index).1 st.current_state
      st.previous_state st.state_reset_needed).state_reset_needed = true :=
    (set_state_flag_of_unchanged _ _ _ _ hch).trans hflag
  unfold loop_body
  simp only [h1, h2, h3, if_false]
  rw [if_neg (by rw [hch]; decide)]
  have hr : apply_state_reset
      { st with
        index := (get_next_valid_token q st.index).2,
        current_state := (set_state (get_next_valid_token q st.index).1
          st.current_state st.previous_state st.state_reset_needed).current_state,
        previous_state := (set_state (get_next_valid_token q st.index).1
          st.current_state st.previous_state st.state_reset_needed).previous_state,
        state_reset_needed := (set_state (get_next_valid_token q st.index).1
          st.current_state st.previous_state st.state_reset_needed).state_reset_needed }
      = { st with
        index := (get_next_valid_token q st.index).2,
        current_state := (set_state (get_next_valid_token q st.index).1
          st.current_state st.previous_state st.state_reset_needed).current_state,
        previous_state := (set_state (get_next_valid_token q st.index).1
          st.current_state st.previous_state st.state_reset_needed).previous_state,
        table_name_list := [],
        state_reset_needed := false } := by
    unfold apply_state_reset
    simp only [hf, if_true, Bool.not_true]
  rw [hr]
  obtain ⟨p1, p2⟩ := process_token_tables q (get_next_valid_token q st.index).1
    { st with
        index := (get_next_valid_token q st.index).2,
        current_state := (set_state (get_next_valid_token q st.index).1
          st.current_state st.previous_state st.state_reset_needed).current_state,
        previous_state := (set_state (get_next_valid_token q st.index).1
          st.current_state st.previous_state st.state_reset_needed).previous_state,
        table_name_list := [],
        state_reset_needed := false }
  refine ⟨p1, fun t ht => ?_⟩
  rcases p2 t ht with h | h
  · cases h
  · exact h

theorem set_state_flag_of_set (tok : List Char) (cs ps : token_state_t) :
    (set_state tok cs ps true).state_reset_needed = true := by
  unfold set_state
  simp only
  split_ifs <;> rfl

theorem process_open_flag (q : List Char) (st : DriverState) :
    (process_open q st).state.state_reset_needed = st.state_reset_needed := by
  unfold process_open
  simp only
  split <;> rfl

theorem process_close_flag (st : DriverState) :
    (process_close st).state.state_reset_needed = st.state_reset_needed := by
  unfold process_close
  split
  · rfl
  · split <;> rfl

/-- A scheduled clear waits: an iteration whose current token is a parenthesis
or changes the state leaves a set reset flag set. -/
theorem loop_body_keeps_scheduled_clear (q : List Char) (st : DriverState)
    (hflag : st.state_reset_needed = true)
    (h : (get_next_valid_token q st.index).1 = ['(']
      ∨ (get_next_valid_token q st.index).1 = [')']
      ∨ (set_state (get_next_valid_token q st.index).1 st.current_state
          st.previous_state st.state_reset_needed).changed = true) :
    (loop_body q st).state.state_reset_needed = true := by
  by_cases h1 : (get_next_valid_token q st.index).1 = ['(']
  · rw [loop_body_open q st h1, process_open_flag]
    exact hflag
  · by_cases h2 : (get_next_valid_token q st.index).1 = [')']
    · rw [loop_body_close q st h2, process_close_flag]
      exact hflag
    · have hch : (set_state (get_next_valid_token q st.index).1 st.current_state
          st.previous_state st.state_reset_needed).changed = true := by
        rcases h with h | h | h
        · exact absurd h h1
        · exact absurd h h2
        · exact h
      have hf : (set_state (get_next_valid_token q st.index).1 st.current_state
          st.previous_state st.state_reset_needed).state_reset_needed = true := by
        rw [hflag]
        exact set_state_flag_of_set _ _ _
      unfold loop_body
      simp only [h1, h2, hch, if_true, if_false]
      split
      · exact hflag
      · exact hf

/-- C16, as stated, fails: on
`select * from a where x in (select y from b where k = 1) and z = 1` the table
`a`, recorded before the SELECT of the subquery, is active again when the
column `z` after that SELECT is disambiguated, because the `)` restores the
frame saved at `(`; `z` is recorded as `a.z`. -/
theorem active_tables_restored_counterexample :
    ProcessQuery 40
        "select * from a where x in (select y from b where k = 1) and z = 1".toList false
      = some ({ mTblNameList := ["a".toList, "b".toList],
                mTblColNameList := ["a.x".toList, "b.k".toList, "a.z".toList] },
              false) := by
  decide

/-- C16, amended. The clear of the active table list at SELECT and UNION.  For
every statement and driver state: an iteration whose current token is SELECT
or UNION in any letter case sets the reset flag and both states to `SELECT`
and leaves `table_name_list` as it is; an iteration that starts with the reset
flag set and whose current token is a parenthesis or changes the state leaves
the flag set; an iteration that starts with the reset flag set and whose
current token is not empty, not a parenthesis and does not change the state
ends with the flag down and with no table in `table_name_list` other than its
own token.  And for all plain identifiers
`a ≠ b` and `x`, `y`, the statement
`select * from a where x=1 union select * from b where y=2` gives the table
list `[a, b]` and the table-column list `[a.x, b.y]`, the column `y` being
qualified with `b` alone, from either value of the reset flag, for every bound
of at least 20 iterations, for statements shorter than `2^32` characters. -/
theorem union_clears_active_tables :
    (∀ (q : List Char) (st : DriverState),
        (convert_to_uppercase (get_next_valid_token q st.index).1 = "SELECT".toList
          ∨ convert_to_uppercase (get_next_valid_token q st.index).1 = "UNION".toList) →
        (loop_body q st).state.state_reset_needed = true
        ∧ (loop_body q st).state.current_state = .SELECT
        ∧ (loop_body q st).state.previous_state = .SELECT
        ∧ (loop_body q st).state.table_name_list = st.table_name_list)
    ∧ (∀ (q : List Char) (st : DriverState),
        st.state_reset_needed = true →
        ((get_next_valid_token q st.index).1 = ['(']
          ∨ (get_next_valid_token q st.index).1 = [')']
          ∨ (set_state (get_next_valid_token q st.index).1 st.current_state
              st.previous_state st.state_reset_needed).changed = true) →
        (loop_body q st).state.state_reset_needed = true)
    ∧ (∀ (q : List Char) (st : DriverState),
        st.state_reset_needed = true →
        (get_next_valid_token q st.index).1 ≠ [] →
        (get_next_valid_token q st.index).1 ≠ ['('] →
        (get_next_valid_token q st.index).1 ≠ [')'] →
        (set_state (get_next_valid_token q st.index).1 st.current_state
          st.previous_state st.state_reset_needed).changed = false →
        (loop_body q st).state.state_reset_needed = false
        ∧ ∀ t ∈ (loop_body q st).state.table_name_list,
            t = (get_next_valid_token q st.index).1)
    ∧ (∀ (a b x y : List Char), plain_identifier a = true → plain_identifier b = true →
        plain_identifier x = true → plain_identifier y = true → a ≠ b →
        ("select * from ".toList ++ a ++ " where ".toList ++ x
          ++ "=1 union select * from ".toList ++ b ++ " where ".toList ++ y
          ++ "=2".toList).length < 4294967296 →
        ∀ (fuel : Nat), 20 ≤ fuel → ∀ (flag : Bool),
        ProcessQuery fuel
            ("select * from ".toList ++ a ++ " where ".toList ++ x
              ++ "=1 union select * from ".toList ++ b ++ " where ".toList ++ y
              ++ "=2".toList) flag
          = some ({ mTblNameList := [a, b],
                    mTblColNameList := [a ++ ".".toList ++ x, b ++ ".".toList ++ y] },
                  false)) :=
  ⟨loop_body_schedules_clear, loop_body_keeps_scheduled_clear, loop_body_applies_clear,
   fun a b x y ha hb hx hy hne hlen fuel hfuel flag =>
    ProcessQuery_mono _ flag 20 _
      (run_scenario_union a b x y (plain_identifier_facts ha) (plain_identifier_facts hb)
        (plain_identifier_facts hx) (plain_identifier_facts hy) hne hlen flag) fuel hfuel⟩

theorem union_clears_active_tables_witness :
    ((loop_body "x Union y".toList
        { initial_state false with index := 1, current_state := .WHERE,
                                   table_name_list := ["a".toList] }).state.state_reset_needed
        = true
      ∧ (loop_body "x Union y".toList
          { initial_state false with index := 1, current_state := .WHERE,
                                     table_name_list := ["a".toList] }).state.current_state
        = .SELECT
      ∧ (loop_body "x Union y".toList
          { initial_state false with index := 1, current_state := .WHERE,
                                     table_name_list := ["a".toList] }).state.previous_state
        = .SELECT
      ∧ (loop_body "x Union y".toList
          { initial_state false with index := 1, current_state := .WHERE,
                                     table_name_list := ["a".toList] }).state.table_name_list
        = ["a".toList])
    ∧ (loop_body "select * from b".toList
          { initial_state true with index := 8, current_state := .SELECT,
                                    previous_state := .SELECT,
                                    table_name_list := ["a".toList] }).state.state_reset_needed
        = true
    ∧ ((loop_body "from b".toList
          { initial_state true with index := 4, current_state := .FROM,
                                    table_name_list := ["a".toList] }).state.state_reset_needed
        = false
      ∧ ∀ t ∈ (loop_body "from b".toList
          { initial_state true with index := 4, current_state := .FROM,
                                    table_name_list := ["a".toList] }).state.table_name_list,
          t = (get_next_valid_token "from b".toList 4).1)
    ∧ ProcessQuery 20 "select * from emp where x=1 union select * from dept where y=2".toList
        false
      = some ({ mTblNameList := ["emp".toList, "dept".toList],
                mTblColNameList := ["emp.x".toList, "dept.y".toList] }, false) :=
  ⟨union_clears_active_tables.1 "x Union y".toList
      { initial_state false with index := 1, current_state := .WHERE,
                                 table_name_list := ["a".toList] } (by decide),
   union_clears_active_tables.2.1 "select * from b".toList
      { initial_state true with index := 8, current_state := .SELECT,
                                previous_state := .SELECT,
                                table_name_list := ["a".toList] }
      (by decide) (by decide),
   union_clears_active_tables.2.2.1 "from b".toList
      { initial_state true with index := 4, current_state := .FROM,
                                table_name_list := ["a".toList] }
      (by decide) (by decide) (by decide) (by decide) (by decide),
   union_clears_active_tables.2.2.2 "emp".toList "dept".toList "x".toList "y".toList
      (by decide) (by decide) (by decide) (by decide) (by decide) (by decide) 20
      (Nat.le_refl 20) false⟩

/-- C17, as stated, fails: `select * from 1abc` has no WHERE, ON or BY among
the tokens the reader returns, at any cursor, and `ProcessQuery` returns
nothing on it, within any bound on the iterations and from either value of the
reset flag: in the From state the token `1abc` is not a valid name and is
pushed back, and every later iteration reads it again. -/
theorem select_list_statement_diverges :
    (∀ (i : Nat),
        ¬ is_where_keyword (get_next_valid_token "select * from 1abc".toList i).1)
    ∧ (∀ (fuel : Nat) (flag : Bool),
        ProcessQuery fuel "select * from 1abc".toList flag = none) := by
  constructor
  · intro i
    by_cases hi : i < 18
    · have hall : ∀ j, j < 18 →
          ¬ is_where_keyword (get_next_valid_token "select * from 1abc".toList j).1 := by
        decide
      exact hall i hi
    · have hnil : ¬ is_where_keyword [] := by decide
      rw [get_next_valid_token_end (by simpa using hi)]
      exact hnil
  · intro fuel flag
    have h : ∀ flag, diverges_after "select * from 1abc".toList 4
        (initial_state flag) = true := by decide
    unfold ProcessQuery
    rw [diverges_after_sound _ 4 _ (h flag) fuel]
    rfl

end QParser
